import Mathlib

/-!
# poll: line reader, debounce engine and buffer rotation

A shallow embedding of `src/poll.cc`.  Bytes are natural numbers, a `char *`
into an array is the offset from the start of that array, a nullable pointer
is an `Option`, and the two process exits of `checkpfd` are the error side of
`Except`.  The kernel calls (`read`, `poll`, `stat`, `open`) are inputs of the
functions that make them.  The format argument is parsed in place, in the
array that holds it, as `Argument::parseFormat` does.  Of `main` the `for`
loop over the descriptors and the timeout handed to `poll` are embedded.
For a `strcpy` or `strncpy` whose source and destination overlap C defines no
result: what such a copy leaves is a parameter of the embedding (`Overlap`).
-/

namespace Poll

/-! ## Constants -/

/-- Maximum line length (`const unsigned int bufferSize = 1024`). -/
def bufferSize : Nat := 1024

/-- The sentinel `const long_time_t FOREVER = -1` of the 64 bit unsigned type. -/
def FOREVER : Nat := 2 ^ 64 - 1

/-- Number of segments of the buffer pool of one descriptor. -/
def bufferCount : Nat := 3

/-- Capacity of the output buffer (`outputSize = 2*bufferSize`). -/
def outputSize : Nat := 2 * bufferSize

/-- Linux value of the `poll.h` flag `POLLIN`. -/
def POLLIN : Nat := 1

/-- Linux value of the `poll.h` flag `POLLPRI`. -/
def POLLPRI : Nat := 2

/-- Linux value of the `poll.h` flag `POLLHUP`. -/
def POLLHUP : Nat := 16

/-- Linux value of the `fcntl.h` flag `O_RDONLY`. -/
def O_RDONLY : Nat := 0

/-- Linux value of the `fcntl.h` flag `O_RDWR`. -/
def O_RDWR : Nat := 2

/-- Linux value of the `fcntl.h` flag `O_NONBLOCK`. -/
def O_NONBLOCK : Nat := 2048

/-! ## Machine arithmetic and memory -/

/-- Subtraction of `uint64_t` values. -/
def usub64 (a b : Nat) : Nat := (a % 2 ^ 64 + (2 ^ 64 - b % 2 ^ 64)) % 2 ^ 64

/-- Subtraction of `unsigned int` values. -/
def usub32 (a b : Nat) : Nat := (a % 2 ^ 32 + (2 ^ 32 - b % 2 ^ 32)) % 2 ^ 32

/-- A byte array addressed by offset. -/
abbrev Mem := Nat → Nat

/-- Assignment `m[a] = v`. -/
def store (m : Mem) (a v : Nat) : Mem := fun i => if i = a then v else m i

/-- Copy of the bytes `d` to `m[a], m[a+1], ...`. -/
def storeBytes (m : Mem) (a : Nat) (d : List Nat) : Mem :=
  fun i => if a ≤ i ∧ i < a + d.length then d.getD (i - a) 0 else m i

/-- The `n` bytes `m[a], ..., m[a+n-1]`. -/
def loadBytes (m : Mem) (a n : Nat) : List Nat := (List.range n).map (fun i => m (a + i))

/-- The C string at offset `p`: the bytes before the first NUL; `limit` is the
number of bytes of the array from `p` on, where the scan stops at the latest. -/
def cstr (m : Mem) : Nat → Nat → List Nat
  | 0, _ => []
  | limit + 1, p => if m p = 0 then [] else m p :: cstr m limit (p + 1)

/-- The library call `strpbrk( m + p, accept )` as the offset of the first byte
of the string at `p` that occurs in `accept`, `none` for `NULL`. -/
def strpbrk (m : Mem) (accept : List Nat) : Nat → Nat → Option Nat
  | 0, _ => none
  | limit + 1, p =>
    if m p = 0 then none
    else if m p ∈ accept then some p
    else strpbrk m accept limit (p + 1)

/-- A byte list as an array; reads past its end give NUL. -/
def ofList (l : List Nat) : Mem := fun i => l.getD i 0

/-- The C string at offset `p` of a byte list. -/
def lstr (l : List Nat) (p : Nat) : List Nat := cstr (ofList l) (l.length - p) p

/-- Decimal digits of `val` as bytes, what `"%llu"` prints. -/
def decimal (val : Nat) : List Nat := (Nat.toDigits 10 val).map Char.toNat

/-! ## Output -/

/-- The singleton `output`: the buffer and its write cursor. -/
structure Output where
  outputBuf : Mem
  outputPos : Nat

namespace Output

/-- Start a new line of output. -/
def start (o : Output) : Output := { o with outputPos := 0 }

/-- Add the C string `str` (given by its bytes) to the output buffer; the
second component is the returned length. -/
def string (o : Output) (str : List Nat) : Output × Nat :=
  let len := str.length
  if len < usub32 outputSize o.outputPos then
    ({ outputBuf := storeBytes o.outputBuf o.outputPos (str ++ [0]),
       outputPos := (o.outputPos + len) % 2 ^ 32 }, len)
  else
    ({ o with outputPos := outputSize }, len)

/-- Add a long real to the output buffer: `snprintf` stores at most
`size - 1` digits and a NUL, and returns the untruncated length. -/
def real (o : Output) (val : Nat) : Output × Int :=
  let digits := decimal val
  let size := usub32 outputSize o.outputPos
  let buf := if size = 0 then o.outputBuf
    else storeBytes o.outputBuf o.outputPos (digits.take (size - 1) ++ [0])
  let len : Int := digits.length
  if len ≥ 0 then
    ({ outputBuf := buf, outputPos := (o.outputPos + digits.length) % 2 ^ 32 }, len)
  else
    ({ outputBuf := buf, outputPos := outputSize }, len)

/-- The bytes handed to `write( STDOUT_FILENO, outputBuf, outputPos )`; the
write is taken to succeed. -/
def flush (o : Output) : List Nat := loadBytes o.outputBuf 0 o.outputPos

end Output

/-- What the C library makes of a copy whose source and destination overlap,
for which C defines no result: for a copy of the bytes `src` from address `s`
to address `d`, `lib src d s i` is the place in `src` of the byte the copy
leaves at `d + i` (taken modulo the length of `src`). -/
abbrev Overlap := List Nat → Nat → Nat → Nat → Nat

/-- The bytes of `src` in the order `pick` gives: byte `i` of the result is
byte `pick i` of `src`. -/
def garble (pick : Nat → Nat) (src : List Nat) : List Nat :=
  (List.range src.length).map (fun i => src.getD (pick i % src.length) 0)

/-- What a copy of the bytes `src`, which stand at address `s`, leaves at
address `d`: the bytes `src` when the two ranges are apart or are the same
range, and else bytes of `src` in the order the library `lib` copies them. -/
def copied (lib : Overlap) (d s : Nat) (src : List Nat) : List Nat :=
  if d ≠ s ∧ d < s + src.length ∧ s < d + src.length then garble (lib src d s) src else src

/-- A library that copies byte by byte from the first on: a copy to a lower
address is exact also when the ranges overlap. -/
def forward : Overlap := fun _ _ _ i => i

/-- A library that copies a string of 4 to 8 bytes as two moves of four
bytes, first the first four and then the last four, the second loaded after
the first is stored: a byte of the last four that the first move has
overwritten is read as the first move left it. -/
def twoMoves : Overlap :=
  fun src d s i => if src.length - 4 ≤ i ∧ s + i < d + 4 then s + i - d else i

/-- A library whose overlapping copy to a lower address runs from the last
byte to the first: a byte it has written is read again as the source of a
byte below, so that at a distance of one byte the whole destination ends as
the last byte of the source. -/
def backward : Overlap :=
  fun src d s i => if d < s then src.length - 1 - (src.length - 1 - i) % (s - d) else i

/-- The process-wide objects a descriptor works with: the `output` singleton,
the writes made to standard output so far (oldest first), as a trace the
lines for which `printpfd` wrote, and the C library as far as C leaves its
result open (`overlap`). -/
structure Sys where
  output : Output
  stdout : List (List Nat)
  lines : List (List Nat)
  overlap : Overlap

/-! ## Options -/

/-- Poll file descriptor options associated with output.  `format` is the
array the pointer `format` points to, `formatEnd` the offset of the pointer
`formatEnd` in it; `delimiters` holds the bytes of the C string. -/
structure PFDOption where
  format : List Nat
  formatEnd : Nat
  delimiters : List Nat
  debounce : Nat
  duplicates : Bool

/-- The defaults: format `"l\n"`, delimiter `"\n"`, no debounce, duplicates. -/
def PFDOption.init : PFDOption :=
  { format := [108, 10, 0], formatEnd := 2, delimiters := [10], debounce := 0,
    duplicates := true }

/-! ## PollFileDescriptor -/

/-- The ways the process terminates (`exit`). -/
inductive Fatal where
  | stat
  | invalidDevice
  | openFailed
  | read
  | noFreeBuffers
  deriving DecidableEq, Repr

/-- The file kinds `statpfd` tells apart through `S_ISREG`, `S_ISCHR` and
`S_ISFIFO`. -/
inductive FileKind where
  | regular
  | character
  | fifo
  | other
  deriving DecidableEq, Repr

/-- What the call `read( fd, readPtr, count )` meets on an open descriptor: an
error with `errno` `EAGAIN` or `EWOULDBLOCK`, any other error, or the bytes the
file has to offer, of which the call takes at most `count`. -/
inductive ReadResult where
  | wouldBlock
  | failed
  | data (bytes : List Nat)
  deriving DecidableEq, Repr

/-- A file descriptor and all its associated options.  `buffer` is the array
`buffer[bufferCount][bufferSize]` as one run of bytes; `readPtr`, `printPtr`
and `heldPtr` are offsets from `&buffer[0][0]`; `fd` and `events` are the
fields of the descriptor's own `pfd[index]`. -/
structure PollFileDescriptor where
  pathname : List Nat
  openMode : Nat
  pollEvents : Nat
  reseek : Bool
  readTime : Nat
  option : PFDOption
  buffer : Mem
  bufferIndex : Nat
  readPtr : Nat
  printPtr : Nat
  heldPtr : Option Nat
  fd : Int
  events : Nat

namespace PollFileDescriptor

/-- The C string at offset `p` of `buffer`. -/
def bstr (m : Mem) (p : Nat) : List Nat := cstr m (bufferCount * bufferSize - p) p

/-- Check status and set modes for a pathname; `kind` is the answer of `stat`,
`none` when it fails.  Yields `(openMode, pollEvents, reseek)`. -/
def statpfd (kind : Option FileKind) : Except Fatal (Nat × Nat × Bool) :=
  match kind with
  | none => .error .stat
  | some .regular => .ok (O_RDONLY, POLLPRI, true)
  | some .character => .ok (O_RDONLY ||| O_NONBLOCK, POLLIN, false)
  | some .fifo => .ok (O_RDWR ||| O_NONBLOCK, POLLIN, false)
  | some .other => .error .invalidDevice

/-- Open the file descriptor and set the modes; `opened` is the result of
`open`.  The object is static, so its buffers start zeroed. -/
def openpfd (fname : List Nat) (argOption : PFDOption) (kind : Option FileKind)
    (opened : Int) : Except Fatal PollFileDescriptor :=
  match statpfd kind with
  | .error e => .error e
  | .ok (mode, ev, rs) =>
    if opened < 0 then .error .openFailed
    else .ok
      { pathname := fname, openMode := mode, pollEvents := ev, reseek := rs,
        readTime := 0, option := argOption,
        buffer := store (fun _ => 0) 0 0,
        bufferIndex := 1, readPtr := 1 * bufferSize, printPtr := 0,
        heldPtr := none, fd := opened, events := ev }

/-- Returns bit set of buffer which pointer is in (an `uint8_t`). -/
def bufferOf (ptr : Option Nat) : Nat :=
  match ptr with
  | some p => (1 <<< (p / bufferSize)) % 256
  | none => 0

/-- Read from a pfd.  A negative descriptor makes `read` fail with `EBADF`.
Yields the new state and the returned count. -/
def readpfd (s : PollFileDescriptor) (rd : ReadResult) :
    Except Fatal (PollFileDescriptor × Nat) :=
  let base := s.bufferIndex * bufferSize
  let count := (bufferSize - 2 + base + (2 ^ 64 - s.readPtr % 2 ^ 64)) % 2 ^ 64
  match (if s.fd < 0 then ReadResult.failed else rd) with
  | .wouldBlock => .ok (s, 0)
  | .failed => .error .read
  | .data bytes =>
    let got := bytes.take count
    let buf := storeBytes s.buffer s.readPtr got
    let ptr := s.readPtr + got.length
    if ptr = bufferSize - 2 + base then
      .ok ({ s with
              buffer := store (store buf ptr (s.option.delimiters.headD 0)) (ptr + 1) 0,
              readPtr := ptr + 1 }, got.length + 1)
    else
      .ok ({ s with buffer := store buf ptr 0, readPtr := ptr }, got.length)

/-- One round of the format loop of `printpfd` per unit of `fuel`; the cursor
advances by at least two per round, so `formatEnd - formatPtr` rounds are all
there can be. -/
def formatLoop (s : PollFileDescriptor) (line : List Nat) : Nat → Nat → Output → Output
  | 0, _, o => o
  | fuel + 1, formatPtr, o =>
    if formatPtr < s.option.formatEnd then
      let c := s.option.format.getD formatPtr 0
      let o1 :=
        if c = 43 then o
        else if c = 108 then (o.string line).1
        else if c = 112 then (o.string s.pathname).1
        else if c = 116 then (o.real s.readTime).1
        else (o.string [37]).1
      let r := o1.string (lstr s.option.format (formatPtr + 1))
      formatLoop s line fuel (formatPtr + (r.2 + 2)) r.1
    else o

/-- Print and update printPtr to point to what we just printed. -/
def printpfd (s : PollFileDescriptor) (w : Sys) (startPtr : Nat) :
    PollFileDescriptor × Sys :=
  let line := bstr s.buffer startPtr
  if s.buffer startPtr ≠ 0 ∧
      (s.option.duplicates = true ∨ bstr s.buffer s.printPtr ≠ line) then
    let o := formatLoop s line s.option.formatEnd 0 w.output.start
    ({ s with printPtr := startPtr },
     { w with output := o, stdout := w.stdout ++ [o.flush], lines := w.lines ++ [line] })
  else (s, w)

/-- The loop of `checkpfd` that steps through the lines in the buffer, one
round per unit of `fuel`; `startPtr` moves up by at least one per round and
`strpbrk` finds nothing past the end of `buffer`.  Yields the state and the
final `startPtr`. -/
def scanLines : Nat → PollFileDescriptor → Sys → Nat → Bool →
    PollFileDescriptor × Sys × Nat
  | 0, s, w, startPtr, _ => (s, w, startPtr)
  | fuel + 1, s, w, startPtr, nobounce =>
    match strpbrk s.buffer s.option.delimiters (bufferCount * bufferSize - startPtr)
        startPtr with
    | none => (s, w, startPtr)
    | some eolPtr =>
      let s1 := { s with buffer := store s.buffer eolPtr 0 }
      let r := if nobounce then printpfd s1 w startPtr
        else ({ s1 with heldPtr := some startPtr }, w)
      scanLines fuel r.1 r.2 (eolPtr + 1) (s.option.debounce == 0)

/-- The search `for( bufferIndex = 0; buffersUsed & (1<<bufferIndex); ++bufferIndex )`
with its exit in the body, started at `bufferIndex` with `room` indices left
below `bufferCount`. -/
def findBuffer (buffersUsed : Nat) : Nat → Nat → Except Fatal Nat
  | 0, bufferIndex =>
    if buffersUsed &&& (1 <<< bufferIndex) ≠ 0 then .error .noFreeBuffers
    else .ok bufferIndex
  | room + 1, bufferIndex =>
    if buffersUsed &&& (1 <<< bufferIndex) ≠ 0 then findBuffer buffersUsed room (bufferIndex + 1)
    else .ok bufferIndex

/-- The tail of the read branch of `checkpfd`: find a buffer which does not
have printPtr or heldPtr in it and copy the unfinished line to its start, with
`strncpy( readPtr, startPtr, remainder )`.  When the search ends at the active
segment and lines were finished, source and destination of that copy overlap;
what it leaves is then up to the library (`w.overlap`). -/
def rotate (w : Sys) (s : PollFileDescriptor) (startPtr : Nat) :
    Except Fatal PollFileDescriptor :=
  let buffersUsed := bufferOf (some s.printPtr) ||| bufferOf s.heldPtr
  match findBuffer buffersUsed bufferCount 0 with
  | .error e => .error e
  | .ok idx =>
    let readPtr := idx * bufferSize
    let remainder := (bstr s.buffer startPtr).length
    if remainder ≠ 0 then
      .ok { s with
            bufferIndex := idx,
            buffer := storeBytes s.buffer readPtr
              (copied w.overlap readPtr startPtr (loadBytes s.buffer startPtr remainder)),
            readPtr := readPtr + remainder }
    else
      .ok { s with bufferIndex := idx, readPtr := readPtr }

/-- The test `now - readTime >= option.debounce` at the head of `checkpfd`. -/
def nobounce (s : PollFileDescriptor) (now : Nat) : Bool :=
  decide (usub64 now s.readTime ≥ s.option.debounce)

/-- Held data from a debounce might need printing. -/
def settleHeld (s : PollFileDescriptor) (w : Sys) (now : Nat) : PollFileDescriptor × Sys :=
  match s.heldPtr with
  | some h =>
    if nobounce s now = true then
      ({ (printpfd s w h).1 with heldPtr := none }, (printpfd s w h).2)
    else (s, w)
  | none => (s, w)

/-- An end of file (`POLLHUP` among `revents`) disables polling of the fd. -/
def hangUp (s : PollFileDescriptor) (revents : Nat) : PollFileDescriptor :=
  if revents &&& POLLHUP ≠ 0 then { s with fd := -1 } else s

/-- The value `checkpfd` returns: the time we need to be checked again. -/
def wakeTime (s : PollFileDescriptor) (now : Nat) : Nat :=
  if s.heldPtr.isSome then usub64 s.option.debounce (usub64 now s.readTime) else FOREVER

/-- The body of `checkpfd( now )` down to the buffer search: held data printed,
hang-up noted and, if there is data to read, the lines of the buffer stepped
through.  The third component is the final `startPtr` when data was read and
`none` when the read branch was not taken. -/
def readLines (s : PollFileDescriptor) (w : Sys) (now revents : Nat) (rd : ReadResult) :
    Except Fatal (PollFileDescriptor × Sys × Option Nat) :=
  let r := settleHeld s w now
  let s2 := hangUp r.1 revents
  if revents &&& s2.events ≠ 0 then
    match readpfd s2 rd with
    | .error e => .error e
    | .ok (s3, charCount) =>
      if charCount ≠ 0 then
        let x := scanLines bufferSize { s3 with readTime := now } r.2
          (s3.bufferIndex * bufferSize) (nobounce s now)
        .ok (x.1, x.2.1, some x.2.2)
      else .ok (s3, r.2, none)
  else .ok (s2, r.2, none)

/-- Check readable data, debounce and held data for uniqueness.  `revents` is
`pfd[index].revents` and `rd` what `read` meets in this wake. -/
def checkpfd (s : PollFileDescriptor) (w : Sys) (now revents : Nat) (rd : ReadResult) :
    Except Fatal (PollFileDescriptor × Sys × Nat) :=
  match readLines s w now revents rd with
  | .error e => .error e
  | .ok (s5, w5, some startPtr) =>
    match rotate w5 s5 startPtr with
    | .error e => .error e
    | .ok s6 => .ok (s6, w5, wakeTime s6 now)
  | .ok (s5, w5, none) => .ok (s5, w5, wakeTime s5 now)

/-- The states a descriptor can be in: the one `openpfd` leaves, and every
state a returning `checkpfd` leaves from one of them, whatever the time, the
events, the read and the state of the shared output. -/
inductive Reachable : PollFileDescriptor → Prop where
  | opened (fname : List Nat) (argOption : PFDOption) (kind : Option FileKind)
      (opened : Int) (s : PollFileDescriptor) :
      openpfd fname argOption kind opened = .ok s → Reachable s
  | wake (s : PollFileDescriptor) (w : Sys) (now revents : Nat) (rd : ReadResult)
      (r : PollFileDescriptor × Sys × Nat) :
      Reachable s → checkpfd s w now revents rd = .ok r → Reachable r.1

end PollFileDescriptor

/-! ## Predicates used to state the properties -/

namespace PollFileDescriptor

/-- The string at `p` ends inside the segment `p` lies in. -/
def Terminated (m : Mem) (p : Nat) : Prop :=
  ∃ q, p ≤ q ∧ q / bufferSize = p / bufferSize ∧ m q = 0

/-- What holds of a descriptor between two calls of `checkpfd`: the active
segment exists, `readPtr` lies in it and leaves room for a read, both `printPtr`
and `heldPtr` point at terminated strings in other segments, and the
unfinished line below `readPtr` holds no NUL. -/
structure Inv (s : PollFileDescriptor) : Prop where
  idx : s.bufferIndex < bufferCount
  lo : s.bufferIndex * bufferSize ≤ s.readPtr
  hi : s.readPtr ≤ s.bufferIndex * bufferSize + (bufferSize - 2)
  hiD : s.option.delimiters.headD 0 ≠ 0 →
    s.readPtr ≤ s.bufferIndex * bufferSize + (bufferSize - 3)
  pr : s.printPtr < bufferCount * bufferSize
  prSeg : s.printPtr / bufferSize ≠ s.bufferIndex
  prEnd : Terminated s.buffer s.printPtr
  held : ∀ h, s.heldPtr = some h →
    h < bufferCount * bufferSize ∧ h / bufferSize ≠ s.bufferIndex ∧ Terminated s.buffer h
  pend : ∀ i, s.bufferIndex * bufferSize ≤ i → i < s.readPtr → s.buffer i ≠ 0

/-- What holds while `checkpfd` steps through the lines of the active segment
with the scan at `sp` and the sentinel NUL of the read at `e`. -/
structure Mid (s : PollFileDescriptor) (sp e : Nat) : Prop where
  idx : s.bufferIndex < bufferCount
  lo : s.bufferIndex * bufferSize ≤ sp
  le : sp ≤ e
  hi : e ≤ s.bufferIndex * bufferSize + (bufferSize - 1)
  gap : e ≠ s.bufferIndex * bufferSize + (bufferSize - 2)
  nul : s.buffer e = 0
  fill : e = s.bufferIndex * bufferSize + (bufferSize - 1) → sp < e →
    s.buffer (e - 1) = s.option.delimiters.headD 0
  pr : s.printPtr < bufferCount * bufferSize
  prEnd : Terminated s.buffer s.printPtr
  held : ∀ h, s.heldPtr = some h → h < bufferCount * bufferSize ∧ Terminated s.buffer h

/-- The bytes outside the segments `a` and `b` are the same in `m` and `n`. -/
def SameOutside (a b : Nat) (m n : Mem) : Prop :=
  ∀ i, i / bufferSize ≠ a → i / bufferSize ≠ b → n i = m i

end PollFileDescriptor

namespace PollFileDescriptor

/-- The value of a returning call, `d` for one that exits. -/
def returned {α : Type} (d : α) : Except Fatal α → α
  | .ok a => a
  | .error _ => d

/-- The `output` singleton and standard output at program start, with a
library that copies overlapping ranges byte by byte from the first on. -/
def sys0 : Sys :=
  { output := { outputBuf := fun _ => 0, outputPos := 0 }, stdout := [], lines := [],
    overlap := forward }

/-- The descriptor `openpfd` leaves for the named pipe `/tmp/fifo` opened as
descriptor 3 with the default options. -/
def fifo0 : PollFileDescriptor :=
  { pathname := [47, 116, 109, 112, 47, 102, 105, 102, 111],
    openMode := O_RDWR ||| O_NONBLOCK, pollEvents := POLLIN, reseek := false,
    readTime := 0, option := PFDOption.init, buffer := store (fun _ => 0) 0 0,
    bufferIndex := 1, readPtr := 1 * bufferSize, printPtr := 0, heldPtr := none,
    fd := 3, events := POLLIN }

/-- The start `sys0` with the library `backward`. -/
def sysBack : Sys := { sys0 with overlap := backward }

/-- The letters `a` to `z`, over and over, 100 of them. -/
def letters : List Nat := (List.range 100).map (fun i => 97 + i % 26)

/-- The wake of `fifo0` at time 1000 that reads `"o\n"`, at the buffer search. -/
def wake1 : PollFileDescriptor × Sys × Option Nat :=
  returned (fifo0, sys0, none) (readLines fifo0 sys0 1000 POLLIN (.data [111, 10]))

/-- The descriptor after the buffer search of `wake1`. -/
def rotated1 : PollFileDescriptor := returned fifo0 (rotate wake1.2.1 wake1.1 1026)

/-- The wake of `fifo0` at time 1000 that reads `"ab"`, an unfinished line. -/
def wake2 : PollFileDescriptor × Sys × Nat :=
  returned (fifo0, sys0, 0) (checkpfd fifo0 sys0 1000 POLLIN (.data [97, 98]))

end PollFileDescriptor

/-! ## The line-level reading of a descriptor -/

/-- Cut a text at the bytes of `delims`: the finished lines, in order, and the
unfinished rest after the last delimiter. -/
def splitLines (delims : List Nat) : List Nat → List (List Nat) × List Nat
  | [] => ([], [])
  | b :: bs =>
    if b ∈ delims then ([] :: (splitLines delims bs).1, (splitLines delims bs).2)
    else
      match (splitLines delims bs).1 with
      | [] => ([], b :: (splitLines delims bs).2)
      | l :: ls => ((b :: l) :: ls, (splitLines delims bs).2)

/-- The bytes `d` stand at `m[p], m[p+1], ...`. -/
def Holds (m : Mem) : Nat → List Nat → Prop
  | _, [] => True
  | p, b :: bs => m p = b ∧ Holds m (p + 1) bs

/-- What a descriptor amounts to line by line: the line at `printPtr`, the
line at `heldPtr`, the unfinished line in the active segment, the time of the
last read and the lines printed so far. -/
structure LineState where
  last : List Nat
  held : Option (List Nat)
  pend : List Nat
  readTime : Nat
  lines : List (List Nat)

namespace LineState

/-- The effect of `printpfd` on a line. -/
def emit (o : PFDOption) (v : LineState) (l : List Nat) : LineState :=
  if l ≠ [] ∧ (o.duplicates = true ∨ v.last ≠ l) then
    { v with last := l, lines := v.lines ++ [l] }
  else v

/-- The effect of the loop of `checkpfd` on the finished lines of a read. -/
def takeLines (o : PFDOption) : Bool → List (List Nat) → LineState → LineState
  | _, [], v => v
  | nb, l :: ls, v =>
    takeLines o (o.debounce == 0) ls (if nb = true then emit o v l else { v with held := some l })

/-- The effect of the head of `checkpfd` on held data. -/
def settle (o : PFDOption) (v : LineState) (now : Nat) : LineState :=
  match v.held with
  | some h =>
    if usub64 now v.readTime ≥ o.debounce then { emit o v h with held := none } else v
  | none => v

/-- The effect of a wake of `checkpfd` whose `read` is offered `bytes`. -/
def read (o : PFDOption) (v : LineState) (now : Nat) (bytes : List Nat) : LineState :=
  let got := bytes.take (bufferSize - 2 - v.pend.length)
  if got.length = 0 ∧ v.pend.length ≠ bufferSize - 2 then settle o v now
  else
    let text := v.pend ++ got ++
      (if v.pend.length + got.length = bufferSize - 2 ∧ o.delimiters.headD 0 ≠ 0 then
        [o.delimiters.headD 0] else [])
    { takeLines o (decide (usub64 now v.readTime ≥ o.debounce))
        (splitLines o.delimiters text).1 { settle o v now with readTime := now } with
      pend := (splitLines o.delimiters text).2 }

/-- The text the loop of `checkpfd` steps through at a wake: the unfinished
line, the bytes read and, when they fill the segment, the delimiter put after
them. -/
def text (o : PFDOption) (v : LineState) (bytes : List Nat) : List Nat :=
  v.pend ++ bytes.take (bufferSize - 2 - v.pend.length) ++
    (if v.pend.length + (bytes.take (bufferSize - 2 - v.pend.length)).length = bufferSize - 2 ∧
        o.delimiters.headD 0 ≠ 0 then
      [o.delimiters.headD 0] else [])

/-- The unfinished rest of a wake is moved without source and destination
overlapping: there is no rest, or no line was finished and the rest stands at
the start of its segment, or a line was printed and the search leaves the
active segment. -/
def tidy (o : PFDOption) (v : LineState) (now : Nat) (bytes : List Nat) : Bool :=
  (read o v now bytes).pend == [] || (splitLines o.delimiters (text o v bytes)).1 == [] ||
    (read o v now bytes).lines != (settle o v now).lines

end LineState

namespace PollFileDescriptor

/-- The line-level reading of a descriptor and the printed lines. -/
def view (s : PollFileDescriptor) (w : Sys) : LineState :=
  { last := bstr s.buffer s.printPtr,
    held := s.heldPtr.map (bstr s.buffer),
    pend := loadBytes s.buffer (s.bufferIndex * bufferSize)
      (s.readPtr - s.bufferIndex * bufferSize),
    readTime := s.readTime,
    lines := w.lines }

/-- The string at `p` ends at a NUL outside the bytes from `lo` to `hi`. -/
def Sep (m : Mem) (p lo hi : Nat) : Prop :=
  ∃ q, p ≤ q ∧ m q = 0 ∧ (q < lo ∨ hi < p)

end PollFileDescriptor

namespace PollFileDescriptor

/-- The part of `view` the loop of `checkpfd` works on: the lines at `printPtr`
and `heldPtr`, the time of the last read and the printed lines. -/
def heads (s : PollFileDescriptor) (w : Sys) : LineState :=
  { last := bstr s.buffer s.printPtr,
    held := s.heldPtr.map (bstr s.buffer),
    pend := [],
    readTime := s.readTime,
    lines := w.lines }

end PollFileDescriptor

namespace LineState

/-- The effect of a run of wakes, each by a timeout (`none`) or with bytes to
read. -/
def feed (o : PFDOption) : LineState → List (Nat × Option (List Nat)) → LineState
  | v, [] => v
  | v, (now, none) :: rest => feed o (settle o v now) rest
  | v, (now, some bytes) :: rest => feed o (read o v now bytes) rest

/-- Every read of a run of wakes is `tidy`. -/
def tidyFeed (o : PFDOption) : LineState → List (Nat × Option (List Nat)) → Bool
  | _, [] => true
  | v, (now, none) :: rest => tidyFeed o (settle o v now) rest
  | v, (now, some bytes) :: rest => tidy o v now bytes && tidyFeed o (read o v now bytes) rest

end LineState

namespace PollFileDescriptor

/-- A run of wakes of one descriptor, `checkpfd` called at each time in turn:
for `none` the wait timed out and no event is reported, for `some bytes` the
event the descriptor polls for is reported and `read` is offered `bytes`. -/
def feed : PollFileDescriptor → Sys → List (Nat × Option (List Nat)) →
    Except Fatal (PollFileDescriptor × Sys)
  | s, w, [] => .ok (s, w)
  | s, w, (now, none) :: rest =>
    match checkpfd s w now 0 ReadResult.wouldBlock with
    | .error e => .error e
    | .ok r => feed r.1 r.2.1 rest
  | s, w, (now, some bytes) :: rest =>
    match checkpfd s w now s.events (ReadResult.data bytes) with
    | .error e => .error e
    | .ok r => feed r.1 r.2.1 rest

end PollFileDescriptor

/-- No read of the run fills the active segment to its limit `bufferSize-2`:
each chunk, added to the unfinished line before it, stays below the limit. -/
def NoFill (delims : List Nat) : List Nat → List (List Nat) → Prop
  | _, [] => True
  | pend, c :: cs =>
    pend.length + c.length < bufferSize - 2 ∧ NoFill delims (splitLines delims (pend ++ c)).2 cs

namespace PollFileDescriptor

/-- Two complete lines of 600 bytes `a` each, ended by a newline. -/
def twoLines : List Nat := List.replicate 600 97 ++ [10] ++ (List.replicate 600 97 ++ [10])

end PollFileDescriptor

/-- Each read of the burst comes less than `D` after the read before it
(the first of them after time `t`), on a clock that does not wrap. -/
def Bouncing (D : Nat) : Nat → List (Nat × List Nat × Nat) → Prop
  | _, [] => True
  | t, x :: xs => t ≤ x.1 ∧ x.1 < t + D ∧ x.1 < 2 ^ 64 ∧ Bouncing D x.1 xs

/-- The time of the last read of a burst that starts at time `t`. -/
def lastTime : Nat → List (Nat × List Nat × Nat) → Nat
  | t, [] => t
  | _, x :: xs => lastTime x.1 xs

/-- The last line of a burst, `l` when there is no read. -/
def lastLine : List Nat → List (Nat × List Nat × Nat) → List Nat
  | l, [] => l
  | _, x :: xs => lastLine x.2.1 xs

namespace PollFileDescriptor

/-- The descriptor `openpfd` leaves for `/tmp/fifo` with the default options but
a debounce of 100. -/
def fifo100 : PollFileDescriptor :=
  { fifo0 with option := { PFDOption.init with debounce := 100 } }

/-- The reads `"1\n"`, `"2\n"`, `"3\n"` at times 1000, 1005 and 1010, and a
wake by timeout at time 1110. -/
def burst123 : List (Nat × Option (List Nat)) :=
  [(1000, some [49, 10]), (1005, some [50, 10]), (1010, some [51, 10]), (1110, none)]

end PollFileDescriptor

namespace PollFileDescriptor

/-- From `w` to `w'` only writes were added, one for each line added to the
trace of printed lines. -/
def Ext (w w' : Sys) : Prop :=
  ∃ outs ls, w'.stdout = w.stdout ++ outs ∧ w'.lines = w.lines ++ ls ∧ outs.length = ls.length

end PollFileDescriptor

namespace PollFileDescriptor

/-- The descriptor `openpfd` leaves for `/tmp/fifo` with the default options but
duplicates discarded (`--unique`). -/
def fifoUnique : PollFileDescriptor :=
  { fifo0 with option := { PFDOption.init with duplicates := false } }

/-- The reads `"B\n"`, `"A\n"`, `"A\n"` at times 1000, 1010 and 1020, and a
wake by timeout at time 2000. -/
def burstBAA : List (Nat × Option (List Nat)) :=
  [(1000, some [66, 10]), (1010, some [65, 10]), (1020, some [65, 10]), (2000, none)]

end PollFileDescriptor

namespace PollFileDescriptor

/-- A run of 1102 bytes free of delimiters, its second byte NUL, and a newline. -/
def nulRun : List Nat := [97, 0] ++ List.replicate 1100 98 ++ [10]

/-- A line `ab`, then a run of 1100 bytes free of NUL and of delimiters, and a
newline. -/
def offsetRun : List Nat := [97, 98, 10] ++ List.replicate 1100 99 ++ [10]

end PollFileDescriptor

/-! ## Argument: the format string -/

namespace Argument

/-- Whether `strchr( formatChr, c )` finds `c` in `formatChr = "lpt"`: that is
for `l`, `p`, `t` and for the terminating NUL. -/
def strchrFormatChr (c : Nat) : Bool := c == 108 || c == 112 || c == 116 || c == 0

/-- The loop of `parseFormat` over the array `m` of `size` bytes, one round per
unit of `fuel`; `ptr` moves up by one per round and stops at the first NUL.
Yields the array and the final `ptr`.  `strcpy( ptr+1, ptr+2 )` moves the
string at `ptr+2`, with its NUL, down by one byte; the two ranges overlap
and `lib` gives what the copy leaves (`copied`). -/
def parseLoop (lib : Overlap) (size : Nat) : Nat → Mem → Nat → Mem × Nat
  | 0, m, ptr => (m, ptr)
  | fuel + 1, m, ptr =>
    if m ptr = 0 then (m, ptr)
    else if m ptr = 37 then
      if m (ptr + 1) = 37 then
        parseLoop lib size fuel
          (storeBytes m (ptr + 1)
            (copied lib (ptr + 1) (ptr + 2) (cstr m (size - (ptr + 2)) (ptr + 2) ++ [0])))
          (ptr + 1)
      else if strchrFormatChr (m (ptr + 1)) = true then
        parseLoop lib size fuel (store m ptr 0) (ptr + 1)
      else parseLoop lib size fuel m (ptr + 1)
    else parseLoop lib size fuel m (ptr + 1)

/-- Parse a format string held, with its terminator, in the array `arg`: yields
the array as the parse leaves it and the offset of the returned pointer.
`strcpy( format, format+2 )` moves the string at `format+2`, with its NUL,
down by two bytes; the two ranges overlap and `lib` gives what the copy
leaves (`copied`). -/
def parseFormat (lib : Overlap) (arg : List Nat) : List Nat × Nat :=
  let m := ofList arg
  let shifted :=
    if m 1 = 37 ∧ (cstr m arg.length 0).length ≥ 3 ∧ strchrFormatChr (m 2) = true then
      storeBytes m 0 (copied lib 0 2 (cstr m (arg.length - 2) 2 ++ [0]))
    else m
  let r := parseLoop lib arg.length arg.length shifted 0
  (loadBytes r.1 0 arg.length, r.2)

/-- The options after `parse` has met the argument `+FORMAT`, given as the
array `arg` that holds it with its terminator (no backslash in it, so that
`parseString` leaves it as it is). -/
def setFormat (lib : Overlap) (o : PFDOption) (arg : List Nat) : PFDOption :=
  { o with format := (parseFormat lib arg).1, formatEnd := (parseFormat lib arg).2 }

end Argument

/-- Every `%` of the text is followed by `l`, `p`, `t` or `%`. -/
def WellFormed : List Nat → Prop
  | [] => True
  | [c] => c ≠ 37
  | c :: d :: rest =>
    if c = 37 then (d = 108 ∨ d = 112 ∨ d = 116 ∨ d = 37) ∧ WellFormed rest
    else WellFormed (d :: rest)

/-- The text with each `%l` replaced by the line, each `%p` by the path, each
`%t` by the time in decimal and each `%%` by `%`. -/
def expand (line path : List Nat) (time : Nat) : List Nat → List Nat
  | [] => []
  | [c] => [c]
  | c :: d :: rest =>
    if c = 37 then
      (if d = 108 then line else if d = 112 then path else if d = 116 then decimal time
        else [37]) ++ expand line path time rest
    else c :: expand line path time (d :: rest)

/-- What the loop of `parseFormat` makes of the string `R`: `%%` becomes `%`,
and a `%` before `l`, `p`, `t` or the end of the string becomes NUL. -/
def compileBytes : List Nat → List Nat
  | [] => []
  | [c] => [if c = 37 then 0 else c]
  | c :: d :: rest =>
    if c = 37 then
      if d = 37 then 37 :: compileBytes rest
      else (if Argument.strchrFormatChr d = true then 0 else 37) :: compileBytes (d :: rest)
    else c :: compileBytes (d :: rest)

/-- What `printpfd` writes for the format character `c` before the literal
text that follows it. -/
def dirOut (line path : List Nat) (time : Nat) (c : Nat) : List Nat :=
  if c = 43 then [] else if c = 108 then line else if c = 112 then path
  else if c = 116 then decimal time else [37]

/-- The output so far is `acc`: it stands at the start of the buffer, the
cursor is after it, and it leaves room. -/
def Output.Out (o : Output) (acc : List Nat) : Prop :=
  o.outputPos = acc.length ∧ Holds o.outputBuf 0 acc ∧ acc.length < outputSize

namespace PollFileDescriptor

/-- The descriptor for `/tmp/fifo` opened with the argument `+%p: %l\n`, the
library being `forward`. -/
def fifoFormat : PollFileDescriptor :=
  { fifo0 with option :=
      Argument.setFormat forward PFDOption.init [43, 37, 112, 58, 32, 37, 108, 10, 0] }

/-- The descriptor for `/tmp/fifo` opened with the argument `+%l%p\n`, the
library being `twoMoves`, with the line `x` at the start of segment 1. -/
def fifoShift : PollFileDescriptor :=
  { fifo0 with
    option := Argument.setFormat twoMoves PFDOption.init [43, 37, 108, 37, 112, 10, 0],
    buffer := storeBytes fifo0.buffer (1 * bufferSize) [120, 0] }

/-- The descriptor `fifoFormat` with the line `x` at the start of segment 1. -/
def fifoX : PollFileDescriptor :=
  { fifoFormat with buffer := storeBytes fifoFormat.buffer (1 * bufferSize) [120, 0] }

end PollFileDescriptor

namespace PollFileDescriptor

end PollFileDescriptor

/-! ## The main loop -/

/-- The conversion of a 64 bit unsigned value to `int`, the type of the third
parameter of `poll`: the low 32 bits in two's complement. -/
def toInt (v : Nat) : Int :=
  if v % 2 ^ 32 < 2 ^ 31 then ((v % 2 ^ 32 : Nat) : Int)
  else ((v % 2 ^ 32 : Nat) : Int) - 2 ^ 32

/-- The timeout `main` hands to `poll`, `timeout == FOREVER ? -1 : timeout / 1000`:
an expression of the 64 bit unsigned type of `timeout`, in which `-1` is
`2^64-1`, converted to `int`.  A negative value makes `poll` wait without
limit. -/
def pollTimeout (timeout : Nat) : Int :=
  toInt (if timeout = FOREVER then 2 ^ 64 - 1 else timeout / 1000)

/-- The `for` loop of `main` from some index on, `timeout` being the minimum
so far: `checkpfd( now )` for each descriptor in turn, with the `revents` and
the answer of `read` the kernel has for it.  Yields each descriptor with the
time its `checkpfd` returned, the process state and the final `timeout`. -/
def checkAll (now : Nat) : List (PollFileDescriptor × Nat × ReadResult) → Sys → Nat →
    Except Fatal (List (PollFileDescriptor × Nat) × Sys × Nat)
  | [], w, timeout => .ok ([], w, timeout)
  | x :: rest, w, timeout =>
    match PollFileDescriptor.checkpfd x.1 w now x.2.1 x.2.2 with
    | .error e => .error e
    | .ok r =>
      match checkAll now rest r.2.1 (min timeout r.2.2) with
      | .error e => .error e
      | .ok rs => .ok ((r.1, r.2.2) :: rs.1, rs.2.1, rs.2.2)

/-- One turn of the loop of `main`, entered with `timeout`: the value handed to
`poll`, and what the `for` loop leaves after the time `now` was sampled. -/
def turn (timeout now : Nat) (pfds : List (PollFileDescriptor × Nat × ReadResult)) (w : Sys) :
    Int × Except Fatal (List (PollFileDescriptor × Nat) × Sys × Nat) :=
  (pollTimeout timeout, checkAll now pfds w FOREVER)

namespace PollFileDescriptor

/-- The descriptor `openpfd` leaves for `/tmp/fifo` with the default options
but `--debounce 4294967295`, that is 4294967295000 microseconds. -/
def fifoLong : PollFileDescriptor :=
  { fifo0 with option := { PFDOption.init with debounce := 4294967295 * 1000 } }

end PollFileDescriptor

/-! ## Memory lemmas -/

theorem store_apply (m : Mem) (a v i : Nat) : store m a v i = if i = a then v else m i := rfl

theorem storeBytes_apply (m : Mem) (a : Nat) (d : List Nat) (i : Nat) :
    storeBytes m a d i = if a ≤ i ∧ i < a + d.length then d.getD (i - a) 0 else m i := rfl

theorem loadBytes_length (m : Mem) (a n : Nat) : (loadBytes m a n).length = n := by
  simp [loadBytes]

theorem loadBytes_getD (m : Mem) (a n k : Nat) (h : k < n) :
    (loadBytes m a n).getD k 0 = m (a + k) := by
  simp [loadBytes, List.getD_eq_getElem?_getD, List.getElem?_map, List.getElem?_range h]

theorem mem_loadBytes (m : Mem) (a n b : Nat) (h : b ∈ loadBytes m a n) :
    ∃ j, j < n ∧ m (a + j) = b := by
  simp only [loadBytes, List.mem_map, List.mem_range] at h
  exact h

theorem garble_length (pick : Nat → Nat) (src : List Nat) :
    (garble pick src).length = src.length := by
  simp [garble]

theorem garble_mem (pick : Nat → Nat) (src : List Nat) : ∀ b ∈ garble pick src, b ∈ src := by
  intro b hb
  simp only [garble, List.mem_map, List.mem_range] at hb
  obtain ⟨i, hi, rfl⟩ := hb
  have hlt : pick i % src.length < src.length := Nat.mod_lt _ (by omega)
  rw [List.getD_eq_getElem _ _ hlt]
  exact List.getElem_mem _

theorem garble_id (src : List Nat) : garble (fun i => i) src = src := by
  apply List.ext_getElem
  · exact garble_length _ _
  · intro i h1 h2
    simp only [garble, List.getElem_map, List.getElem_range]
    rw [Nat.mod_eq_of_lt h2, List.getD_eq_getElem _ _ h2]

theorem copied_length (lib : Overlap) (d s : Nat) (src : List Nat) :
    (copied lib d s src).length = src.length := by
  unfold copied
  split
  · exact garble_length _ _
  · rfl

theorem copied_mem (lib : Overlap) (d s : Nat) (src : List Nat) :
    ∀ b ∈ copied lib d s src, b ∈ src := by
  unfold copied
  split
  · exact garble_mem _ _
  · exact fun _ h => h

theorem copied_apart (lib : Overlap) (d s : Nat) (src : List Nat)
    (h : d = s ∨ s + src.length ≤ d ∨ d + src.length ≤ s) : copied lib d s src = src := by
  unfold copied
  rw [if_neg]
  omega

theorem copied_forward (d s : Nat) (src : List Nat) :
    copied forward d s src = src := by
  unfold copied
  split
  · exact garble_id src
  · rfl

theorem strpbrk_some (m : Mem) (acc : List Nat) :
    ∀ (limit p q : Nat), strpbrk m acc limit p = some q →
      p ≤ q ∧ q < p + limit ∧ m q ≠ 0 ∧ m q ∈ acc ∧
        ∀ i, p ≤ i → i < q → m i ≠ 0 ∧ m i ∉ acc := by
  intro limit
  induction limit with
  | zero => intro p q h; simp [strpbrk] at h
  | succ n ih =>
    intro p q h
    unfold strpbrk at h
    by_cases h0 : m p = 0
    · simp [h0] at h
    · by_cases h1 : m p ∈ acc
      · simp [h0, h1] at h
        subst h
        refine ⟨le_refl _, by omega, h0, h1, ?_⟩
        intro i hi hi2
        omega
      · simp [h0, h1] at h
        obtain ⟨a, b, c, d, e⟩ := ih (p + 1) q h
        refine ⟨by omega, by omega, c, d, ?_⟩
        intro i hi hi2
        by_cases hip : i = p
        · subst hip; exact ⟨h0, h1⟩
        · exact e i (by omega) hi2

theorem strpbrk_none (m : Mem) (acc : List Nat) :
    ∀ (limit p z : Nat), strpbrk m acc limit p = none → p ≤ z → z < p + limit → m z = 0 →
      ∃ y, p ≤ y ∧ y ≤ z ∧ m y = 0 ∧ ∀ i, p ≤ i → i < y → m i ≠ 0 ∧ m i ∉ acc := by
  intro limit
  induction limit with
  | zero => intro p z _ h1 h2; omega
  | succ n ih =>
    intro p z h hz hz2 hm
    unfold strpbrk at h
    by_cases h0 : m p = 0
    · exact ⟨p, le_refl _, hz, h0, fun i hi hi2 => by omega⟩
    · by_cases h1 : m p ∈ acc
      · simp [h0, h1] at h
      · simp [h0, h1] at h
        have hzp : z ≠ p := fun e => h0 (e ▸ hm)
        obtain ⟨y, a, b, c, d⟩ := ih (p + 1) z h (by omega) (by omega) hm
        refine ⟨y, by omega, b, c, ?_⟩
        intro i hi hi2
        by_cases hip : i = p
        · subst hip; exact ⟨h0, h1⟩
        · exact d i (by omega) hi2

theorem cstr_congr (m n : Mem) :
    ∀ (limit p q : Nat), p ≤ q → m q = 0 → (∀ i, p ≤ i → i ≤ q → n i = m i) →
      cstr n limit p = cstr m limit p := by
  intro limit
  induction limit with
  | zero => intro p q _ _ _; rfl
  | succ k ih =>
    intro p q hpq hq h
    unfold cstr
    rw [h p (le_refl _) hpq]
    by_cases h0 : m p = 0
    · simp [h0]
    · have hne : p ≠ q := fun e => h0 (e ▸ hq)
      simp only [h0, if_false]
      rw [ih (p + 1) q (by omega) hq (fun i hi hi2 => h i (by omega) hi2)]

theorem cstr_length (m : Mem) :
    ∀ (limit p z : Nat), p ≤ z → z < p + limit → m z = 0 → (∀ i, p ≤ i → i < z → m i ≠ 0) →
      (cstr m limit p).length = z - p := by
  intro limit
  induction limit with
  | zero => intro p z h1 h2; omega
  | succ k ih =>
    intro p z hpz hz hm h
    unfold cstr
    by_cases hzp : z = p
    · subst hzp; simp [hm]
    · have h0 : m p ≠ 0 := h p (le_refl _) (by omega)
      simp only [h0, if_false, List.length_cons]
      rw [ih (p + 1) z (by omega) (by omega) hm (fun i hi hi2 => h i (by omega) hi2)]
      omega

namespace PollFileDescriptor

theorem findBuffer_fin : ∀ x : Fin 3, ∀ y : Option (Fin 3), ∃ idx : Fin 3,
    (findBuffer ((1 <<< x.val) % 256 |||
      (match y with | some v => (1 <<< v.val) % 256 | none => 0)) 3 0).toOption = some idx.val ∧
      idx ≠ x ∧ y ≠ some idx ∧ ∀ j : Fin 3, j < idx → j = x ∨ y = some j := by
  decide

theorem toOption_some {e : Except Fatal Nat} {v : Nat} (h : e.toOption = some v) :
    e = .ok v := by
  cases e with
  | error a => simp [Except.toOption] at h
  | ok a => simp [Except.toOption] at h; rw [h]

theorem findBuffer_lowest (p : Nat) (h : Option Nat) (hp : p < bufferCount * bufferSize)
    (hh : ∀ v, h = some v → v < bufferCount * bufferSize) :
    ∃ idx, findBuffer (bufferOf (some p) ||| bufferOf h) bufferCount 0 = .ok idx ∧
      idx < bufferCount ∧ idx ≠ p / bufferSize ∧ (∀ v, h = some v → idx ≠ v / bufferSize) ∧
      ∀ j, j < idx → j = p / bufferSize ∨ ∃ v, h = some v ∧ j = v / bufferSize := by
  have hx : p / bufferSize < 3 := by
    simp only [bufferCount, bufferSize] at *; omega
  cases h with
  | none =>
    obtain ⟨idx, h1, h2, _, h4⟩ := findBuffer_fin ⟨p / bufferSize, hx⟩ none
    refine ⟨idx.val, toOption_some h1, idx.isLt, ?_, ?_, ?_⟩
    · intro e; exact h2 (Fin.ext e)
    · intro v hv; cases hv
    · intro j hj
      rcases h4 ⟨j, by omega⟩ hj with e | e
      · left; exact congrArg Fin.val e
      · cases e
  | some v =>
    have hy : v / bufferSize < 3 := by
      have := hh v rfl
      simp only [bufferCount, bufferSize] at *; omega
    obtain ⟨idx, h1, h2, h3, h4⟩ :=
      findBuffer_fin ⟨p / bufferSize, hx⟩ (some ⟨v / bufferSize, hy⟩)
    refine ⟨idx.val, toOption_some h1, idx.isLt, ?_, ?_, ?_⟩
    · intro e; exact h2 (Fin.ext e)
    · intro u hu e
      cases hu
      exact h3 (congrArg some (Fin.ext e.symm))
    · intro j hj
      rcases h4 ⟨j, by omega⟩ hj with e | e
      · left; exact congrArg Fin.val e
      · right
        refine ⟨v, rfl, ?_⟩
        have := Option.some.inj e
        exact (congrArg Fin.val this).symm

theorem terminated_store_zero {m : Mem} {p : Nat} (a : Nat) (h : Terminated m p) :
    Terminated (store m a 0) p := by
  obtain ⟨q, h1, h2, h3⟩ := h
  refine ⟨q, h1, h2, ?_⟩
  rw [store_apply]; split <;> simp [*]

theorem terminated_congr {m n : Mem} {p : Nat} (h : Terminated m p)
    (hs : ∀ i, i / bufferSize = p / bufferSize → n i = m i) : Terminated n p := by
  obtain ⟨q, h1, h2, h3⟩ := h
  exact ⟨q, h1, h2, by rw [hs q h2]; exact h3⟩

theorem printpfd_fst (s : PollFileDescriptor) (w : Sys) (p : Nat) :
    (printpfd s w p).1 = s ∨ (printpfd s w p).1 = { s with printPtr := p } := by
  unfold printpfd
  dsimp only
  split
  · right; rfl
  · left; rfl

theorem settleHeld_inv (s : PollFileDescriptor) (w : Sys) (now : Nat) (h : Inv s) :
    Inv (settleHeld s w now).1 ∧ (settleHeld s w now).1.buffer = s.buffer ∧
      (settleHeld s w now).1.bufferIndex = s.bufferIndex ∧
      (settleHeld s w now).1.option = s.option := by
  unfold settleHeld
  cases hh : s.heldPtr with
  | none => exact ⟨h, rfl, rfl, rfl⟩
  | some p =>
    by_cases hn : nobounce s now = true
    · simp only [hn, if_true]
      obtain ⟨hp1, hp2, hp3⟩ := h.held p hh
      rcases printpfd_fst s w p with e | e
      · rw [e]
        exact ⟨⟨h.idx, h.lo, h.hi, h.hiD, h.pr, h.prSeg, h.prEnd, (by intro v hv; cases hv),
          h.pend⟩,
          rfl, rfl, rfl⟩
      · rw [e]
        exact ⟨⟨h.idx, h.lo, h.hi, h.hiD, hp1, hp2, hp3, (by intro v hv; cases hv),
          h.pend⟩,
          rfl, rfl, rfl⟩
    · simp only [hn]
      exact ⟨h, rfl, rfl, rfl⟩

end PollFileDescriptor
namespace PollFileDescriptor

theorem readpfd_mid (s : PollFileDescriptor) (rd : ReadResult) (s3 : PollFileDescriptor)
    (c : Nat) (h : Inv s) (hr : readpfd s rd = .ok (s3, c)) :
    s3.bufferIndex = s.bufferIndex ∧ s3.option = s.option ∧ s3.printPtr = s.printPtr ∧
      s3.heldPtr = s.heldPtr ∧
      (∀ i, i / bufferSize ≠ s.bufferIndex → s3.buffer i = s.buffer i) ∧
      (c = 0 → Inv s3) ∧ (c ≠ 0 → Mid s3 (s.bufferIndex * bufferSize) s3.readPtr) := by
  have hidx := h.idx
  have hlo := h.lo
  have hhi := h.hi
  unfold readpfd at hr
  by_cases hfd : s.fd < 0
  · simp [hfd] at hr
  · simp only [hfd, if_false] at hr
    cases rd with
    | wouldBlock =>
      simp only [Except.ok.injEq, Prod.mk.injEq] at hr
      obtain ⟨rfl, rfl⟩ := hr
      exact ⟨rfl, rfl, rfl, rfl, fun _ _ => rfl, fun _ => h, fun hc => absurd rfl hc⟩
    | failed => simp at hr
    | data bytes =>
      simp only at hr
      have hcount : (bufferSize - 2 + s.bufferIndex * bufferSize +
          (2 ^ 64 - s.readPtr % 2 ^ 64)) % 2 ^ 64 =
          s.bufferIndex * bufferSize + (bufferSize - 2) - s.readPtr := by
        simp only [bufferSize, bufferCount] at *; omega
      rw [hcount] at hr
      have hlen : (bytes.take (s.bufferIndex * bufferSize + (bufferSize - 2) - s.readPtr)).length
          ≤ s.bufferIndex * bufferSize + (bufferSize - 2) - s.readPtr := by
        rw [List.length_take]; exact Nat.min_le_left _ _
      generalize bytes.take (s.bufferIndex * bufferSize + (bufferSize - 2) - s.readPtr) = got
        at hr hlen
      have hframe : ∀ (v : Nat) (i : Nat), i / bufferSize ≠ s.bufferIndex →
          storeBytes s.buffer s.readPtr got i = s.buffer i := by
        intro v i hi
        rw [storeBytes_apply]
        have : ¬ (s.readPtr ≤ i ∧ i < s.readPtr + got.length) := by
          intro ⟨h1, h2⟩
          apply hi
          simp only [bufferSize, bufferCount] at *; omega
        simp [this]
      have hterm : ∀ (n : Mem) (p : Nat), p / bufferSize ≠ s.bufferIndex →
          (∀ i, i / bufferSize ≠ s.bufferIndex → n i = s.buffer i) →
          Terminated s.buffer p → Terminated n p := by
        intro n p hp hn ht
        exact terminated_congr ht (fun i hi => hn i (by rw [hi]; exact hp))
      split at hr
      · rename_i hfill
        simp only [Except.ok.injEq, Prod.mk.injEq] at hr
        obtain ⟨rfl, rfl⟩ := hr
        have hfr : ∀ i, i / bufferSize ≠ s.bufferIndex →
            store (store (storeBytes s.buffer s.readPtr got) (s.readPtr + got.length)
              (s.option.delimiters.headD 0)) (s.readPtr + got.length + 1) 0 i = s.buffer i := by
          intro i hi
          rw [store_apply, store_apply, hframe 0 i hi]
          have h1 : i ≠ s.readPtr + got.length + 1 := by
            intro e; apply hi; simp only [bufferSize, bufferCount] at *; omega
          have h2 : i ≠ s.readPtr + got.length := by
            intro e; apply hi; simp only [bufferSize, bufferCount] at *; omega
          simp [h1, h2]
        refine ⟨rfl, rfl, rfl, rfl, hfr, fun hc => by omega, fun _ => ?_⟩
        refine ⟨h.idx, le_refl _, ?_, ?_, ?_, ?_, ?_, h.pr, ?_, ?_⟩
        · show s.bufferIndex * bufferSize ≤ s.readPtr + got.length + 1
          omega
        · show s.readPtr + got.length + 1 ≤ s.bufferIndex * bufferSize + (bufferSize - 1)
          simp only [bufferSize, bufferCount] at *; omega
        · show s.readPtr + got.length + 1 ≠ s.bufferIndex * bufferSize + (bufferSize - 2)
          simp only [bufferSize, bufferCount] at *; omega
        · show store _ _ 0 (s.readPtr + got.length + 1) = 0
          simp [store_apply]
        · intro _ _
          show store (store _ _ _) _ 0 (s.readPtr + got.length + 1 - 1) = _
          simp [store_apply]
        · exact hterm _ _ h.prSeg hfr h.prEnd
        · intro v hv
          obtain ⟨a, b, c⟩ := h.held v hv
          exact ⟨a, hterm _ _ b hfr c⟩
      · rename_i hfill
        simp only [Except.ok.injEq, Prod.mk.injEq] at hr
        obtain ⟨rfl, rfl⟩ := hr
        have hfr : ∀ i, i / bufferSize ≠ s.bufferIndex →
            store (storeBytes s.buffer s.readPtr got) (s.readPtr + got.length) 0 i
              = s.buffer i := by
          intro i hi
          rw [store_apply, hframe 0 i hi]
          have h2 : i ≠ s.readPtr + got.length := by
            intro e; apply hi; simp only [bufferSize, bufferCount] at *; omega
          simp [h2]
        refine ⟨rfl, rfl, rfl, rfl, hfr, fun hc => ?_, fun _ => ?_⟩
        · have hg : got.length = 0 := hc
          refine ⟨h.idx, ?_, ?_, ?_, h.pr, h.prSeg, hterm _ _ h.prSeg hfr h.prEnd, ?_, ?_⟩
          · show s.bufferIndex * bufferSize ≤ s.readPtr + got.length
            omega
          · dsimp only
            omega
          · intro hd
            dsimp only at hd ⊢
            have := h.hiD hd
            omega
          · intro v hv
            obtain ⟨a, b, c⟩ := h.held v hv
            exact ⟨a, b, hterm _ _ b hfr c⟩
          · intro i hi1 hi2
            dsimp only at hi1 hi2 ⊢
            rw [store_apply, storeBytes_apply]
            have h1 : i ≠ s.readPtr + got.length := by omega
            have h2 : ¬ (s.readPtr ≤ i ∧ i < s.readPtr + got.length) := by omega
            simp only [h1, h2, if_false]
            exact h.pend i hi1 (by omega)
        · refine ⟨h.idx, le_refl _, ?_, ?_, ?_, ?_, ?_, h.pr, ?_, ?_⟩
          · show s.bufferIndex * bufferSize ≤ s.readPtr + got.length
            omega
          · show s.readPtr + got.length ≤ s.bufferIndex * bufferSize + (bufferSize - 1)
            simp only [bufferSize, bufferCount] at *; omega
          · show s.readPtr + got.length ≠ s.bufferIndex * bufferSize + (bufferSize - 2)
            simp only [bufferSize, bufferCount] at *; omega
          · show store _ _ 0 (s.readPtr + got.length) = 0
            simp [store_apply]
          · intro he _
            exfalso
            have : s.readPtr + got.length = s.bufferIndex * bufferSize + (bufferSize - 1) := he
            simp only [bufferSize, bufferCount] at *; omega
          · exact hterm _ _ h.prSeg hfr h.prEnd
          · intro v hv
            obtain ⟨a, b, c⟩ := h.held v hv
            exact ⟨a, hterm _ _ b hfr c⟩

end PollFileDescriptor
namespace PollFileDescriptor

theorem mid_step (s : PollFileDescriptor) (sp e eol : Nat) (h : Mid s sp e)
    (hs : strpbrk s.buffer s.option.delimiters (bufferCount * bufferSize - sp) sp = some eol)
    (t : PollFileDescriptor)
    (hb : t.buffer = store s.buffer eol 0) (hi : t.bufferIndex = s.bufferIndex)
    (ho : t.option = s.option)
    (hp : t.printPtr = s.printPtr ∨ t.printPtr = sp)
    (hh : t.heldPtr = s.heldPtr ∨ t.heldPtr = some sp) :
    Mid t (eol + 1) e ∧ eol < e := by
  obtain ⟨a1, a2, a3, a4, a5⟩ := strpbrk_some _ _ _ _ _ hs
  have hidx := h.idx
  have hlo := h.lo
  have hle := h.le
  have hhi := h.hi
  have hlt : eol < e := by
    by_contra hc
    have hc2 : e ≤ eol := by omega
    rcases Nat.lt_or_ge e eol with h1 | h1
    · exact (a5 e h.le h1).1 h.nul
    · have : e = eol := by omega
      subst this
      exact a3 h.nul
  have hterm : Terminated t.buffer sp := by
    refine ⟨eol, a1, ?_, ?_⟩
    · simp only [bufferSize, bufferCount] at *; omega
    · rw [hb, store_apply]; simp
  refine ⟨⟨?_, ?_, ?_, ?_, ?_, ?_, ?_, ?_, ?_, ?_⟩, hlt⟩
  · rw [hi]; exact h.idx
  · rw [hi]; omega
  · omega
  · rw [hi]; exact h.hi
  · rw [hi]; exact h.gap
  · rw [hb, store_apply]; simp [h.nul]
  · intro he hlt2
    rw [hi] at he
    rw [hb, store_apply, ho]
    have : e - 1 ≠ eol := by omega
    simp only [this, if_false]
    exact h.fill he (by omega)
  · rcases hp with hp | hp
    · rw [hp]; exact h.pr
    · rw [hp]; simp only [bufferSize, bufferCount] at *; omega
  · rcases hp with hp | hp
    · rw [hp, hb]; exact terminated_store_zero _ h.prEnd
    · rw [hp]; exact hterm
  · intro v hv
    rcases hh with hh | hh
    · rw [hh] at hv
      obtain ⟨b1, b2⟩ := h.held v hv
      exact ⟨b1, by rw [hb]; exact terminated_store_zero _ b2⟩
    · rw [hh] at hv
      cases hv
      refine ⟨?_, hterm⟩
      simp only [bufferSize, bufferCount] at *; omega

theorem scanLines_mid : ∀ (fuel : Nat) (s : PollFileDescriptor) (w : Sys) (sp : Nat)
    (nb : Bool) (e : Nat), Mid s sp e → e - sp < fuel →
    Mid (scanLines fuel s w sp nb).1 (scanLines fuel s w sp nb).2.2 e ∧
      strpbrk (scanLines fuel s w sp nb).1.buffer s.option.delimiters
        (bufferCount * bufferSize - (scanLines fuel s w sp nb).2.2)
        (scanLines fuel s w sp nb).2.2 = none ∧
      (scanLines fuel s w sp nb).1.bufferIndex = s.bufferIndex ∧
      (scanLines fuel s w sp nb).1.option = s.option ∧
      (∀ i, i / bufferSize ≠ s.bufferIndex →
        (scanLines fuel s w sp nb).1.buffer i = s.buffer i) := by
  intro fuel
  induction fuel with
  | zero => intro s w sp nb e _ h; omega
  | succ n ih =>
    intro s w sp nb e hm hf
    unfold scanLines
    cases hs : strpbrk s.buffer s.option.delimiters (bufferCount * bufferSize - sp) sp with
    | none => exact ⟨hm, hs, rfl, rfl, fun _ _ => rfl⟩
    | some eol =>
      dsimp only
      generalize hr : (if nb = true then
          printpfd { s with buffer := store s.buffer eol 0 } w sp
        else ({ s with buffer := store s.buffer eol 0, heldPtr := some sp }, w)) = r
      have hfacts : r.1.buffer = store s.buffer eol 0 ∧ r.1.bufferIndex = s.bufferIndex ∧
          r.1.option = s.option ∧ (r.1.printPtr = s.printPtr ∨ r.1.printPtr = sp) ∧
          (r.1.heldPtr = s.heldPtr ∨ r.1.heldPtr = some sp) := by
        subst hr
        cases nb with
        | true =>
          simp only [if_true]
          rcases printpfd_fst { s with buffer := store s.buffer eol 0 } w sp with e1 | e1
          · rw [e1]; exact ⟨rfl, rfl, rfl, Or.inl rfl, Or.inl rfl⟩
          · rw [e1]; exact ⟨rfl, rfl, rfl, Or.inr rfl, Or.inl rfl⟩
        | false => exact ⟨rfl, rfl, rfl, Or.inl rfl, Or.inr rfl⟩
      obtain ⟨f1, f2, f3, f4, f5⟩ := hfacts
      obtain ⟨hm2, hlt⟩ := mid_step s sp e eol hm hs r.1 f1 f2 f3 f4 f5
      have hge : sp ≤ eol := (strpbrk_some _ _ _ _ _ hs).1
      obtain ⟨g1, g2, g3, g4, g5⟩ :=
        ih r.1 r.2 (eol + 1) (s.option.debounce == 0) e hm2 (by omega)
      refine ⟨g1, ?_, ?_, ?_, ?_⟩
      · rw [f3] at g2; exact g2
      · rw [g3, f2]
      · rw [g4, f3]
      · intro i hi
        rw [g5 i (by rw [f2]; exact hi), f1, store_apply]
        have : i ≠ eol := by
          obtain ⟨a1, _, _, _, _⟩ := strpbrk_some _ _ _ _ _ hs
          have := hm.lo; have := hm.idx; have := hm.hi
          intro e1; apply hi
          simp only [bufferSize, bufferCount] at *; omega
        simp [this]

end PollFileDescriptor
namespace PollFileDescriptor

theorem headD_mem {l : List Nat} (h : l.headD 0 ≠ 0) : l.headD 0 ∈ l := by
  cases l with
  | nil => simp at h
  | cons a t => simp

theorem rotate_fields (w : Sys) (m : PollFileDescriptor) (sp : Nat) (t : PollFileDescriptor)
    (h : rotate w m sp = .ok t) :
    t.heldPtr = m.heldPtr ∧ t.option = m.option ∧ t.readTime = m.readTime ∧
      t.printPtr = m.printPtr ∧ t.fd = m.fd ∧ t.events = m.events := by
  unfold rotate at h
  dsimp only at h
  cases hf : findBuffer (bufferOf (some m.printPtr) ||| bufferOf m.heldPtr) bufferCount 0 with
  | error e => rw [hf] at h; cases h
  | ok idx =>
    rw [hf] at h
    dsimp only at h
    by_cases hr : (bstr m.buffer sp).length ≠ 0
    · rw [if_pos hr] at h
      cases h
      exact ⟨rfl, rfl, rfl, rfl, rfl, rfl⟩
    · rw [if_neg hr] at h
      cases h
      exact ⟨rfl, rfl, rfl, rfl, rfl, rfl⟩

theorem rotate_inv (w : Sys) (m : PollFileDescriptor) (sp e : Nat) (h : Mid m sp e)
    (hs : strpbrk m.buffer m.option.delimiters (bufferCount * bufferSize - sp) sp = none) :
    ∃ s6, rotate w m sp = .ok s6 ∧ Inv s6 ∧ s6.option = m.option ∧
      (∀ i, i / bufferSize ≠ s6.bufferIndex → s6.buffer i = m.buffer i) ∧
      s6.printPtr = m.printPtr ∧ s6.heldPtr = m.heldPtr ∧
      findBuffer (bufferOf (some m.printPtr) ||| bufferOf m.heldPtr) bufferCount 0
        = .ok s6.bufferIndex ∧
      s6.readPtr = s6.bufferIndex * bufferSize + (bstr m.buffer sp).length ∧
      (∀ i, s6.buffer i = storeBytes m.buffer (s6.bufferIndex * bufferSize)
        (copied w.overlap (s6.bufferIndex * bufferSize) sp
          (loadBytes m.buffer sp (bstr m.buffer sp).length)) i) ∧
      s6.readTime = m.readTime ∧ s6.fd = m.fd ∧ s6.events = m.events ∧
      s6.pathname = m.pathname := by
  obtain ⟨idx, hf, hlt, hne, hneh, _⟩ :=
    findBuffer_lowest m.printPtr m.heldPtr h.pr (fun v hv => (h.held v hv).1)
  have hidx := h.idx
  have hlo := h.lo
  have hle := h.le
  have hhi := h.hi
  have hgap := h.gap
  obtain ⟨z, z1, z2, z3, z4⟩ := strpbrk_none _ _ _ sp e hs h.le
    (by simp only [bufferSize, bufferCount] at *; omega) h.nul
  have hlen : (bstr m.buffer sp).length = z - sp :=
    cstr_length _ _ sp z z1 (by simp only [bufferSize, bufferCount] at *; omega) z3
      (fun i a b => (z4 i a b).1)
  have hz : z - sp ≤ bufferSize - 2 := by
    by_contra hc
    have he : e = m.bufferIndex * bufferSize + (bufferSize - 1) := by
      simp only [bufferSize, bufferCount] at *; omega
    have hze : z = e := by simp only [bufferSize, bufferCount] at *; omega
    have hsp : sp < e := by simp only [bufferSize, bufferCount] at *; omega
    have hfill := h.fill he hsp
    by_cases hd : m.option.delimiters.headD 0 = 0
    · exact (z4 (e - 1) (by omega) (by omega)).1 (by rw [hfill]; exact hd)
    · exact (z4 (e - 1) (by omega) (by omega)).2 (by rw [hfill]; exact headD_mem hd)
  have hzD : m.option.delimiters.headD 0 ≠ 0 → z - sp ≤ bufferSize - 3 := by
    intro hd
    by_contra hc
    have he : e = m.bufferIndex * bufferSize + (bufferSize - 1) := by
      simp only [bufferSize, bufferCount] at *; omega
    have hfill := h.fill he (by simp only [bufferSize, bufferCount] at *; omega)
    by_cases hze : z = e
    · exact (z4 (e - 1) (by simp only [bufferSize, bufferCount] at *; omega)
        (by simp only [bufferSize, bufferCount] at *; omega)).2
        (by rw [hfill]; exact headD_mem hd)
    · have hz1 : z = e - 1 := by simp only [bufferSize, bufferCount] at *; omega
      rw [← hz1, z3] at hfill
      exact hd hfill.symm
  have hcl : (copied w.overlap (idx * bufferSize) sp (loadBytes m.buffer sp (z - sp))).length
      = z - sp := by
    rw [copied_length, loadBytes_length]
  have hcz : ∀ k, k < z - sp →
      (copied w.overlap (idx * bufferSize) sp (loadBytes m.buffer sp (z - sp))).getD k 0 ≠ 0 := by
    intro k hk
    rw [List.getD_eq_getElem _ _ (by rw [hcl]; exact hk)]
    have hmem := copied_mem w.overlap (idx * bufferSize) sp (loadBytes m.buffer sp (z - sp)) _
      (List.getElem_mem (by rw [hcl]; exact hk))
    obtain ⟨j, hj, hje⟩ := mem_loadBytes _ _ _ _ hmem
    rw [← hje]
    exact (z4 _ (by omega) (by omega)).1
  have hframe : ∀ i, i / bufferSize ≠ idx →
      storeBytes m.buffer (idx * bufferSize)
        (copied w.overlap (idx * bufferSize) sp (loadBytes m.buffer sp (z - sp))) i
        = m.buffer i := by
    intro i hi
    rw [storeBytes_apply]
    have : ¬ (idx * bufferSize ≤ i ∧ i < idx * bufferSize +
        (copied w.overlap (idx * bufferSize) sp (loadBytes m.buffer sp (z - sp))).length) := by
      intro ⟨h1, h2⟩
      apply hi
      rw [hcl] at h2
      simp only [bufferSize, bufferCount] at *; omega
    simp [this]
  have hterm : ∀ (n : Mem) (p : Nat), idx ≠ p / bufferSize →
      (∀ i, i / bufferSize ≠ idx → n i = m.buffer i) →
      Terminated m.buffer p → Terminated n p := by
    intro n p hp hn ht
    exact terminated_congr ht (fun i hi => hn i (by rw [hi]; exact fun e => hp e.symm))
  unfold rotate
  simp only [hf, hlen]
  by_cases hrem : z - sp = 0
  · simp only [hrem, ne_eq, not_true_eq_false, if_false]
    refine ⟨_, rfl, ⟨hlt, le_refl _, ?_, ?_, h.pr, fun e => hne e.symm, ?_, ?_, ?_⟩, rfl,
      fun _ _ => rfl, rfl, rfl, rfl, by dsimp only; omega,
      fun i => by
        rw [storeBytes_apply, copied_length, loadBytes_length, if_neg (by omega)],
      rfl, rfl, rfl, rfl⟩
    · dsimp only; omega
    · intro _; dsimp only; omega
    · exact h.prEnd
    · intro v hv
      obtain ⟨a, b⟩ := h.held v hv
      exact ⟨a, fun e => hneh v hv e.symm, b⟩
    · intro i hi1 hi2
      dsimp only at hi1 hi2
      omega
  · simp only [hrem, ne_eq, not_false_eq_true, if_true]
    refine ⟨_, rfl, ⟨hlt, ?_, ?_, ?_, h.pr, fun e => hne e.symm, ?_, ?_, ?_⟩, rfl,
      hframe, rfl, rfl, rfl, rfl, fun _ => rfl, rfl, rfl, rfl, rfl⟩
    · dsimp only; omega
    · dsimp only; simp only [bufferSize, bufferCount] at *; omega
    · intro hd; dsimp only at hd ⊢
      have := hzD hd
      simp only [bufferSize, bufferCount] at *; omega
    · exact hterm _ _ hne hframe h.prEnd
    · intro v hv
      obtain ⟨a, b⟩ := h.held v hv
      exact ⟨a, fun e => hneh v hv e.symm, hterm _ _ (hneh v hv) hframe b⟩
    · intro i hi1 hi2
      dsimp only at hi1 hi2 ⊢
      rw [storeBytes_apply]
      have h1 : idx * bufferSize ≤ i ∧ i < idx * bufferSize +
          (copied w.overlap (idx * bufferSize) sp (loadBytes m.buffer sp (z - sp))).length := by
        rw [hcl]; omega
      simp only [h1, and_self, if_true]
      exact hcz _ (by omega)

end PollFileDescriptor
namespace PollFileDescriptor

theorem mid_readTime {s : PollFileDescriptor} {sp e : Nat} (now : Nat) (h : Mid s sp e) :
    Mid { s with readTime := now } sp e :=
  ⟨h.idx, h.lo, h.le, h.hi, h.gap, h.nul, h.fill, h.pr, h.prEnd, h.held⟩

theorem inv_hangUp {s : PollFileDescriptor} (revents : Nat) (h : Inv s) :
    Inv (hangUp s revents) := by
  unfold hangUp
  split
  · exact ⟨h.idx, h.lo, h.hi, h.hiD, h.pr, h.prSeg, h.prEnd, h.held, h.pend⟩
  · exact h

theorem hangUp_fields (s : PollFileDescriptor) (revents : Nat) :
    (hangUp s revents).buffer = s.buffer ∧ (hangUp s revents).bufferIndex = s.bufferIndex ∧
      (hangUp s revents).option = s.option ∧ (hangUp s revents).events = s.events := by
  unfold hangUp
  split <;> exact ⟨rfl, rfl, rfl, rfl⟩

theorem readLines_mid (s : PollFileDescriptor) (w : Sys) (now revents : Nat) (rd : ReadResult)
    (h : Inv s) (r : PollFileDescriptor × Sys × Option Nat)
    (hr : readLines s w now revents rd = .ok r) :
    r.1.option = s.option ∧ r.1.bufferIndex = s.bufferIndex ∧
      (∀ i, i / bufferSize ≠ s.bufferIndex → r.1.buffer i = s.buffer i) ∧
      (r.2.2 = none → Inv r.1) ∧
      (∀ sp, r.2.2 = some sp → ∃ e, Mid r.1 sp e ∧
        strpbrk r.1.buffer r.1.option.delimiters (bufferCount * bufferSize - sp) sp = none) := by
  obtain ⟨i1, i2, i3, i4⟩ := settleHeld_inv s w now h
  obtain ⟨j1, j2, j3, j4⟩ := hangUp_fields (settleHeld s w now).1 revents
  have hinv2 := inv_hangUp revents i1
  unfold readLines at hr
  dsimp only at hr
  split at hr
  · cases hrd : readpfd (hangUp (settleHeld s w now).1 revents) rd with
    | error e => rw [hrd] at hr; simp at hr
    | ok x =>
      obtain ⟨s3, c⟩ := x
      rw [hrd] at hr
      dsimp only at hr
      obtain ⟨k1, k2, k3, k4, k5, k6, k7⟩ := readpfd_mid _ rd s3 c hinv2 hrd
      split at hr
      · rename_i hc
        simp only [Except.ok.injEq] at hr
        subst hr
        dsimp only
        have hm0 := k7 hc
        rw [← k1] at hm0
        have hm := mid_readTime now hm0
        obtain ⟨g1, g2, g3, g4, g5⟩ := scanLines_mid bufferSize { s3 with readTime := now }
          (settleHeld s w now).2 (s3.bufferIndex * bufferSize) (nobounce s now) s3.readPtr hm
          (by
            have := hm0.hi; have := hm0.lo
            simp only [bufferSize, bufferCount] at *; omega)
        refine ⟨?_, ?_, ?_, ?_, ?_⟩
        · rw [g4]; show s3.option = _; rw [k2, j3, i4]
        · rw [g3]; show s3.bufferIndex = _; rw [k1, j2, i3]
        · intro i hi
          rw [g5 i (by show i / bufferSize ≠ s3.bufferIndex; rw [k1, j2, i3]; exact hi)]
          show s3.buffer i = _
          rw [k5 i (by rw [j2, i3]; exact hi), j1, i2]
        · intro hn; cases hn
        · intro sp hsp
          cases hsp
          refine ⟨s3.readPtr, g1, ?_⟩
          rw [g4]
          exact g2
      · rename_i hc
        simp only [Except.ok.injEq] at hr
        subst hr
        dsimp only
        refine ⟨?_, ?_, ?_, ?_, ?_⟩
        · rw [k2, j3, i4]
        · rw [k1, j2, i3]
        · intro i hi
          rw [k5 i (by rw [j2, i3]; exact hi), j1, i2]
        · intro _; exact k6 (by omega)
        · intro sp hsp; cases hsp
  · simp only [Except.ok.injEq] at hr
    subst hr
    dsimp only
    refine ⟨?_, ?_, ?_, ?_, ?_⟩
    · rw [j3, i4]
    · rw [j2, i3]
    · intro i _; rw [j1, i2]
    · intro _; exact hinv2
    · intro sp hsp; cases hsp

theorem checkpfd_inv (s : PollFileDescriptor) (w : Sys) (now revents : Nat) (rd : ReadResult)
    (h : Inv s) (r : PollFileDescriptor × Sys × Nat)
    (hr : checkpfd s w now revents rd = .ok r) :
    Inv r.1 ∧ r.1.option = s.option ∧
      SameOutside s.bufferIndex r.1.bufferIndex s.buffer r.1.buffer := by
  unfold checkpfd at hr
  cases hrl : readLines s w now revents rd with
  | error e => rw [hrl] at hr; simp at hr
  | ok x =>
    obtain ⟨s5, w5, osp⟩ := x
    rw [hrl] at hr
    obtain ⟨a1, a2, a3, a4, a5⟩ := readLines_mid s w now revents rd h _ hrl
    cases osp with
    | none =>
      simp only [Except.ok.injEq] at hr
      subst hr
      exact ⟨a4 rfl, a1, fun i hi _ => a3 i hi⟩
    | some sp =>
      dsimp only at hr
      obtain ⟨e, hm, hnone⟩ := a5 sp rfl
      obtain ⟨s6, b1, b2, b3, b4, _⟩ := rotate_inv w5 s5 sp e hm hnone
      rw [b1] at hr
      simp only [Except.ok.injEq] at hr
      subst hr
      dsimp only at a1 a2 a3 ⊢
      exact ⟨b2, by rw [b3, a1], fun i hi hi2 => by rw [b4 i hi2, a3 i hi]⟩

theorem openpfd_inv (fname : List Nat) (argOption : PFDOption) (kind : Option FileKind)
    (opened : Int) (s : PollFileDescriptor)
    (h : openpfd fname argOption kind opened = .ok s) : Inv s := by
  unfold openpfd at h
  cases hk : statpfd kind with
  | error e => rw [hk] at h; simp at h
  | ok x =>
    obtain ⟨mode, ev, rs⟩ := x
    rw [hk] at h
    dsimp only at h
    split at h
    · simp at h
    · simp only [Except.ok.injEq] at h
      subst h
      refine ⟨by simp [bufferCount], by simp, by simp [bufferSize],
        fun _ => by simp [bufferSize], by simp [bufferSize, bufferCount],
        by simp [bufferSize], ⟨0, le_refl _, rfl, rfl⟩, ?_, ?_⟩
      · intro v hv
        cases hv
      · intro i hi1 hi2
        dsimp only at hi1 hi2
        omega

theorem reachable_inv (s : PollFileDescriptor) (h : Reachable s) : Inv s := by
  induction h with
  | opened fname argOption kind opened s h => exact openpfd_inv _ _ _ _ _ h
  | wake s w now revents rd r _ hr ih => exact (checkpfd_inv s w now revents rd ih r hr).1

end PollFileDescriptor
namespace PollFileDescriptor

theorem fifo0_reachable : Reachable fifo0 :=
  Reachable.opened [47, 116, 109, 112, 47, 102, 105, 102, 111] PFDOption.init
    (some FileKind.fifo) 3 fifo0 rfl

theorem readLines_error (s : PollFileDescriptor) (w : Sys) (now revents : Nat) (rd : ReadResult)
    (e : Fatal) (h : readLines s w now revents rd = .error e) : e = Fatal.read := by
  unfold readLines at h
  dsimp only at h
  split at h
  · cases hrd : readpfd (hangUp (settleHeld s w now).1 revents) rd with
    | error e2 =>
      rw [hrd] at h
      simp only [Except.error.injEq] at h
      subst h
      unfold readpfd at hrd
      dsimp only at hrd
      split at hrd
      · simp at hrd
      · simp only [Except.error.injEq] at hrd; exact hrd.symm
      · split at hrd <;> simp at hrd
    | ok x =>
      rw [hrd] at h
      dsimp only at h
      split at h <;> simp at h
  · simp at h

/-- C1: in every state reachable from `openpfd` by wakes of `checkpfd`, whatever
the time, the events and the read, the segment the buffer search selects as
the new active one is neither the segment `printPtr` points into nor the one
`heldPtr` points into when the search runs. -/
theorem rotation_never_aliases (s : PollFileDescriptor) (hs : Reachable s) (w : Sys)
    (now revents : Nat) (rd : ReadResult) (r : PollFileDescriptor × Sys × Option Nat)
    (hr : readLines s w now revents rd = .ok r) (sp : Nat) (hsp : r.2.2 = some sp)
    (t : PollFileDescriptor) (ht : rotate r.2.1 r.1 sp = .ok t) :
    t.bufferIndex ≠ r.1.printPtr / bufferSize ∧
      ∀ h, r.1.heldPtr = some h → t.bufferIndex ≠ h / bufferSize := by
  obtain ⟨_, _, _, _, a5⟩ := readLines_mid s w now revents rd (reachable_inv s hs) r hr
  obtain ⟨e, hm, hnone⟩ := a5 sp hsp
  obtain ⟨s6, b1, b2, _, _, b5, b6, _⟩ := rotate_inv r.2.1 r.1 sp e hm hnone
  rw [b1] at ht
  simp only [Except.ok.injEq] at ht
  subst ht
  refine ⟨?_, ?_⟩
  · rw [← b5]; exact fun e => b2.prSeg e.symm
  · intro h hh
    rw [← b6] at hh
    exact fun e => (b2.held h hh).2.1 e.symm

theorem rotation_never_aliases_witness :
    rotated1.bufferIndex ≠ wake1.1.printPtr / bufferSize ∧
      ∀ h, wake1.1.heldPtr = some h → rotated1.bufferIndex ≠ h / bufferSize :=
  rotation_never_aliases fifo0 fifo0_reachable sys0 1000 POLLIN (.data [111, 10]) wake1 rfl
    1026 (by decide) rotated1 rfl

/-- C2: in every reachable state the buffer search succeeds: `checkpfd` never
takes the `No free buffers` exit, and the search ends with `bufferIndex` below
`bufferCount`, at the lowest segment that holds neither `printPtr` nor
`heldPtr`. -/
theorem rotation_finds_lowest_free (s : PollFileDescriptor) (hs : Reachable s) (w : Sys)
    (now revents : Nat) (rd : ReadResult) :
    checkpfd s w now revents rd ≠ .error Fatal.noFreeBuffers ∧
      ∀ (r : PollFileDescriptor × Sys × Option Nat) (sp : Nat),
        readLines s w now revents rd = .ok r → r.2.2 = some sp →
        ∃ t, rotate r.2.1 r.1 sp = .ok t ∧
          findBuffer (bufferOf (some r.1.printPtr) ||| bufferOf r.1.heldPtr) bufferCount 0
            = .ok t.bufferIndex ∧
          t.bufferIndex < bufferCount ∧
          t.bufferIndex ≠ r.1.printPtr / bufferSize ∧
          (∀ h, r.1.heldPtr = some h → t.bufferIndex ≠ h / bufferSize) ∧
          ∀ j, j < t.bufferIndex →
            j = r.1.printPtr / bufferSize ∨ ∃ h, r.1.heldPtr = some h ∧ j = h / bufferSize := by
  have key : ∀ (r : PollFileDescriptor × Sys × Option Nat) (sp : Nat),
      readLines s w now revents rd = .ok r → r.2.2 = some sp →
      ∃ t, rotate r.2.1 r.1 sp = .ok t ∧
        findBuffer (bufferOf (some r.1.printPtr) ||| bufferOf r.1.heldPtr) bufferCount 0
          = .ok t.bufferIndex ∧
        t.bufferIndex < bufferCount ∧
        t.bufferIndex ≠ r.1.printPtr / bufferSize ∧
        (∀ h, r.1.heldPtr = some h → t.bufferIndex ≠ h / bufferSize) ∧
        ∀ j, j < t.bufferIndex →
          j = r.1.printPtr / bufferSize ∨ ∃ h, r.1.heldPtr = some h ∧ j = h / bufferSize := by
    intro r sp hr hsp
    obtain ⟨_, _, _, _, a5⟩ := readLines_mid s w now revents rd (reachable_inv s hs) r hr
    obtain ⟨e, hm, hnone⟩ := a5 sp hsp
    obtain ⟨s6, b1, b2, _, _, b5, b6, b7, _⟩ := rotate_inv r.2.1 r.1 sp e hm hnone
    obtain ⟨idx, c1, c2, c3, c4, c5⟩ :=
      findBuffer_lowest r.1.printPtr r.1.heldPtr hm.pr (fun v hv => (hm.held v hv).1)
    rw [b7] at c1
    simp only [Except.ok.injEq] at c1
    subst c1
    exact ⟨s6, b1, b7, c2, c3, c4, c5⟩
  refine ⟨?_, key⟩
  intro hc
  unfold checkpfd at hc
  cases hrl : readLines s w now revents rd with
  | error e =>
    rw [hrl] at hc
    simp only [Except.error.injEq] at hc
    have := readLines_error s w now revents rd e hrl
    rw [hc] at this
    cases this
  | ok x =>
    obtain ⟨s5, w5, osp⟩ := x
    rw [hrl] at hc
    cases osp with
    | none => simp at hc
    | some sp =>
      dsimp only at hc
      obtain ⟨t, ht, _⟩ := key (s5, w5, some sp) sp hrl rfl
      rw [ht] at hc
      simp at hc

theorem rotation_finds_lowest_free_witness :
    Reachable fifo0 ∧
      checkpfd fifo0 sys0 1000 POLLIN (.data [111, 10]) ≠ .error Fatal.noFreeBuffers :=
  ⟨fifo0_reachable,
    (rotation_finds_lowest_free fifo0 fifo0_reachable sys0 1000 POLLIN (.data [111, 10])).1⟩

/-- C3: in every reachable state the active segment `bufferIndex` differs from
the segment of `printPtr` and from the segment of `heldPtr`; and a returning
wake changes no byte of the segment of a pointer that is `printPtr` or
`heldPtr` before it and still is after it, so the line there reads the same. -/
theorem live_lines_untouched (s : PollFileDescriptor) (hs : Reachable s) :
    (s.bufferIndex ≠ s.printPtr / bufferSize ∧
      ∀ h, s.heldPtr = some h → s.bufferIndex ≠ h / bufferSize) ∧
    ∀ (w : Sys) (now revents : Nat) (rd : ReadResult) (r : PollFileDescriptor × Sys × Nat),
      checkpfd s w now revents rd = .ok r →
      ∀ p, (p = s.printPtr ∨ s.heldPtr = some p) → (p = r.1.printPtr ∨ r.1.heldPtr = some p) →
        (∀ i, i / bufferSize = p / bufferSize → r.1.buffer i = s.buffer i) ∧
          bstr r.1.buffer p = bstr s.buffer p := by
  have hinv := reachable_inv s hs
  refine ⟨⟨fun e => hinv.prSeg e.symm, fun h hh e => (hinv.held h hh).2.1 e.symm⟩, ?_⟩
  intro w now revents rd r hr p hp1 hp2
  obtain ⟨hinv2, _, hframe⟩ := checkpfd_inv s w now revents rd hinv r hr
  have h1 : p / bufferSize ≠ s.bufferIndex ∧ Terminated s.buffer p := by
    rcases hp1 with e | e
    · subst e; exact ⟨hinv.prSeg, hinv.prEnd⟩
    · exact ⟨(hinv.held p e).2.1, (hinv.held p e).2.2⟩
  have h2 : p / bufferSize ≠ r.1.bufferIndex := by
    rcases hp2 with e | e
    · subst e; exact hinv2.prSeg
    · exact (hinv2.held p e).2.1
  have hseg : ∀ i, i / bufferSize = p / bufferSize → r.1.buffer i = s.buffer i := by
    intro i hi
    exact hframe i (by rw [hi]; exact h1.1) (by rw [hi]; exact h2)
  refine ⟨hseg, ?_⟩
  obtain ⟨q, q1, q2, q3⟩ := h1.2
  unfold bstr
  apply cstr_congr s.buffer r.1.buffer _ p q q1 q3
  intro i hi1 hi2
  apply hseg
  simp only [bufferSize] at *
  omega

theorem live_lines_untouched_witness :
    (fifo0.bufferIndex ≠ fifo0.printPtr / bufferSize ∧
      ∀ h, fifo0.heldPtr = some h → fifo0.bufferIndex ≠ h / bufferSize) ∧
    bstr wake2.1.buffer 0 = bstr fifo0.buffer 0 :=
  ⟨(live_lines_untouched fifo0 fifo0_reachable).1,
    ((live_lines_untouched fifo0 fifo0_reachable).2 sys0 1000 POLLIN (.data [97, 98]) wake2 rfl
      0 (Or.inl rfl) (Or.inl rfl)).2⟩

end PollFileDescriptor
namespace Output

theorem string_keeps_cursor (o : Output) (str : List Nat) (h : o.outputPos ≤ outputSize) :
    (o.string str).1.outputPos ≤ outputSize ∧
      (o.outputPos = outputSize → (o.string str).1 = o) := by
  unfold string
  simp only [outputSize, bufferSize, usub32] at *
  constructor
  · split
    · dsimp only; omega
    · dsimp only; omega
  · intro he
    have : ¬ (str.length < (2 * 1024 % 2 ^ 32 + (2 ^ 32 - o.outputPos % 2 ^ 32)) % 2 ^ 32) := by
      omega
    simp only [this, if_false]
    cases o
    simp_all

theorem real_outputPos (o : Output) (val : Nat) :
    (o.real val).1.outputPos = (o.outputPos + (decimal val).length) % 2 ^ 32 := by
  unfold real
  simp

theorem string_outputPos (o : Output) (str : List Nat) :
    (o.string str).1.outputPos =
      if str.length < usub32 outputSize o.outputPos then (o.outputPos + str.length) % 2 ^ 32
      else outputSize := by
  unfold string
  dsimp only
  split <;> rfl

/-- C10 (the code at the failing input): after `start()` and a `string()` of 2047
bytes the cursor is 2047; `real( 12345 )` then moves it to 2052, past
`outputSize`.  And once a `string()` of 2048 bytes has saturated the sink
(cursor `outputSize`), `real( 7 )` still moves the cursor, to 2049. -/
theorem real_overruns_outputSize :
    ((PollFileDescriptor.sys0.output.start.string (List.replicate 2047 97)).1.real
        12345).1.outputPos = 2052 ∧
      outputSize < 2052 ∧
      (PollFileDescriptor.sys0.output.start.string (List.replicate 2048 97)).1.outputPos
        = outputSize ∧
      ((PollFileDescriptor.sys0.output.start.string (List.replicate 2048 97)).1.real
        7).1.outputPos = 2049 := by
  have d1 : (decimal 12345).length = 5 := by decide
  have d2 : (decimal 7).length = 1 := by decide
  have e0 : PollFileDescriptor.sys0.output.start.outputPos = 0 := rfl
  have e1 : (PollFileDescriptor.sys0.output.start.string (List.replicate 2047 97)).1.outputPos
      = 2047 := by
    rw [string_outputPos, e0, List.length_replicate]; decide
  have e2 : (PollFileDescriptor.sys0.output.start.string (List.replicate 2048 97)).1.outputPos
      = 2048 := by
    rw [string_outputPos, e0, List.length_replicate]; decide
  have e3 : ((PollFileDescriptor.sys0.output.start.string (List.replicate 2048 97)).1.real
      7).1.outputPos = 2049 := by
    rw [real_outputPos, e2, d2]; decide
  refine ⟨?_, by decide, e2, e3⟩
  rw [real_outputPos, e1, d1]; decide

end Output

namespace PollFileDescriptor

theorem bstr_ne_nil (m : Mem) (p : Nat) (h : p < bufferCount * bufferSize) :
    bstr m p ≠ [] ↔ m p ≠ 0 := by
  unfold bstr
  obtain ⟨k, hk⟩ : ∃ k, bufferCount * bufferSize - p = k + 1 := ⟨bufferCount * bufferSize - p - 1, by omega⟩
  rw [hk]
  unfold cstr
  by_cases h0 : m p = 0 <;> simp [h0]

/-- C7: `printpfd` writes exactly when the line is not empty (its first byte
is not NUL) and duplicates are allowed or the line differs from the string at
`printPtr`; when it does not write, nothing changes at all, `printPtr`
included; when it writes, it makes one write, of the flushed output buffer,
and `printPtr` then points at that line, whose bytes are untouched. -/
theorem printpfd_writes_iff (s : PollFileDescriptor) (w : Sys) (startPtr : Nat) :
    ((printpfd s w startPtr).2.stdout ≠ w.stdout ↔
      (s.buffer startPtr ≠ 0 ∧
        (s.option.duplicates = true ∨ bstr s.buffer startPtr ≠ bstr s.buffer s.printPtr))) ∧
    (¬ (s.buffer startPtr ≠ 0 ∧
        (s.option.duplicates = true ∨ bstr s.buffer startPtr ≠ bstr s.buffer s.printPtr)) →
      printpfd s w startPtr = (s, w)) ∧
    ((s.buffer startPtr ≠ 0 ∧
        (s.option.duplicates = true ∨ bstr s.buffer startPtr ≠ bstr s.buffer s.printPtr)) →
      (printpfd s w startPtr).1 = { s with printPtr := startPtr } ∧
      (printpfd s w startPtr).2.stdout = w.stdout ++ [(printpfd s w startPtr).2.output.flush] ∧
      (printpfd s w startPtr).2.lines = w.lines ++ [bstr s.buffer startPtr]) ∧
    (startPtr < bufferCount * bufferSize →
      (bstr s.buffer startPtr ≠ [] ↔ s.buffer startPtr ≠ 0)) := by
  have hc : (s.buffer startPtr ≠ 0 ∧
      (s.option.duplicates = true ∨ bstr s.buffer s.printPtr ≠ bstr s.buffer startPtr)) ↔
      (s.buffer startPtr ≠ 0 ∧
      (s.option.duplicates = true ∨ bstr s.buffer startPtr ≠ bstr s.buffer s.printPtr)) := by
    constructor <;> rintro ⟨a, b | b⟩
    · exact ⟨a, Or.inl b⟩
    · exact ⟨a, Or.inr (Ne.symm b)⟩
    · exact ⟨a, Or.inl b⟩
    · exact ⟨a, Or.inr (Ne.symm b)⟩
  refine ⟨?_, ?_, ?_, bstr_ne_nil s.buffer startPtr⟩
  · rw [← hc]
    unfold printpfd
    dsimp only
    split
    · rename_i h
      simp [h]
    · rename_i h
      simp [h]
  · intro h
    rw [← hc] at h
    unfold printpfd
    dsimp only
    rw [if_neg h]
  · intro h
    rw [← hc] at h
    unfold printpfd
    dsimp only
    rw [if_pos h]
    exact ⟨rfl, rfl, rfl⟩

end PollFileDescriptor
theorem splitLines_plain (delims : List Nat) :
    ∀ X : List Nat, (∀ b ∈ X, b ∉ delims) → splitLines delims X = ([], X) := by
  intro X
  induction X with
  | nil => intro _; rfl
  | cons b bs ih =>
    intro h
    have hb : b ∉ delims := h b (List.mem_cons_self _ _)
    have ih2 := ih (fun c hc => h c (List.mem_cons_of_mem _ hc))
    simp [splitLines, hb, ih2]

theorem splitLines_line (delims : List Nat) (d : Nat) (X : List Nat) (hd : d ∈ delims) :
    ∀ l : List Nat, (∀ b ∈ l, b ∉ delims) →
      splitLines delims (l ++ d :: X) =
        (l :: (splitLines delims X).1, (splitLines delims X).2) := by
  intro l
  induction l with
  | nil => intro _; simp [splitLines, hd]
  | cons b bs ih =>
    intro h
    have hb : b ∉ delims := h b (List.mem_cons_self _ _)
    have ih2 := ih (fun c hc => h c (List.mem_cons_of_mem _ hc))
    simp [splitLines, hb, ih2]

theorem split_cases (delims : List Nat) :
    ∀ X : List Nat, (∀ b ∈ X, b ∉ delims) ∨
      ∃ l d Y, X = l ++ d :: Y ∧ d ∈ delims ∧ ∀ b ∈ l, b ∉ delims := by
  intro X
  induction X with
  | nil => left; intro b hb; cases hb
  | cons b bs ih =>
    by_cases hb : b ∈ delims
    · right; exact ⟨[], b, bs, rfl, hb, fun c hc => by cases hc⟩
    · rcases ih with h | ⟨l, d, Y, h1, h2, h3⟩
      · left
        intro c hc
        rcases List.mem_cons.mp hc with e | e
        · rw [e]; exact hb
        · exact h c e
      · right
        refine ⟨b :: l, d, Y, by rw [h1]; rfl, h2, ?_⟩
        intro c hc
        rcases List.mem_cons.mp hc with e | e
        · rw [e]; exact hb
        · exact h3 c e

theorem holds_append (m : Mem) :
    ∀ (l r : List Nat) (p : Nat), Holds m p (l ++ r) ↔ Holds m p l ∧ Holds m (p + l.length) r := by
  intro l
  induction l with
  | nil => intro r p; simp [Holds]
  | cons b bs ih =>
    intro r p
    show (m p = b ∧ Holds m (p + 1) (bs ++ r)) ↔
      (m p = b ∧ Holds m (p + 1) bs) ∧ Holds m (p + (bs.length + 1)) r
    have : p + 1 + bs.length = p + (bs.length + 1) := by omega
    rw [ih r (p + 1), this, and_assoc]

theorem holds_congr (m n : Mem) :
    ∀ (l : List Nat) (p : Nat), (∀ i, p ≤ i → i < p + l.length → n i = m i) →
      Holds m p l → Holds n p l := by
  intro l
  induction l with
  | nil => intro p _ _; trivial
  | cons b bs ih =>
    intro p h hm
    simp only [Holds, List.length_cons] at *
    refine ⟨by rw [h p (le_refl _) (by omega)]; exact hm.1, ?_⟩
    exact ih (p + 1) (fun i h1 h2 => h i (by omega) (by omega)) hm.2

theorem holds_loadBytes (m : Mem) :
    ∀ (n p : Nat), Holds m p (loadBytes m p n) := by
  intro n
  induction n with
  | zero => intro p; simp [loadBytes, Holds]
  | succ k ih =>
    intro p
    have : loadBytes m p (k + 1) = m p :: loadBytes m (p + 1) k := by
      simp only [loadBytes, List.range_succ_eq_map, List.map_cons, List.map_map, Nat.add_zero]
      congr 1
      apply List.map_congr_left
      intro a _
      simp only [Function.comp]
      congr 1
      omega
    rw [this]
    exact ⟨rfl, ih (p + 1)⟩

theorem loadBytes_of_holds (m : Mem) :
    ∀ (l : List Nat) (p : Nat), Holds m p l → loadBytes m p l.length = l := by
  intro l
  induction l with
  | nil => intro p _; simp [loadBytes]
  | cons b bs ih =>
    intro p h
    have : loadBytes m p (bs.length + 1) = m p :: loadBytes m (p + 1) bs.length := by
      simp only [loadBytes, List.range_succ_eq_map, List.map_cons, List.map_map, Nat.add_zero]
      congr 1
      apply List.map_congr_left
      intro a _
      simp only [Function.comp]
      congr 1
      omega
    rw [List.length_cons, this, h.1, ih (p + 1) h.2]

theorem holds_storeBytes (m : Mem) (a : Nat) (d : List Nat) :
    Holds (storeBytes m a d) a d := by
  have key : ∀ (l : List Nat) (p : Nat), (∀ k, k < l.length → storeBytes m a d (p + k) = l.getD k 0) →
      Holds (storeBytes m a d) p l := by
    intro l
    induction l with
    | nil => intro p _; trivial
    | cons b bs ih =>
      intro p h
      refine ⟨by simpa using h 0 (by simp), ih (p + 1) ?_⟩
      intro k hk
      have := h (k + 1) (by simp; omega)
      simp only [List.getD_cons_succ] at this
      rw [← this]
      congr 1
      omega
  apply key
  intro k hk
  rw [storeBytes_apply]
  have : a ≤ a + k ∧ a + k < a + d.length := by omega
  simp only [this, and_self, if_true]
  congr 1
  omega

theorem cstr_text (m : Mem) :
    ∀ (l : List Nat) (limit p : Nat), Holds m p l → (∀ b ∈ l, b ≠ 0) → m (p + l.length) = 0 →
      l.length < limit → cstr m limit p = l := by
  intro l
  induction l with
  | nil =>
    intro limit p _ _ h0 hl
    obtain ⟨k, rfl⟩ : ∃ k, limit = k + 1 := ⟨limit - 1, by simp at hl; omega⟩
    simp only [List.length_nil, Nat.add_zero] at h0
    simp [cstr, h0]
  | cons b bs ih =>
    intro limit p h hz h0 hl
    obtain ⟨k, rfl⟩ : ∃ k, limit = k + 1 := ⟨limit - 1, by simp at hl; omega⟩
    have hb : b ≠ 0 := hz b (List.mem_cons_self _ _)
    simp only [List.length_cons] at h0 hl
    unfold cstr
    rw [h.1]
    simp only [hb, if_false]
    rw [ih k (p + 1) h.2 (fun c hc => hz c (List.mem_cons_of_mem _ hc))
      (by rw [← h0]; congr 1; omega) (by omega)]

theorem strpbrk_text_none (m : Mem) (delims : List Nat) :
    ∀ (l : List Nat) (limit p : Nat), Holds m p l → (∀ b ∈ l, b ≠ 0 ∧ b ∉ delims) →
      m (p + l.length) = 0 → strpbrk m delims limit p = none := by
  intro l
  induction l with
  | nil =>
    intro limit p _ _ h0
    cases limit with
    | zero => rfl
    | succ k =>
      simp only [List.length_nil, Nat.add_zero] at h0
      simp [strpbrk, h0]
  | cons b bs ih =>
    intro limit p h hz h0
    cases limit with
    | zero => rfl
    | succ k =>
      have hb := hz b (List.mem_cons_self _ _)
      simp only [List.length_cons] at h0
      unfold strpbrk
      rw [h.1]
      simp only [hb.1, hb.2, if_false]
      exact ih k (p + 1) h.2 (fun c hc => hz c (List.mem_cons_of_mem _ hc))
        (by rw [← h0]; congr 1; omega)

theorem strpbrk_text_some (m : Mem) (delims : List Nat) (d : Nat) (hd : d ∈ delims)
    (hd0 : d ≠ 0) :
    ∀ (l : List Nat) (limit p : Nat), Holds m p l → (∀ b ∈ l, b ≠ 0 ∧ b ∉ delims) →
      m (p + l.length) = d → l.length < limit →
      strpbrk m delims limit p = some (p + l.length) := by
  intro l
  induction l with
  | nil =>
    intro limit p _ _ h0 hl
    obtain ⟨k, rfl⟩ : ∃ k, limit = k + 1 := ⟨limit - 1, by simp at hl; omega⟩
    simp only [List.length_nil, Nat.add_zero] at h0 ⊢
    simp [strpbrk, h0, hd, hd0]
  | cons b bs ih =>
    intro limit p h hz h0 hl
    obtain ⟨k, rfl⟩ : ∃ k, limit = k + 1 := ⟨limit - 1, by simp at hl; omega⟩
    have hb := hz b (List.mem_cons_self _ _)
    simp only [List.length_cons] at h0 hl ⊢
    unfold strpbrk
    rw [h.1]
    simp only [hb.1, hb.2, if_false]
    rw [ih k (p + 1) h.2 (fun c hc => hz c (List.mem_cons_of_mem _ hc))
      (by rw [← h0]; congr 1; omega) (by omega)]
    congr 1
    omega

namespace PollFileDescriptor

theorem bstr_store_sep (m : Mem) (p lo hi eol : Nat) (h : Sep m p lo hi) (h1 : lo ≤ eol)
    (h2 : eol ≤ hi) : bstr (store m eol 0) p = bstr m p ∧ Sep (store m eol 0) p (eol + 1) hi := by
  obtain ⟨q, q1, q2, q3⟩ := h
  constructor
  · unfold bstr
    apply cstr_congr m _ _ p q q1 q2
    intro i hi1 hi2
    rw [store_apply]
    have : i ≠ eol := by omega
    simp [this]
  · refine ⟨q, q1, ?_, by omega⟩
    rw [store_apply]
    split <;> simp [*]

theorem step_view (s : PollFileDescriptor) (w : Sys) (sp : Nat) (l : List Nat) (hi : Nat)
    (hl : Holds s.buffer sp l) (hz : ∀ b ∈ l, b ≠ 0) (hlen : sp + l.length < bufferCount * bufferSize)
    (hhi : sp + l.length ≤ hi)
    (hp : Sep s.buffer s.printPtr sp hi)
    (hh : ∀ h, s.heldPtr = some h → Sep s.buffer h sp hi) (nb : Bool) :
    let t := if nb = true then printpfd { s with buffer := store s.buffer (sp + l.length) 0 } w sp
      else ({ s with buffer := store s.buffer (sp + l.length) 0, heldPtr := some sp }, w)
    heads t.1 t.2 =
        (if nb = true then LineState.emit s.option (heads s w) l
          else { heads s w with held := some l }) ∧
      t.1.buffer = store s.buffer (sp + l.length) 0 ∧ t.1.option = s.option ∧
      t.1.readTime = s.readTime ∧ t.1.fd = s.fd ∧ t.1.events = s.events ∧
      t.1.bufferIndex = s.bufferIndex ∧ t.1.pathname = s.pathname ∧
      Sep t.1.buffer t.1.printPtr (sp + l.length + 1) hi ∧
      (∀ h, t.1.heldPtr = some h → Sep t.1.buffer h (sp + l.length + 1) hi) := by
  have hline : bstr (store s.buffer (sp + l.length) 0) sp = l := by
    unfold bstr
    apply cstr_text _ l _ sp
    · apply holds_congr s.buffer _ l sp _ hl
      intro i h1 h2
      rw [store_apply]
      have : i ≠ sp + l.length := by omega
      simp [this]
    · exact hz
    · simp [store_apply]
    · omega
  have hfirst : store s.buffer (sp + l.length) 0 sp ≠ 0 ↔ l ≠ [] := by
    cases l with
    | nil => simp [store_apply]
    | cons b bs =>
      have hb : b ≠ 0 := hz b (List.mem_cons_self _ _)
      rw [store_apply]
      have : sp ≠ sp + (b :: bs).length := by simp
      simp only [this, if_false, hl.1]
      simp [hb]
  obtain ⟨hp1, hp2⟩ := bstr_store_sep s.buffer s.printPtr sp hi (sp + l.length) hp (by omega) hhi
  have hnew : Sep (store s.buffer (sp + l.length) 0) sp (sp + l.length + 1) hi :=
    ⟨sp + l.length, by omega, by simp [store_apply], by omega⟩
  have hheld : ∀ h, s.heldPtr = some h →
      bstr (store s.buffer (sp + l.length) 0) h = bstr s.buffer h ∧
      Sep (store s.buffer (sp + l.length) 0) h (sp + l.length + 1) hi :=
    fun h e => bstr_store_sep s.buffer h sp hi (sp + l.length) (hh h e) (by omega) hhi
  have hheldmap : Option.map (bstr (store s.buffer (sp + l.length) 0)) s.heldPtr =
      Option.map (bstr s.buffer) s.heldPtr := by
    cases e : s.heldPtr with
    | none => rfl
    | some h => simp [(hheld h e).1]
  cases nb with
  | false =>
    dsimp only
    simp only [Bool.false_eq_true, if_false]
    refine ⟨?_, trivial, trivial, trivial, trivial, trivial, trivial, trivial, hp2, ?_⟩
    · simp only [heads, Option.map_some', hline, hp1]
    · intro h e
      cases e
      exact hnew
  | true =>
    dsimp only
    simp only [if_true]
    unfold printpfd
    dsimp only
    by_cases hc : store s.buffer (sp + l.length) 0 sp ≠ 0 ∧ (s.option.duplicates = true ∨
        bstr (store s.buffer (sp + l.length) 0) s.printPtr ≠
          bstr (store s.buffer (sp + l.length) 0) sp)
    · rw [if_pos hc]
      have hc2 : l ≠ [] ∧ (s.option.duplicates = true ∨ (heads s w).last ≠ l) := by
        rw [hfirst, hp1, hline] at hc
        exact hc
      dsimp only
      refine ⟨?_, rfl, rfl, rfl, rfl, rfl, rfl, rfl, hnew, ?_⟩
      · unfold LineState.emit
        rw [if_pos hc2]
        simp only [heads, hline, hheldmap]
      · intro h e
        exact (hheld h e).2
    · rw [if_neg hc]
      have hc2 : ¬ (l ≠ [] ∧ (s.option.duplicates = true ∨ (heads s w).last ≠ l)) := by
        rw [hfirst, hp1, hline] at hc
        exact hc
      dsimp only
      refine ⟨?_, rfl, rfl, rfl, rfl, rfl, rfl, rfl, hp2, ?_⟩
      · unfold LineState.emit
        rw [if_neg hc2]
        simp only [heads, hp1, hheldmap]
      · intro h e
        exact (hheld h e).2

end PollFileDescriptor
theorem splitLines_rest_mem (delims : List Nat) :
    ∀ (X : List Nat) (b : Nat), b ∈ (splitLines delims X).2 → b ∈ X := by
  intro X
  induction X with
  | nil => intro b h; simp [splitLines] at h
  | cons c cs ih =>
    intro b h
    unfold splitLines at h
    by_cases hc : c ∈ delims
    · simp only [hc, if_true] at h
      exact List.mem_cons_of_mem _ (ih b h)
    · simp only [hc, if_false] at h
      cases hs : (splitLines delims cs).1 with
      | nil =>
        rw [hs] at h
        rcases List.mem_cons.mp h with e | e
        · rw [e]; exact List.mem_cons_self _ _
        · exact List.mem_cons_of_mem _ (ih b e)
      | cons l ls =>
        rw [hs] at h
        exact List.mem_cons_of_mem _ (ih b h)

namespace PollFileDescriptor

theorem scanLines_view : ∀ (fuel : Nat) (X : List Nat) (s : PollFileDescriptor) (w : Sys)
    (sp e : Nat) (nb : Bool),
    Holds s.buffer sp X → (∀ b ∈ X, b ≠ 0) → e = sp + X.length → s.buffer e = 0 →
    X.length < fuel → e < bufferCount * bufferSize →
    Sep s.buffer s.printPtr sp e →
    (∀ h, s.heldPtr = some h → Sep s.buffer h sp e) →
    heads (scanLines fuel s w sp nb).1 (scanLines fuel s w sp nb).2.1 =
        LineState.takeLines s.option nb (splitLines s.option.delimiters X).1 (heads s w) ∧
      (scanLines fuel s w sp nb).2.2 + (splitLines s.option.delimiters X).2.length = e ∧
      Holds (scanLines fuel s w sp nb).1.buffer (scanLines fuel s w sp nb).2.2
        (splitLines s.option.delimiters X).2 ∧
      (scanLines fuel s w sp nb).1.buffer e = 0 ∧
      (scanLines fuel s w sp nb).1.readTime = s.readTime ∧
      (scanLines fuel s w sp nb).1.fd = s.fd ∧
      (scanLines fuel s w sp nb).1.events = s.events ∧
      (scanLines fuel s w sp nb).1.pathname = s.pathname := by
  intro fuel
  induction fuel with
  | zero => intro X s w sp e nb _ _ _ _ h; omega
  | succ n ih =>
    intro X s w sp e nb hX hz he h0 hf hlim hp hh
    rcases split_cases s.option.delimiters X with hplain | ⟨l, d, Y, hXe, hd, hl⟩
    · have hnone : strpbrk s.buffer s.option.delimiters (bufferCount * bufferSize - sp) sp
          = none :=
        strpbrk_text_none _ _ X _ sp hX (fun b hb => ⟨hz b hb, hplain b hb⟩) (by rw [← he]; exact h0)
      unfold scanLines
      rw [hnone, splitLines_plain _ X hplain]
      exact ⟨rfl, by dsimp only; omega, hX, h0, rfl, rfl, rfl, rfl⟩
    · subst hXe
      have hlz : ∀ b ∈ l, b ≠ 0 := fun b hb => hz b (List.mem_append_left _ hb)
      have hd0 : d ≠ 0 := hz d (List.mem_append_right _ (List.mem_cons_self _ _))
      have hYz : ∀ b ∈ Y, b ≠ 0 :=
        fun b hb => hz b (List.mem_append_right _ (List.mem_cons_of_mem _ hb))
      rw [holds_append] at hX
      obtain ⟨hXl, hXd, hXY⟩ := hX
      simp only [List.length_append, List.length_cons] at he hf
      have hsome : strpbrk s.buffer s.option.delimiters (bufferCount * bufferSize - sp) sp
          = some (sp + l.length) :=
        strpbrk_text_some _ _ d hd hd0 l _ sp hXl (fun b hb => ⟨hlz b hb, hl b hb⟩) hXd
          (by omega)
      unfold scanLines
      rw [hsome, splitLines_line _ d Y hd l hl]
      dsimp only
      obtain ⟨t1, t2, t3, t4, t5, t6, t7, t8, t9, t10⟩ :=
        step_view s w sp l e hXl hlz (by omega) (by omega) hp hh nb
      dsimp only at t1 t2 t3 t4 t5 t6 t7 t8 t9 t10
      generalize (if nb = true then
          printpfd { s with buffer := store s.buffer (sp + l.length) 0 } w sp
        else ({ s with buffer := store s.buffer (sp + l.length) 0, heldPtr := some sp }, w)) = t
        at t1 t2 t3 t4 t5 t6 t7 t8 t9 t10 ⊢
      have hY : Holds t.1.buffer (sp + l.length + 1) Y := by
        rw [t2]
        apply holds_congr s.buffer _ Y _ _ hXY
        intro i h1 h2
        rw [store_apply]
        have : i ≠ sp + l.length := by omega
        simp [this]
      have h0t : t.1.buffer e = 0 := by
        rw [t2, store_apply]
        split
        · rfl
        · exact h0
      obtain ⟨g1, g2, g3, g4, g5, g6, g7, g8⟩ :=
        ih Y t.1 t.2 (sp + l.length + 1) e (s.option.debounce == 0) hY hYz (by omega) h0t
          (by omega) hlim t9 t10
      rw [t3] at g1 g2 g3
      refine ⟨?_, g2, g3, g4, by rw [g5, t4], by rw [g6, t5], by rw [g7, t6], by rw [g8, t8]⟩
      rw [g1, t1]
      rfl

end PollFileDescriptor
namespace LineState

theorem emit_pend (o : PFDOption) (v : LineState) (l x : List Nat) :
    emit o { v with pend := x } l = { emit o v l with pend := x } := by
  unfold emit
  dsimp only
  split <;> rfl

theorem takeLines_pend (o : PFDOption) :
    ∀ (ls : List (List Nat)) (nb : Bool) (v : LineState) (x : List Nat),
      takeLines o nb ls { v with pend := x } = { takeLines o nb ls v with pend := x } := by
  intro ls
  induction ls with
  | nil => intro nb v x; rfl
  | cons l ls ih =>
    intro nb v x
    unfold takeLines
    cases nb with
    | true =>
      simp only [if_true]
      rw [emit_pend, ih]
    | false =>
      simp only [Bool.false_eq_true, if_false]
      exact ih _ { v with held := some l } x

end LineState

namespace PollFileDescriptor

theorem printpfd_view (s : PollFileDescriptor) (w : Sys) (p : Nat)
    (hp : p < bufferCount * bufferSize) :
    view (printpfd s w p).1 (printpfd s w p).2 = LineState.emit s.option (view s w) (bstr s.buffer p) ∧
      (printpfd s w p).1.buffer = s.buffer ∧ (printpfd s w p).1.readPtr = s.readPtr ∧
      (printpfd s w p).1.readTime = s.readTime ∧ (printpfd s w p).1.fd = s.fd ∧
      (printpfd s w p).1.events = s.events ∧ (printpfd s w p).1.pathname = s.pathname ∧
      (printpfd s w p).1.heldPtr = s.heldPtr := by
  unfold printpfd
  dsimp only
  by_cases hc : s.buffer p ≠ 0 ∧
      (s.option.duplicates = true ∨ bstr s.buffer s.printPtr ≠ bstr s.buffer p)
  · rw [if_pos hc]
    have hc2 : bstr s.buffer p ≠ [] ∧
        (s.option.duplicates = true ∨ (view s w).last ≠ bstr s.buffer p) :=
      ⟨(bstr_ne_nil s.buffer p hp).mpr hc.1, hc.2⟩
    unfold LineState.emit
    rw [if_pos hc2]
    exact ⟨rfl, rfl, rfl, rfl, rfl, rfl, rfl, rfl⟩
  · rw [if_neg hc]
    have hc2 : ¬ (bstr s.buffer p ≠ [] ∧
        (s.option.duplicates = true ∨ (view s w).last ≠ bstr s.buffer p)) :=
      fun h => hc ⟨(bstr_ne_nil s.buffer p hp).mp h.1, h.2⟩
    unfold LineState.emit
    rw [if_neg hc2]
    exact ⟨rfl, rfl, rfl, rfl, rfl, rfl, rfl, rfl⟩

theorem settleHeld_view (s : PollFileDescriptor) (w : Sys) (now : Nat) (h : Inv s) :
    view (settleHeld s w now).1 (settleHeld s w now).2 = LineState.settle s.option (view s w) now ∧
      (settleHeld s w now).1.readPtr = s.readPtr ∧
      (settleHeld s w now).1.readTime = s.readTime ∧ (settleHeld s w now).1.fd = s.fd ∧
      (settleHeld s w now).1.events = s.events ∧
      (settleHeld s w now).1.pathname = s.pathname := by
  unfold settleHeld LineState.settle
  cases hh : s.heldPtr with
  | none =>
    have : (view s w).held = none := by simp [view, hh]
    rw [this]
    exact ⟨rfl, rfl, rfl, rfl, rfl, rfl⟩
  | some p =>
    have hv : (view s w).held = some (bstr s.buffer p) := by simp [view, hh]
    rw [hv]
    dsimp only
    obtain ⟨a1, a2, a3, a4, a5, a6, a7, a8⟩ := printpfd_view s w p (h.held p hh).1
    by_cases hn : usub64 now s.readTime ≥ s.option.debounce
    · have hn1 : nobounce s now = true := by simp [nobounce, hn]
      have hn2 : usub64 now (view s w).readTime ≥ s.option.debounce := hn
      rw [if_pos hn1, if_pos hn2]
      refine ⟨?_, a3, a4, a5, a6, a7⟩
      rw [← a1]
      simp only [view, Option.map_none']
    · have hn1 : ¬ nobounce s now = true := by simp [nobounce, hn]
      have hn2 : ¬ usub64 now (view s w).readTime ≥ s.option.debounce := hn
      rw [if_neg hn1, if_neg hn2]
      exact ⟨rfl, rfl, rfl, rfl, rfl, rfl⟩

theorem readpfd_data (s : PollFileDescriptor) (bytes : List Nat) (h : Inv s) (hfd : 0 ≤ s.fd) :
    readpfd s (.data bytes) =
      if s.readPtr + (bytes.take (bufferSize - 2 -
          (s.readPtr - s.bufferIndex * bufferSize))).length =
          bufferSize - 2 + s.bufferIndex * bufferSize then
        .ok ({ s with
            buffer := store (store (storeBytes s.buffer s.readPtr
                (bytes.take (bufferSize - 2 - (s.readPtr - s.bufferIndex * bufferSize))))
              (s.readPtr + (bytes.take (bufferSize - 2 -
                (s.readPtr - s.bufferIndex * bufferSize))).length)
              (s.option.delimiters.headD 0))
              (s.readPtr + (bytes.take (bufferSize - 2 -
                (s.readPtr - s.bufferIndex * bufferSize))).length + 1) 0,
            readPtr := s.readPtr + (bytes.take (bufferSize - 2 -
                (s.readPtr - s.bufferIndex * bufferSize))).length + 1 },
          (bytes.take (bufferSize - 2 -
            (s.readPtr - s.bufferIndex * bufferSize))).length + 1)
      else
        .ok ({ s with
            buffer := store (storeBytes s.buffer s.readPtr
                (bytes.take (bufferSize - 2 - (s.readPtr - s.bufferIndex * bufferSize))))
              (s.readPtr + (bytes.take (bufferSize - 2 -
                (s.readPtr - s.bufferIndex * bufferSize))).length) 0,
            readPtr := s.readPtr + (bytes.take (bufferSize - 2 -
                (s.readPtr - s.bufferIndex * bufferSize))).length },
          (bytes.take (bufferSize - 2 -
            (s.readPtr - s.bufferIndex * bufferSize))).length) := by
  have hidx := h.idx
  have hlo := h.lo
  have hhi := h.hi
  have hcount : (bufferSize - 2 + s.bufferIndex * bufferSize +
      (2 ^ 64 - s.readPtr % 2 ^ 64)) % 2 ^ 64 =
      bufferSize - 2 - (s.readPtr - s.bufferIndex * bufferSize) := by
    simp only [bufferSize, bufferCount] at *; omega
  unfold readpfd
  have hfd2 : ¬ s.fd < 0 := by omega
  simp only [hfd2, if_false, hcount]

end PollFileDescriptor
namespace LineState

theorem eq_of (a b : LineState) (h1 : a.last = b.last) (h2 : a.held = b.held)
    (h3 : a.pend = b.pend) (h4 : a.readTime = b.readTime) (h5 : a.lines = b.lines) : a = b := by
  cases a; cases b; simp_all

end LineState

namespace PollFileDescriptor

theorem bstr_frame (m n : Mem) (p idx : Nat) (ht : Terminated m p)
    (hseg : p / bufferSize ≠ idx) (hfr : ∀ i, i / bufferSize ≠ idx → n i = m i) :
    bstr n p = bstr m p := by
  obtain ⟨q, q1, q2, q3⟩ := ht
  unfold bstr
  apply cstr_congr m n _ p q q1 q3
  intro i h1 h2
  apply hfr
  simp only [bufferSize] at *
  omega

theorem sep_of_terminated (m n : Mem) (p idx len : Nat) (ht : Terminated m p)
    (hseg : p / bufferSize ≠ idx) (hfr : ∀ i, i / bufferSize ≠ idx → n i = m i)
    (hlen : len < bufferSize) :
    Sep n p (idx * bufferSize) (idx * bufferSize + len) := by
  obtain ⟨q, q1, q2, q3⟩ := ht
  refine ⟨q, q1, ?_, ?_⟩
  · rw [hfr q (by rw [q2]; exact hseg)]; exact q3
  · simp only [bufferSize] at *
    omega

theorem printpfd_cases (s : PollFileDescriptor) (w : Sys) (p : Nat) :
    (printpfd s w p).2.overlap = w.overlap ∧
      (printpfd s w p = (s, w) ∨
        ((printpfd s w p).1 = { s with printPtr := p } ∧
          (printpfd s w p).2.lines = w.lines ++ [bstr s.buffer p])) := by
  unfold printpfd
  dsimp only
  split
  · exact ⟨rfl, Or.inr ⟨rfl, rfl⟩⟩
  · exact ⟨rfl, Or.inl rfl⟩

theorem settleHeld_overlap (s : PollFileDescriptor) (w : Sys) (now : Nat) :
    (settleHeld s w now).2.overlap = w.overlap := by
  unfold settleHeld
  cases s.heldPtr with
  | none => rfl
  | some p =>
    dsimp only
    split
    · exact (printpfd_cases s w p).1
    · rfl

/-- The loop over the lines keeps the library, only adds to the printed lines,
and when it has added one, `printPtr` points into the text it stepped
through; else `printPtr` is as before. -/
theorem scanLines_printPtr : ∀ (fuel : Nat) (s : PollFileDescriptor) (w : Sys) (sp : Nat)
    (nb : Bool) (e : Nat), Mid s sp e →
    (scanLines fuel s w sp nb).2.1.overlap = w.overlap ∧
      ∃ ls, (scanLines fuel s w sp nb).2.1.lines = w.lines ++ ls ∧
        ((ls = [] ∧ (scanLines fuel s w sp nb).1.printPtr = s.printPtr) ∨
          (ls ≠ [] ∧ sp ≤ (scanLines fuel s w sp nb).1.printPtr ∧
            (scanLines fuel s w sp nb).1.printPtr < e)) := by
  intro fuel
  induction fuel with
  | zero => intro s w sp nb e _; exact ⟨rfl, [], by simp [scanLines], Or.inl ⟨rfl, rfl⟩⟩
  | succ n ih =>
    intro s w sp nb e hm
    unfold scanLines
    cases hs : strpbrk s.buffer s.option.delimiters (bufferCount * bufferSize - sp) sp with
    | none => exact ⟨rfl, [], by simp, Or.inl ⟨rfl, rfl⟩⟩
    | some eol =>
      dsimp only
      generalize hr : (if nb = true then
          printpfd { s with buffer := store s.buffer eol 0 } w sp
        else ({ s with buffer := store s.buffer eol 0, heldPtr := some sp }, w)) = r
      have hfacts : r.1.buffer = store s.buffer eol 0 ∧ r.1.bufferIndex = s.bufferIndex ∧
          r.1.option = s.option ∧ (r.1.printPtr = s.printPtr ∨ r.1.printPtr = sp) ∧
          (r.1.heldPtr = s.heldPtr ∨ r.1.heldPtr = some sp) ∧
          r.2.overlap = w.overlap ∧
          ((r.2 = w ∧ r.1.printPtr = s.printPtr) ∨
            (r.1.printPtr = sp ∧ ∃ l, r.2.lines = w.lines ++ [l])) := by
        subst hr
        cases nb with
        | true =>
          simp only [if_true]
          obtain ⟨c0, c1⟩ := printpfd_cases { s with buffer := store s.buffer eol 0 } w sp
          rcases c1 with c1 | ⟨c1, c2⟩
          · rw [c1]
            exact ⟨rfl, rfl, rfl, Or.inl rfl, Or.inl rfl, rfl, Or.inl ⟨rfl, rfl⟩⟩
          · refine ⟨by rw [c1], by rw [c1], by rw [c1], Or.inr (by rw [c1]),
              Or.inl (by rw [c1]), c0, Or.inr ⟨by rw [c1], _, c2⟩⟩
        | false =>
          exact ⟨rfl, rfl, rfl, Or.inl rfl, Or.inr rfl, rfl, Or.inl ⟨rfl, rfl⟩⟩
      obtain ⟨f1, f2, f3, f4, f5, f6, f7⟩ := hfacts
      obtain ⟨hm2, hlt⟩ := mid_step s sp e eol hm hs r.1 f1 f2 f3 f4 f5
      have hge : sp ≤ eol := (strpbrk_some _ _ _ _ _ hs).1
      obtain ⟨g0, ls, g1, g2⟩ := ih r.1 r.2 (eol + 1) (s.option.debounce == 0) e hm2
      refine ⟨g0.trans f6, ?_⟩
      rcases f7 with ⟨f7, f8⟩ | ⟨f7, l, f8⟩
      · refine ⟨ls, by rw [g1, f7], ?_⟩
        rcases g2 with ⟨a1, a2⟩ | ⟨a1, a2, a3⟩
        · exact Or.inl ⟨a1, a2.trans f8⟩
        · exact Or.inr ⟨a1, by omega, a3⟩
      · refine ⟨l :: ls, by rw [g1, f8]; simp, Or.inr ⟨by simp, ?_⟩⟩
        rcases g2 with ⟨a1, a2⟩ | ⟨a1, a2, a3⟩
        · rw [a2, f7]; exact ⟨le_refl _, by omega⟩
        · exact ⟨by omega, a3⟩

/-- The loop over the lines of a read and the buffer search after it, line
by line.  The unfinished rest is copied to the start of the segment the
search selects; the copy overlaps its source only if that segment is the
active one and lines were finished. -/
theorem scan_rotate_view (s1 s3 : PollFileDescriptor) (w1 : Sys) (now : Nat) (nb : Bool)
    (X : List Nat) (e' : Nat) (hinv : Inv s1)
    (hbi : s3.bufferIndex = s1.bufferIndex) (hopt : s3.option = s1.option)
    (hpp : s3.printPtr = s1.printPtr) (hhp : s3.heldPtr = s1.heldPtr)
    (hframe : ∀ i, i / bufferSize ≠ s1.bufferIndex → s3.buffer i = s1.buffer i)
    (hmid : Mid s3 (s1.bufferIndex * bufferSize) e')
    (hX : Holds s3.buffer (s1.bufferIndex * bufferSize) X) (hXz : ∀ b ∈ X, b ≠ 0)
    (hX0 : s3.buffer (s1.bufferIndex * bufferSize + X.length) = 0)
    (hXl : X.length < bufferSize) :
    ∃ s6, rotate (scanLines bufferSize { s3 with readTime := now } w1
          (s1.bufferIndex * bufferSize) nb).2.1
        (scanLines bufferSize { s3 with readTime := now } w1
          (s1.bufferIndex * bufferSize) nb).1
        (scanLines bufferSize { s3 with readTime := now } w1
          (s1.bufferIndex * bufferSize) nb).2.2 = .ok s6 ∧
      view s6 (scanLines bufferSize { s3 with readTime := now } w1
          (s1.bufferIndex * bufferSize) nb).2.1 =
        { LineState.takeLines s1.option nb (splitLines s1.option.delimiters X).1
            { view s1 w1 with readTime := now } with
          pend := copied w1.overlap (s6.bufferIndex * bufferSize)
            (s1.bufferIndex * bufferSize + (X.length -
              (splitLines s1.option.delimiters X).2.length))
            (splitLines s1.option.delimiters X).2 } ∧
      Inv s6 ∧ s6.option = s1.option ∧ s6.fd = s3.fd ∧ s6.events = s3.events ∧
      s6.pathname = s3.pathname ∧
      (splitLines s1.option.delimiters X).2.length ≤ X.length ∧
      ((scanLines bufferSize { s3 with readTime := now } w1
          (s1.bufferIndex * bufferSize) nb).2.1.lines ≠ w1.lines →
        s6.bufferIndex ≠ s1.bufferIndex) ∧
      ((scanLines bufferSize { s3 with readTime := now } w1
          (s1.bufferIndex * bufferSize) nb).2.1.lines = w1.lines →
        s6.printPtr = s1.printPtr) ∧
      findBuffer (bufferOf (some s6.printPtr) ||| bufferOf s6.heldPtr) bufferCount 0
        = .ok s6.bufferIndex := by
  have hidx := hinv.idx
  have hm4 : Mid { s3 with readTime := now } (s1.bufferIndex * bufferSize) e' :=
    mid_readTime now hmid
  have hmhi := hmid.hi
  have hmle := hmid.le
  rw [hbi] at hmhi
  obtain ⟨g1, g2, g3, g4, g5⟩ := scanLines_mid bufferSize { s3 with readTime := now } w1
    (s1.bufferIndex * bufferSize) nb e' hm4 (by simp only [bufferSize] at *; omega)
  obtain ⟨p0, ls, p1, p2⟩ := scanLines_printPtr bufferSize { s3 with readTime := now } w1
    (s1.bufferIndex * bufferSize) nb e' hm4
  have hsepP : Sep s3.buffer s3.printPtr (s1.bufferIndex * bufferSize)
      (s1.bufferIndex * bufferSize + X.length) := by
    rw [hpp]
    exact sep_of_terminated s1.buffer s3.buffer _ _ _ hinv.prEnd hinv.prSeg hframe hXl
  have hsepH : ∀ h, s3.heldPtr = some h → Sep s3.buffer h (s1.bufferIndex * bufferSize)
      (s1.bufferIndex * bufferSize + X.length) := by
    intro h hh
    rw [hhp] at hh
    obtain ⟨_, c2, c3⟩ := hinv.held h hh
    exact sep_of_terminated s1.buffer s3.buffer _ _ _ c3 c2 hframe hXl
  obtain ⟨h1, h2, h3, h4, h5, h6, h7, h8⟩ := scanLines_view bufferSize X
    { s3 with readTime := now } w1 (s1.bufferIndex * bufferSize)
    (s1.bufferIndex * bufferSize + X.length) nb hX hXz rfl hX0 hXl
    (by simp only [bufferSize, bufferCount] at *; omega) hsepP hsepH
  generalize scanLines bufferSize { s3 with readTime := now } w1
    (s1.bufferIndex * bufferSize) nb = x at g1 g2 g3 g4 g5 h1 h2 h3 h4 h5 h6 h7 h8 p0 p1 p2 ⊢
  dsimp only at g2 g3 g4 g5 h1 h2 h3 h4 h5 h6 h7 h8 p2
  rw [hopt] at h2 h3 g2 g4
  have h1a : heads x.1 x.2.1 =
      LineState.takeLines s1.option nb (splitLines s1.option.delimiters X).1
        (heads { s3 with readTime := now } w1) := by
    rw [← hopt]; exact h1
  rw [← g4] at g2
  obtain ⟨s6, b1, b2, b3, b4, b5, b6, b7, b8, b9, b10, b11, b12, b13⟩ :=
    rotate_inv x.2.1 x.1 x.2.2 e' g1 g2
  have hrestz : ∀ b ∈ (splitLines s1.option.delimiters X).2, b ≠ 0 :=
    fun b hb => hXz b (splitLines_rest_mem _ X b hb)
  have hrest : bstr x.1.buffer x.2.2 = (splitLines s1.option.delimiters X).2 := by
    unfold bstr
    apply cstr_text _ _ _ _ h3 hrestz
    · rw [h2]; exact h4
    · simp only [bufferSize, bufferCount] at *; omega
  rw [hrest] at b8 b9
  have hload : loadBytes x.1.buffer x.2.2 (splitLines s1.option.delimiters X).2.length =
      (splitLines s1.option.delimiters X).2 := loadBytes_of_holds _ _ _ h3
  rw [hload, p0] at b9
  have hrl : (splitLines s1.option.delimiters X).2.length ≤ X.length := by
    have := g1.lo
    rw [g3] at this
    rw [hbi] at this
    omega
  have hsp : x.2.2 = s1.bufferIndex * bufferSize + (X.length -
      (splitLines s1.option.delimiters X).2.length) := by omega
  rw [hsp] at b9
  have hheads : heads { s3 with readTime := now } w1 =
      { view s1 w1 with readTime := now, pend := [] } := by
    apply LineState.eq_of
    · show bstr s3.buffer s3.printPtr = bstr s1.buffer s1.printPtr
      rw [hpp]
      exact bstr_frame _ _ _ _ hinv.prEnd hinv.prSeg hframe
    · show Option.map (bstr s3.buffer) s3.heldPtr = Option.map (bstr s1.buffer) s1.heldPtr
      rw [hhp]
      cases hh : s1.heldPtr with
      | none => rfl
      | some h =>
        obtain ⟨_, c2, c3⟩ := hinv.held h hh
        simp only [Option.map_some']
        rw [bstr_frame _ _ _ _ c3 c2 hframe]
    · rfl
    · rfl
    · rfl
  rw [hheads] at h1a
  have hT := LineState.takeLines_pend s1.option (splitLines s1.option.delimiters X).1 nb
    { view s1 w1 with readTime := now } []
  have h1' : heads x.1 x.2.1 =
      { LineState.takeLines s1.option nb (splitLines s1.option.delimiters X).1
          { view s1 w1 with readTime := now } with pend := [] } := by
    rw [h1a, ← hT]
  refine ⟨s6, b1, ?_, b2, by rw [b3, g4], by rw [b11, h6], by rw [b12, h7], by rw [b13, h8],
    hrl, ?_, ?_, by rw [b5, b6]; exact b7⟩
  · apply LineState.eq_of
    · show bstr s6.buffer s6.printPtr = _
      have := congrArg LineState.last h1'
      dsimp only at this
      rw [← this, b5]
      show _ = bstr x.1.buffer x.1.printPtr
      exact bstr_frame _ _ _ _ g1.prEnd (by rw [← b5]; exact b2.prSeg) b4
    · show Option.map (bstr s6.buffer) s6.heldPtr = _
      have := congrArg LineState.held h1'
      dsimp only at this
      rw [← this, b6]
      show _ = Option.map (bstr x.1.buffer) x.1.heldPtr
      cases hh : x.1.heldPtr with
      | none => rfl
      | some h =>
        simp only [Option.map_some']
        rw [bstr_frame _ _ _ _ (g1.held h hh).2 (b2.held h (by rw [b6]; exact hh)).2.1 b4]
    · show loadBytes s6.buffer (s6.bufferIndex * bufferSize)
        (s6.readPtr - s6.bufferIndex * bufferSize) = _
      have hl : s6.readPtr - s6.bufferIndex * bufferSize =
          (copied w1.overlap (s6.bufferIndex * bufferSize)
            (s1.bufferIndex * bufferSize + (X.length -
              (splitLines s1.option.delimiters X).2.length))
            (splitLines s1.option.delimiters X).2).length := by
        rw [copied_length]; omega
      rw [hl]
      apply loadBytes_of_holds
      apply holds_congr _ _ _ _ _ (holds_storeBytes x.1.buffer (s6.bufferIndex * bufferSize) _)
      intro i _ _
      exact b9 i
    · show s6.readTime = _
      have := congrArg LineState.readTime h1'
      dsimp only at this
      rw [← this, b10]
      rfl
    · have := congrArg LineState.lines h1'
      dsimp only at this
      rw [← this]
      rfl
  · intro hne
    rcases p2 with ⟨a1, _⟩ | ⟨_, a2, a3⟩
    · rw [p1, a1, List.append_nil] at hne
      exact absurd rfl hne
    · have hseg : x.1.printPtr / bufferSize = s1.bufferIndex := by
        simp only [bufferSize, bufferCount] at *; omega
      have := b2.prSeg
      rw [b5, hseg] at this
      exact fun e => this e.symm
  · intro he
    rcases p2 with ⟨_, a2⟩ | ⟨a1, _, _⟩
    · rw [b5, a2]; exact hpp
    · rw [p1] at he
      have : ls = [] := by
        have := congrArg List.length he
        simp only [List.length_append] at this
        exact List.length_eq_zero.mp (by omega)
      exact absurd this a1

end PollFileDescriptor
namespace PollFileDescriptor

theorem holds_after_read (m n : Mem) (base rp : Nat) (got : List Nat) (hrp : base ≤ rp)
    (hn : ∀ i, i < rp + got.length → n i = storeBytes m rp got i) :
    Holds n base (loadBytes m base (rp - base) ++ got) := by
  rw [holds_append]
  constructor
  · apply holds_congr m n _ _ _ (holds_loadBytes m _ _)
    intro i h1 h2
    rw [loadBytes_length] at h2
    rw [hn i (by omega), storeBytes_apply, if_neg (by omega)]
  · rw [loadBytes_length]
    have : base + (rp - base) = rp := by omega
    rw [this]
    apply holds_congr _ n _ _ _ (holds_storeBytes m rp got)
    intro i h1 h2
    exact hn i h2

theorem checkpfd_wake (s : PollFileDescriptor) (w : Sys) (now revents : Nat) (bytes : List Nat)
    (hinv : Inv s) (hfd : 0 ≤ s.fd) (hup : revents &&& POLLHUP = 0)
    (hev : revents &&& s.events ≠ 0)
    (hz : ∀ b ∈ bytes.take (bufferSize - 2 - (s.readPtr - s.bufferIndex * bufferSize)),
      b ≠ 0) :
    ∃ r P, checkpfd s w now revents (.data bytes) = .ok r ∧
      view r.1 r.2.1 = { LineState.read s.option (view s w) now bytes with pend := P } ∧
      Inv r.1 ∧ r.1.option = s.option ∧ r.1.fd = s.fd ∧ r.1.events = s.events ∧
      r.1.pathname = s.pathname ∧ r.2.2 = wakeTime r.1 now ∧
      P = copied w.overlap (r.1.bufferIndex * bufferSize)
        (s.bufferIndex * bufferSize + ((LineState.text s.option (view s w) bytes).length -
          (LineState.read s.option (view s w) now bytes).pend.length))
        (LineState.read s.option (view s w) now bytes).pend ∧
      ((LineState.read s.option (view s w) now bytes).pend.length ≤
          (LineState.text s.option (view s w) bytes).length ∧
        (LineState.text s.option (view s w) bytes).length < bufferSize) ∧
      ((LineState.read s.option (view s w) now bytes).lines ≠
          (LineState.settle s.option (view s w) now).lines →
        r.1.bufferIndex ≠ s.bufferIndex) ∧
      ((LineState.read s.option (view s w) now bytes).lines =
          (LineState.settle s.option (view s w) now).lines →
        r.1.printPtr = (settleHeld s w now).1.printPtr) ∧
      (r.1.bufferIndex = s.bufferIndex ∨
        findBuffer (bufferOf (some r.1.printPtr) ||| bufferOf r.1.heldPtr) bufferCount 0 =
          .ok r.1.bufferIndex) := by
  obtain ⟨i1, i2, i3, i4⟩ := settleHeld_inv s w now hinv
  obtain ⟨v1, v2, v3, v4, v5, v6⟩ := settleHeld_view s w now hinv
  have hs2 : hangUp (settleHeld s w now).1 revents = (settleHeld s w now).1 := by
    unfold hangUp; rw [if_neg (by simp [hup])]
  have hrd := readpfd_data (settleHeld s w now).1 bytes i1 (by rw [v4]; exact hfd)
  have hmidfacts := fun s3 c h => readpfd_mid (settleHeld s w now).1 (.data bytes) s3 c i1 h
  have hpl : (view s w).pend.length = s.readPtr - s.bufferIndex * bufferSize :=
    loadBytes_length _ _ _
  have hnb : nobounce s now = decide (usub64 now (view s w).readTime ≥ s.option.debounce) := rfl
  have hov := settleHeld_overlap s w now
  unfold checkpfd readLines
  dsimp only
  rw [hs2, v5, if_pos hev]
  unfold LineState.read LineState.text
  dsimp only
  rw [← v1, hpl, ← hnb]
  have hpend : (view s w).pend = loadBytes (settleHeld s w now).1.buffer
      ((settleHeld s w now).1.bufferIndex * bufferSize)
      ((settleHeld s w now).1.readPtr - (settleHeld s w now).1.bufferIndex * bufferSize) := by
    rw [i2, i3, v2]; rfl
  rw [hpend]
  rw [← i3, ← v2, ← i4] 
  generalize settleHeld s w now = sw at *
  have hidx := i1.idx
  have hlo := i1.lo
  have hhi := i1.hi
  have hgz : ∀ b ∈ List.take (bufferSize - 2 - (sw.1.readPtr - sw.1.bufferIndex * bufferSize))
      bytes, b ≠ 0 := by rw [v2, i3]; exact hz
  have hglen : (List.take (bufferSize - 2 - (sw.1.readPtr - sw.1.bufferIndex * bufferSize))
      bytes).length ≤ bufferSize - 2 - (sw.1.readPtr - sw.1.bufferIndex * bufferSize) := by
    rw [List.length_take]; exact Nat.min_le_left _ _
  generalize List.take (bufferSize - 2 - (sw.1.readPtr - sw.1.bufferIndex * bufferSize))
    bytes = got at *
  have hpz : ∀ b ∈ loadBytes sw.1.buffer (sw.1.bufferIndex * bufferSize)
      (sw.1.readPtr - sw.1.bufferIndex * bufferSize), b ≠ 0 := by
    intro b hb
    simp only [loadBytes, List.mem_map, List.mem_range] at hb
    obtain ⟨k, hk, rfl⟩ := hb
    exact i1.pend _ (by omega) (by omega)
  have hplen : (loadBytes sw.1.buffer (sw.1.bufferIndex * bufferSize)
      (sw.1.readPtr - sw.1.bufferIndex * bufferSize)).length =
      sw.1.readPtr - sw.1.bufferIndex * bufferSize := loadBytes_length _ _ _
  by_cases hfill : sw.1.readPtr + got.length = bufferSize - 2 + sw.1.bufferIndex * bufferSize
  · rw [if_pos hfill] at hrd
    obtain ⟨m1, m2, m3, m4, m5, _, m7⟩ := hmidfacts _ _ hrd
    rw [hrd]
    dsimp only
    rw [if_pos (by omega : got.length + 1 ≠ 0)]
    dsimp only
    have hcond : ¬ (got.length = 0 ∧
        sw.1.readPtr - sw.1.bufferIndex * bufferSize ≠ bufferSize - 2) := by omega
    rw [if_neg hcond]
    have hfull : sw.1.readPtr - sw.1.bufferIndex * bufferSize + got.length = bufferSize - 2 := by
      omega
    have hbase : ∀ i, i < sw.1.readPtr + got.length →
        store (store (storeBytes sw.1.buffer sw.1.readPtr got) (sw.1.readPtr + got.length)
          (sw.1.option.delimiters.headD 0)) (sw.1.readPtr + got.length + 1) 0 i =
        storeBytes sw.1.buffer sw.1.readPtr got i := by
      intro i hi
      rw [store_apply, store_apply, if_neg (by omega), if_neg (by omega)]
    have hX1 := holds_after_read sw.1.buffer _ (sw.1.bufferIndex * bufferSize) sw.1.readPtr got
      hlo hbase
    by_cases hd : sw.1.option.delimiters.headD 0 ≠ 0
    · have htail : (if sw.1.readPtr - sw.1.bufferIndex * bufferSize + got.length =
          bufferSize - 2 ∧ sw.1.option.delimiters.headD 0 ≠ 0 then
          [sw.1.option.delimiters.headD 0] else []) = [sw.1.option.delimiters.headD 0] :=
        if_pos ⟨hfull, hd⟩
      rw [htail]
      obtain ⟨s6, r1, r2, r3, r4, r5, r6, r7, r8, r9, r10, r11⟩ := scan_rotate_view sw.1
        { sw.1 with
          buffer := store (store (storeBytes sw.1.buffer sw.1.readPtr got)
            (sw.1.readPtr + got.length) (sw.1.option.delimiters.headD 0))
            (sw.1.readPtr + got.length + 1) 0,
          readPtr := sw.1.readPtr + got.length + 1 } sw.2 now
        (nobounce s now)
        (loadBytes sw.1.buffer (sw.1.bufferIndex * bufferSize)
          (sw.1.readPtr - sw.1.bufferIndex * bufferSize) ++ got ++
          [sw.1.option.delimiters.headD 0]) _ i1 rfl rfl rfl rfl m5 (m7 (by omega))
        (by
          rw [holds_append]
          refine ⟨hX1, ?_, trivial⟩
          dsimp only
          rw [List.length_append, hplen, store_apply, store_apply, if_neg (by omega),
            if_pos (by omega)])
        (by
          intro b hb
          rcases List.mem_append.mp hb with hb | hb
          · rcases List.mem_append.mp hb with hb | hb
            · exact hpz b hb
            · exact hgz b hb
          · rw [List.mem_singleton.mp hb]; exact hd)
        (by
          dsimp only
          rw [List.length_append, List.length_append, hplen, store_apply,
            if_pos (by simp only [List.length_singleton]; omega)])
        (by
          rw [List.length_append, List.length_append, hplen]
          simp only [List.length_singleton, bufferSize] at *
          omega)
      dsimp only at r1
      rw [r1]
      refine ⟨_, _, rfl, r2, r3, by rw [r4, i4], by rw [r5]; exact v4, by rw [r6]; exact v5,
        by rw [r7]; exact v6, rfl, by rw [hov], ⟨r8, ?_⟩,
        fun h => r9 (fun e => h ((congrArg LineState.lines r2).symm.trans e)),
        fun e => r10 ((congrArg LineState.lines r2).trans e), Or.inr r11⟩
      rw [List.length_append, List.length_append, hplen]
      simp only [List.length_singleton, bufferSize] at *
      omega
    · have hd0 : sw.1.option.delimiters.headD 0 = 0 := by
        by_contra hc; exact hd hc
      have htail : (if sw.1.readPtr - sw.1.bufferIndex * bufferSize + got.length =
          bufferSize - 2 ∧ sw.1.option.delimiters.headD 0 ≠ 0 then
          [sw.1.option.delimiters.headD 0] else []) = [] :=
        if_neg (fun h => hd h.2)
      rw [htail, List.append_nil]
      obtain ⟨s6, r1, r2, r3, r4, r5, r6, r7, r8, r9, r10, r11⟩ := scan_rotate_view sw.1
        { sw.1 with
          buffer := store (store (storeBytes sw.1.buffer sw.1.readPtr got)
            (sw.1.readPtr + got.length) (sw.1.option.delimiters.headD 0))
            (sw.1.readPtr + got.length + 1) 0,
          readPtr := sw.1.readPtr + got.length + 1 } sw.2 now
        (nobounce s now)
        (loadBytes sw.1.buffer (sw.1.bufferIndex * bufferSize)
          (sw.1.readPtr - sw.1.bufferIndex * bufferSize) ++ got) _ i1 rfl rfl rfl rfl m5
        (m7 (by omega)) hX1
        (by
          intro b hb
          rcases List.mem_append.mp hb with hb | hb
          · exact hpz b hb
          · exact hgz b hb)
        (by
          dsimp only
          rw [List.length_append, hplen, store_apply, store_apply, if_neg (by omega),
            if_pos (by omega)]
          exact hd0)
        (by
          rw [List.length_append, hplen]
          simp only [bufferSize] at *
          omega)
      dsimp only at r1
      rw [r1]
      refine ⟨_, _, rfl, r2, r3, by rw [r4, i4], by rw [r5]; exact v4, by rw [r6]; exact v5,
        by rw [r7]; exact v6, rfl, by rw [hov], ⟨r8, ?_⟩,
        fun h => r9 (fun e => h ((congrArg LineState.lines r2).symm.trans e)),
        fun e => r10 ((congrArg LineState.lines r2).trans e), Or.inr r11⟩
      rw [List.length_append, hplen]
      simp only [bufferSize] at *
      omega
  · rw [if_neg hfill] at hrd
    obtain ⟨m1, m2, m3, m4, m5, m6, m7⟩ := hmidfacts _ _ hrd
    rw [hrd]
    dsimp only
    have htail : (if sw.1.readPtr - sw.1.bufferIndex * bufferSize + got.length =
        bufferSize - 2 ∧ sw.1.option.delimiters.headD 0 ≠ 0 then
        [sw.1.option.delimiters.headD 0] else []) = [] :=
      if_neg (fun h => hfill (by omega))
    rw [htail, List.append_nil]
    by_cases hg : got.length = 0
    · have hcond : got.length = 0 ∧
          sw.1.readPtr - sw.1.bufferIndex * bufferSize ≠ bufferSize - 2 := ⟨hg, by omega⟩
      rw [if_pos hcond, if_neg (by omega : ¬ got.length ≠ 0)]
      have hgn : got = [] := List.length_eq_zero.mp hg
      subst hgn
      refine ⟨_, loadBytes sw.1.buffer (sw.1.bufferIndex * bufferSize)
        (sw.1.readPtr - sw.1.bufferIndex * bufferSize), rfl, ?_, m6 hg, rfl, v4, v5, v6, rfl,
        ?_, ⟨?_, ?_⟩, fun h => absurd rfl h, fun _ => rfl, Or.inl rfl⟩
      rotate_left
      · refine (copied_apart _ _ _ _ (Or.inl ?_)).symm
        show sw.1.bufferIndex * bufferSize = _
        simp only [List.append_nil]
        show _ = _ + (_ - (loadBytes sw.1.buffer (sw.1.bufferIndex * bufferSize)
          (sw.1.readPtr - sw.1.bufferIndex * bufferSize)).length)
        rw [Nat.sub_self, Nat.add_zero]
      · show (loadBytes sw.1.buffer (sw.1.bufferIndex * bufferSize)
          (sw.1.readPtr - sw.1.bufferIndex * bufferSize)).length ≤ _
        simp only [List.append_nil]
        exact le_refl _
      · simp only [List.append_nil, hplen, bufferSize] at *
        omega
      dsimp only
      apply LineState.eq_of
      · show bstr _ sw.1.printPtr = bstr sw.1.buffer sw.1.printPtr
        exact bstr_frame _ _ _ _ i1.prEnd i1.prSeg m5
      · show Option.map (bstr _) sw.1.heldPtr = Option.map (bstr sw.1.buffer) sw.1.heldPtr
        cases hh : sw.1.heldPtr with
        | none => rfl
        | some h =>
          obtain ⟨_, c2, c3⟩ := i1.held h hh
          simp only [Option.map_some']
          rw [bstr_frame _ _ _ _ c3 c2 m5]
      · show loadBytes _ _ _ = loadBytes _ _ _
        simp only [List.length_nil, Nat.add_zero]
        have e1 := loadBytes_of_holds (store (storeBytes sw.1.buffer sw.1.readPtr []) sw.1.readPtr 0)
          (loadBytes sw.1.buffer (sw.1.bufferIndex * bufferSize)
            (sw.1.readPtr - sw.1.bufferIndex * bufferSize)) (sw.1.bufferIndex * bufferSize)
          (by
            apply holds_congr sw.1.buffer _ _ _ _ (holds_loadBytes _ _ _)
            intro i h1 h2
            rw [hplen] at h2
            rw [store_apply, storeBytes_apply, if_neg (by omega), if_neg (by simp)])
        rw [hplen] at e1
        exact e1
      · rfl
      · rfl
    · have hcond : ¬ (got.length = 0 ∧
          sw.1.readPtr - sw.1.bufferIndex * bufferSize ≠ bufferSize - 2) := fun h => hg h.1
      rw [if_neg hcond, if_pos hg]
      dsimp only
      have hbase : ∀ i, i < sw.1.readPtr + got.length →
          store (storeBytes sw.1.buffer sw.1.readPtr got) (sw.1.readPtr + got.length) 0 i =
          storeBytes sw.1.buffer sw.1.readPtr got i := by
        intro i hi
        rw [store_apply, if_neg (by omega)]
      have hX1 := holds_after_read sw.1.buffer _ (sw.1.bufferIndex * bufferSize) sw.1.readPtr
        got hlo hbase
      obtain ⟨s6, r1, r2, r3, r4, r5, r6, r7, r8, r9, r10, r11⟩ := scan_rotate_view sw.1
        { sw.1 with
          buffer := store (storeBytes sw.1.buffer sw.1.readPtr got)
            (sw.1.readPtr + got.length) 0,
          readPtr := sw.1.readPtr + got.length } sw.2 now
        (nobounce s now)
        (loadBytes sw.1.buffer (sw.1.bufferIndex * bufferSize)
          (sw.1.readPtr - sw.1.bufferIndex * bufferSize) ++ got) _ i1 rfl rfl rfl rfl m5
        (m7 hg) hX1
        (by
          intro b hb
          rcases List.mem_append.mp hb with hb | hb
          · exact hpz b hb
          · exact hgz b hb)
        (by
          dsimp only
          rw [List.length_append, hplen, store_apply, if_pos (by omega)])
        (by
          rw [List.length_append, hplen]
          simp only [bufferSize] at *
          omega)
      dsimp only at r1
      rw [r1]
      refine ⟨_, _, rfl, r2, r3, by rw [r4, i4], by rw [r5]; exact v4, by rw [r6]; exact v5,
        by rw [r7]; exact v6, rfl, by rw [hov], ⟨r8, ?_⟩,
        fun h => r9 (fun e => h ((congrArg LineState.lines r2).symm.trans e)),
        fun e => r10 ((congrArg LineState.lines r2).trans e), Or.inr r11⟩
      rw [List.length_append, hplen]
      simp only [bufferSize] at *
      omega

end PollFileDescriptor

theorem splitLines_cons_delim (delims : List Nat) (a : Nat) (X : List Nat) (h : a ∈ delims) :
    splitLines delims (a :: X) = ([] :: (splitLines delims X).1, (splitLines delims X).2) := by
  simp only [splitLines, h, if_true]

theorem splitLines_cons_nil (delims : List Nat) (a : Nat) (X : List Nat) (h : a ∉ delims)
    (hs : (splitLines delims X).1 = []) :
    splitLines delims (a :: X) = ([], a :: (splitLines delims X).2) := by
  simp only [splitLines, h, if_false, hs]

theorem splitLines_cons_cons (delims : List Nat) (a : Nat) (X : List Nat) (l : List Nat)
    (ls : List (List Nat)) (h : a ∉ delims) (hs : (splitLines delims X).1 = l :: ls) :
    splitLines delims (a :: X) = ((a :: l) :: ls, (splitLines delims X).2) := by
  simp only [splitLines, h, if_false, hs]

theorem splitLines_fst_nil (delims : List Nat) :
    ∀ X : List Nat, (splitLines delims X).1 = [] → (splitLines delims X).2 = X := by
  intro X
  induction X with
  | nil => intro _; rfl
  | cons b bs ih =>
    intro h
    by_cases hb : b ∈ delims
    · rw [splitLines_cons_delim _ _ _ hb] at h
      cases h
    · cases hs : (splitLines delims bs).1 with
      | nil =>
        rw [splitLines_cons_nil _ _ _ hb hs]
        show b :: _ = _
        rw [ih hs]
      | cons l ls =>
        rw [splitLines_cons_cons _ _ _ l ls hb hs] at h
        cases h

namespace LineState

theorem settle_pend (o : PFDOption) (v : LineState) (now : Nat) :
    (settle o v now).pend = v.pend := by
  unfold settle
  cases v.held with
  | none => rfl
  | some h =>
    dsimp only
    split
    · unfold emit
      split <;> rfl
    · rfl

theorem read_pend_plain (o : PFDOption) (v : LineState) (now : Nat) (bytes : List Nat)
    (h : (splitLines o.delimiters (text o v bytes)).1 = []) :
    (read o v now bytes).pend.length = (text o v bytes).length := by
  unfold read text at *
  dsimp only at *
  split
  · rename_i hc
    rw [settle_pend, List.length_eq_zero.mp hc.1]
    have : ¬ (v.pend.length + ([] : List Nat).length = bufferSize - 2 ∧
        o.delimiters.headD 0 ≠ 0) := fun hh => hc.2 (by simpa using hh.1)
    rw [if_neg this]
    simp
  · dsimp only
    rw [splitLines_fst_nil _ _ h]

end LineState

namespace PollFileDescriptor

/-- A wake that reads, line by line, when the unfinished rest is moved without
overlap. -/
theorem checkpfd_data (s : PollFileDescriptor) (w : Sys) (now revents : Nat) (bytes : List Nat)
    (hinv : Inv s) (hfd : 0 ≤ s.fd) (hup : revents &&& POLLHUP = 0)
    (hev : revents &&& s.events ≠ 0)
    (hz : ∀ b ∈ bytes.take (bufferSize - 2 - (s.readPtr - s.bufferIndex * bufferSize)),
      b ≠ 0)
    (htidy : LineState.tidy s.option (view s w) now bytes = true) :
    ∃ r, checkpfd s w now revents (.data bytes) = .ok r ∧
      view r.1 r.2.1 = LineState.read s.option (view s w) now bytes ∧
      Inv r.1 ∧ r.1.option = s.option ∧ r.1.fd = s.fd ∧ r.1.events = s.events ∧
      r.1.pathname = s.pathname ∧ r.2.2 = wakeTime r.1 now := by
  obtain ⟨r, P, c1, c2, c3, c4, c5, c6, c7, c8, c9, ⟨c10, c11⟩, c12, _, _⟩ :=
    checkpfd_wake s w now revents bytes hinv hfd hup hev hz
  refine ⟨r, c1, ?_, c3, c4, c5, c6, c7, c8⟩
  have hP : P = (LineState.read s.option (view s w) now bytes).pend := by
    rw [c9]
    apply copied_apart
    have hi1 := c3.idx
    have hi2 := hinv.idx
    simp only [LineState.tidy, Bool.or_eq_true, beq_iff_eq, bne_iff_ne, ne_eq] at htidy
    rcases htidy with (h | h) | h
    · rw [h]
      simp only [List.length_nil, Nat.add_zero]
      omega
    · have := LineState.read_pend_plain s.option (view s w) now bytes h
      by_cases hb : r.1.bufferIndex = s.bufferIndex
      · left
        rw [hb, this, Nat.sub_self]
        exact (Nat.add_zero _).symm
      · right
        simp only [bufferSize, bufferCount] at *
        omega
    · have hb := c12 h
      right
      simp only [bufferSize, bufferCount] at *
      omega
  rw [c2, hP]

end PollFileDescriptor
namespace PollFileDescriptor

theorem checkpfd_idle (s : PollFileDescriptor) (w : Sys) (now revents : Nat) (rd : ReadResult)
    (hinv : Inv s) (hev : revents &&& s.events = 0) :
    ∃ r, checkpfd s w now revents rd = .ok r ∧
      view r.1 r.2.1 = LineState.settle s.option (view s w) now ∧
      Inv r.1 ∧ r.1.option = s.option ∧ (revents &&& POLLHUP = 0 → r.1.fd = s.fd) ∧
      r.1.events = s.events ∧ r.1.pathname = s.pathname ∧ r.2.2 = wakeTime r.1 now := by
  obtain ⟨i1, i2, i3, i4⟩ := settleHeld_inv s w now hinv
  obtain ⟨v1, v2, v3, v4, v5, v6⟩ := settleHeld_view s w now hinv
  obtain ⟨j1, j2, j3, j4⟩ := hangUp_fields (settleHeld s w now).1 revents
  have hnev : ¬ (revents &&& (hangUp (settleHeld s w now).1 revents).events ≠ 0) := by
    rw [j4, v5]; simp [hev]
  unfold checkpfd readLines
  dsimp only
  rw [if_neg hnev]
  dsimp only
  refine ⟨_, rfl, ?_, inv_hangUp revents i1, by dsimp only; rw [j3, i4], ?_,
    by dsimp only; rw [j4, v5], ?_, rfl⟩
  · rw [← v1]
    unfold hangUp
    split <;> rfl
  · intro hup
    dsimp only
    unfold hangUp
    rw [if_neg (by simp [hup])]
    exact v4
  · dsimp only
    unfold hangUp
    split
    · exact v6
    · exact v6

theorem feed_view : ∀ (inputs : List (Nat × Option (List Nat))) (s : PollFileDescriptor)
    (w : Sys), Inv s → 0 ≤ s.fd → s.events ≠ 0 → s.events &&& POLLHUP = 0 →
    (∀ x ∈ inputs, ∀ bytes, x.2 = some bytes → ∀ b ∈ bytes, b ≠ 0) →
    LineState.tidyFeed s.option (view s w) inputs = true →
    ∃ s' w', feed s w inputs = .ok (s', w') ∧
      view s' w' = LineState.feed s.option (view s w) inputs ∧
      Inv s' ∧ s'.option = s.option ∧ s'.fd = s.fd ∧ s'.events = s.events ∧
      s'.pathname = s.pathname := by
  intro inputs
  induction inputs with
  | nil => intro s w hinv _ _ _ _ _; exact ⟨s, w, rfl, rfl, hinv, rfl, rfl, rfl, rfl⟩
  | cons x rest ih =>
    intro s w hinv hfd hev hup hz ht
    obtain ⟨now, inp⟩ := x
    have hzr : ∀ x ∈ rest, ∀ bytes, x.2 = some bytes → ∀ b ∈ bytes, b ≠ 0 :=
      fun x hx => hz x (List.mem_cons_of_mem _ hx)
    cases inp with
    | none =>
      obtain ⟨r, r1, r2, r3, r4, r5, r6, r7, _⟩ :=
        checkpfd_idle s w now 0 ReadResult.wouldBlock hinv (by simp)
      have r5' := r5 (by simp)
      obtain ⟨s', w', f1, f2, f3, f4, f5, f6, f7⟩ := ih r.1 r.2.1 r3
        (by rw [r5']; exact hfd) (by rw [r6]; exact hev) (by rw [r6]; exact hup) hzr
        (by rw [r4, r2]; exact ht)
      refine ⟨s', w', ?_, ?_, f3, by rw [f4, r4], by rw [f5, r5'], by rw [f6, r6],
        by rw [f7, r7]⟩
      · unfold feed
        rw [r1]
        exact f1
      · rw [f2, r4, r2]
        rfl
    | some bytes =>
      obtain ⟨r, r1, r2, r3, r4, r5, r6, r7, _⟩ :=
        checkpfd_data s w now s.events bytes hinv hfd hup (by
          rw [Nat.and_self]; exact hev)
          (fun b hb => hz (now, some bytes) (List.mem_cons_self _ _) bytes rfl b
            (List.mem_of_mem_take hb))
          (by
            simp only [LineState.tidyFeed, Bool.and_eq_true] at ht
            exact ht.1)
      obtain ⟨s', w', f1, f2, f3, f4, f5, f6, f7⟩ := ih r.1 r.2.1 r3
        (by rw [r5]; exact hfd) (by rw [r6]; exact hev) (by rw [r6]; exact hup) hzr
        (by
          simp only [LineState.tidyFeed, Bool.and_eq_true] at ht
          rw [r4, r2]; exact ht.2)
      refine ⟨s', w', ?_, ?_, f3, by rw [f4, r4], by rw [f5, r5], by rw [f6, r6],
        by rw [f7, r7]⟩
      · unfold feed
        rw [r1]
        exact f1
      · rw [f2, r4, r2]
        rfl

theorem scanLines_events : ∀ (fuel : Nat) (s : PollFileDescriptor) (w : Sys) (sp : Nat)
    (nb : Bool), (scanLines fuel s w sp nb).1.events = s.events := by
  intro fuel
  induction fuel with
  | zero => intro s w sp nb; rfl
  | succ n ih =>
    intro s w sp nb
    unfold scanLines
    cases strpbrk s.buffer s.option.delimiters (bufferCount * bufferSize - sp) sp with
    | none => rfl
    | some eol =>
      dsimp only
      rw [ih]
      cases nb with
      | true =>
        simp only [if_true]
        rcases printpfd_fst { s with buffer := store s.buffer eol 0 } w sp with e | e <;>
          rw [e]
      | false => rfl

theorem checkpfd_events (s : PollFileDescriptor) (w : Sys) (now revents : Nat)
    (rd : ReadResult) (r : PollFileDescriptor × Sys × Nat)
    (h : checkpfd s w now revents rd = .ok r) : r.1.events = s.events := by
  have hsettle : (settleHeld s w now).1.events = s.events := by
    unfold settleHeld
    cases s.heldPtr with
    | none => rfl
    | some p =>
      dsimp only
      split
      · rcases printpfd_fst s w p with e | e <;> rw [e]
      · rfl
  have hhang : (hangUp (settleHeld s w now).1 revents).events = s.events := by
    rw [(hangUp_fields _ revents).2.2.2, hsettle]
  have hrot : ∀ (x : Sys) (m t : PollFileDescriptor) (sp : Nat), rotate x m sp = .ok t →
      t.events = m.events := fun x m t sp ht => (rotate_fields x m sp t ht).2.2.2.2.2
  have hread : ∀ (m t : PollFileDescriptor) (c : Nat), readpfd m rd = .ok (t, c) →
      t.events = m.events := by
    intro m t c ht
    unfold readpfd at ht
    dsimp only at ht
    split at ht
    · simp only [Except.ok.injEq, Prod.mk.injEq] at ht
      rw [← ht.1]
    · simp at ht
    · split at ht <;>
      · simp only [Except.ok.injEq, Prod.mk.injEq] at ht
        rw [← ht.1]
  unfold checkpfd readLines at h
  dsimp only at h
  split at h
  · simp at h
  · rename_i s5 w5 sp heq
    split at heq
    · split at heq
      · simp at heq
      · rename_i s3 c hrd
        split at heq
        · simp only [Except.ok.injEq, Prod.mk.injEq, Option.some.injEq] at heq
          obtain ⟨e1, e2, e3⟩ := heq
          split at h
          · simp at h
          · rename_i s6 hs6
            simp only [Except.ok.injEq] at h
            subst h
            dsimp only
            rw [hrot _ _ _ _ hs6, ← e1, scanLines_events]
            dsimp only
            rw [hread _ _ _ hrd, hhang]
        · simp at heq
    · simp at heq
  · rename_i s5 w5 heq
    simp only [Except.ok.injEq] at h
    subst h
    dsimp only
    split at heq
    · split at heq
      · simp at heq
      · rename_i s3 c hrd
        split at heq
        · simp at heq
        · simp only [Except.ok.injEq, Prod.mk.injEq] at heq
          rw [← heq.1, hread _ _ _ hrd, hhang]
    · simp only [Except.ok.injEq, Prod.mk.injEq] at heq
      rw [← heq.1, hhang]

theorem reachable_events (s : PollFileDescriptor) (h : Reachable s) :
    s.events = POLLIN ∨ s.events = POLLPRI := by
  induction h with
  | opened fname argOption kind opened s h =>
    unfold openpfd at h
    cases kind with
    | none => simp [statpfd] at h
    | some k =>
      cases k <;> simp only [statpfd] at h
      case other => simp at h
      all_goals
        split at h
        · simp at h
        · simp only [Except.ok.injEq] at h
          subst h
          simp
  | wake s w now revents rd r _ hr ih =>
    rw [checkpfd_events s w now revents rd r hr]; exact ih

end PollFileDescriptor
theorem splitLines_rest_plain (delims : List Nat) :
    ∀ (X : List Nat) (b : Nat), b ∈ (splitLines delims X).2 → b ∉ delims := by
  intro X
  induction X with
  | nil => intro b h; simp [splitLines] at h
  | cons c cs ih =>
    intro b h
    unfold splitLines at h
    by_cases hc : c ∈ delims
    · simp only [hc, if_true] at h
      exact ih b h
    · simp only [hc, if_false] at h
      cases hs : (splitLines delims cs).1 with
      | nil =>
        rw [hs] at h
        rcases List.mem_cons.mp h with e | e
        · rw [e]; exact hc
        · exact ih b e
      | cons l ls =>
        rw [hs] at h
        exact ih b h

theorem splitLines_append (delims : List Nat) (B : List Nat) :
    ∀ A : List Nat, splitLines delims (A ++ B) =
      ((splitLines delims A).1 ++ (splitLines delims ((splitLines delims A).2 ++ B)).1,
        (splitLines delims ((splitLines delims A).2 ++ B)).2) := by
  intro A
  induction A with
  | nil => simp [splitLines]
  | cons a A ih =>
    rw [List.cons_append]
    by_cases ha : a ∈ delims
    · rw [splitLines_cons_delim _ _ _ ha, splitLines_cons_delim _ _ _ ha, ih]
      rfl
    · cases hs : (splitLines delims A).1 with
      | nil =>
        rw [splitLines_cons_nil _ _ A ha hs]
        dsimp only
        rw [hs] at ih
        simp only [List.nil_append] at ih ⊢
        rw [List.cons_append]
        cases hs2 : (splitLines delims ((splitLines delims A).2 ++ B)).1 with
        | nil =>
          have h3 : (splitLines delims (A ++ B)).1 = [] := by rw [ih]; exact hs2
          rw [splitLines_cons_nil _ _ _ ha h3, splitLines_cons_nil _ _ _ ha hs2, ih]
        | cons l ls =>
          have h3 : (splitLines delims (A ++ B)).1 = l :: ls := by rw [ih]; exact hs2
          rw [splitLines_cons_cons _ _ _ l ls ha h3, splitLines_cons_cons _ _ _ l ls ha hs2, ih]
      | cons l ls =>
        rw [splitLines_cons_cons _ _ A l ls ha hs]
        dsimp only
        rw [hs] at ih
        have h3 : (splitLines delims (A ++ B)).1 =
            l :: (ls ++ (splitLines delims ((splitLines delims A).2 ++ B)).1) := by rw [ih]; rfl
        rw [splitLines_cons_cons _ _ _ _ _ ha h3, ih]
        rfl

theorem splitLines_lines (delims : List Nat) :
    ∀ lines : List (List Nat × Nat),
      (∀ x ∈ lines, (∀ b ∈ x.1, b ∉ delims) ∧ x.2 ∈ delims) →
      splitLines delims (lines.map (fun x => x.1 ++ [x.2])).flatten = (lines.map (·.1), []) := by
  intro lines
  induction lines with
  | nil => intro _; rfl
  | cons x rest ih =>
    intro h
    obtain ⟨h1, h2⟩ := h x (List.mem_cons_self _ _)
    have ih2 := ih (fun y hy => h y (List.mem_cons_of_mem _ hy))
    simp only [List.map_cons, List.flatten_cons, List.append_assoc, List.singleton_append]
    rw [splitLines_line delims x.2 _ h2 x.1 h1, ih2]

namespace LineState

theorem takeLines_all (o : PFDOption) (hdeb : o.debounce = 0) (hdup : o.duplicates = true) :
    ∀ (ls : List (List Nat)) (v : LineState),
      (takeLines o true ls v).lines = v.lines ++ ls.filter (fun l => decide (l ≠ [])) ∧
        (takeLines o true ls v).held = v.held ∧ (takeLines o true ls v).pend = v.pend ∧
        (takeLines o true ls v).readTime = v.readTime := by
  intro ls
  induction ls with
  | nil => intro v; simp [takeLines]
  | cons l ls ih =>
    intro v
    unfold takeLines
    have hb : (o.debounce == 0) = true := by simp [hdeb]
    rw [hb]
    simp only [if_true]
    obtain ⟨a, b, c, d⟩ := ih (emit o v l)
    rw [a, b, c, d]
    unfold emit
    by_cases hl : l = []
    · simp [hl]
    · simp [hl, hdup]

theorem read_stream (o : PFDOption) (hdeb : o.debounce = 0) (hdup : o.duplicates = true)
    (v : LineState) (now : Nat) (bytes : List Nat) (hheld : v.held = none)
    (hplain : ∀ b ∈ v.pend, b ∉ o.delimiters)
    (hfit : v.pend.length + bytes.length < bufferSize - 2) :
    (read o v now bytes).held = none ∧
      (read o v now bytes).pend = (splitLines o.delimiters (v.pend ++ bytes)).2 ∧
      (read o v now bytes).lines = v.lines ++
        (splitLines o.delimiters (v.pend ++ bytes)).1.filter (fun l => decide (l ≠ [])) := by
  have hsettle : settle o v now = v := by
    unfold settle; rw [hheld]
  have htake : bytes.take (bufferSize - 2 - v.pend.length) = bytes :=
    List.take_of_length_le (by omega)
  unfold read
  dsimp only
  rw [htake, hsettle]
  by_cases hb : bytes.length = 0
  · have hbn : bytes = [] := List.length_eq_zero.mp hb
    subst hbn
    rw [if_pos ⟨rfl, by simp only [List.length_nil, Nat.add_zero] at hfit; omega⟩]
    rw [List.append_nil, splitLines_plain _ _ hplain]
    simp [hheld]
  · rw [if_neg (fun h => hb h.1), if_neg (fun h => by omega), List.append_nil]
    dsimp only
    have hnb : decide (usub64 now v.readTime ≥ o.debounce) = true := by simp [hdeb]
    rw [hnb]
    obtain ⟨a, b, _, _⟩ := takeLines_all o hdeb hdup (splitLines o.delimiters (v.pend ++ bytes)).1
      { v with readTime := now }
    exact ⟨by rw [b]; exact hheld, rfl, a⟩

theorem feed_stream (o : PFDOption) (hdeb : o.debounce = 0) (hdup : o.duplicates = true) :
    ∀ (reads : List (Nat × List Nat)) (v : LineState), v.held = none →
      (∀ b ∈ v.pend, b ∉ o.delimiters) →
      NoFill o.delimiters v.pend (reads.map (·.2)) →
      (feed o v (reads.map (fun x => (x.1, some x.2)))).held = none ∧
        (feed o v (reads.map (fun x => (x.1, some x.2)))).pend =
          (splitLines o.delimiters (v.pend ++ (reads.map (·.2)).flatten)).2 ∧
        (feed o v (reads.map (fun x => (x.1, some x.2)))).lines = v.lines ++
          (splitLines o.delimiters (v.pend ++ (reads.map (·.2)).flatten)).1.filter
            (fun l => decide (l ≠ [])) := by
  intro reads
  induction reads with
  | nil =>
    intro v hh hp _
    simp only [List.map_nil, List.flatten_nil, List.append_nil, feed]
    rw [splitLines_plain _ _ hp]
    simp [hh]
  | cons x rest ih =>
    intro v hh hp hf
    obtain ⟨now, c⟩ := x
    simp only [List.map_cons, NoFill] at hf
    obtain ⟨r1, r2, r3⟩ := read_stream o hdeb hdup v now c hh hp hf.1
    have hp2 : ∀ b ∈ (read o v now c).pend, b ∉ o.delimiters := by
      rw [r2]; exact splitLines_rest_plain _ _
    obtain ⟨f1, f2, f3⟩ := ih (read o v now c) r1 hp2 (by rw [r2]; exact hf.2)
    simp only [List.map_cons, List.flatten_cons, feed]
    refine ⟨f1, ?_, ?_⟩
    · rw [f2, r2, ← List.append_assoc, splitLines_append _ _ (v.pend ++ c)]
    · rw [f3, r3, r2, ← List.append_assoc v.pend, splitLines_append _ _ (v.pend ++ c),
        List.filter_append, List.append_assoc]

theorem text_nofill (o : PFDOption) (v : LineState) (bytes : List Nat)
    (h : v.pend.length + bytes.length < bufferSize - 2) : text o v bytes = v.pend ++ bytes := by
  have htake : bytes.take (bufferSize - 2 - v.pend.length) = bytes :=
    List.take_of_length_le (by omega)
  unfold text
  rw [htake, if_neg (fun hh => by omega), List.append_nil]

theorem tidy_nil (o : PFDOption) (v : LineState) (now : Nat) (bytes : List Nat)
    (h : (read o v now bytes).pend = []) : tidy o v now bytes = true := by
  simp only [tidy, Bool.or_eq_true, beq_iff_eq]
  exact Or.inl (Or.inl h)

theorem tidyFeed_stream (o : PFDOption) (hdeb : o.debounce = 0) (hdup : o.duplicates = true) :
    ∀ (reads : List (Nat × List Nat)) (v : LineState), v.held = none →
      (∀ b ∈ v.pend, b ∉ o.delimiters) →
      NoFill o.delimiters v.pend (reads.map (·.2)) →
      (∀ l ∈ (splitLines o.delimiters (v.pend ++ (reads.map (·.2)).flatten)).1, l ≠ []) →
      tidyFeed o v (reads.map (fun x => (x.1, some x.2))) = true := by
  intro reads
  induction reads with
  | nil => intro v _ _ _ _; rfl
  | cons x rest ih =>
    intro v hh hp hf hl
    obtain ⟨now, c⟩ := x
    simp only [List.map_cons, NoFill] at hf
    obtain ⟨r1, r2, r3⟩ := read_stream o hdeb hdup v now c hh hp hf.1
    simp only [List.map_cons, List.flatten_cons] at hl
    rw [← List.append_assoc, splitLines_append _ _ (v.pend ++ c)] at hl
    dsimp only at hl
    have hp2 : ∀ b ∈ (read o v now c).pend, b ∉ o.delimiters := by
      rw [r2]; exact splitLines_rest_plain _ _
    have hsettle : settle o v now = v := by
      unfold settle; rw [hh]
    simp only [List.map_cons, tidyFeed, Bool.and_eq_true]
    constructor
    · simp only [tidy, Bool.or_eq_true, beq_iff_eq, bne_iff_ne, ne_eq]
      rw [text_nofill o v c hf.1, hsettle, r3]
      by_cases hF : (splitLines o.delimiters (v.pend ++ c)).1 = []
      · exact Or.inl (Or.inr hF)
      · right
        have hall : (splitLines o.delimiters (v.pend ++ c)).1.filter
            (fun l => decide (l ≠ [])) = (splitLines o.delimiters (v.pend ++ c)).1 := by
          apply List.filter_eq_self.mpr
          intro l hl2
          simp only [ne_eq, decide_not, Bool.not_eq_eq_eq_not, Bool.not_true,
            decide_eq_false_iff_not]
          exact hl l (List.mem_append_left _ hl2)
        rw [hall]
        intro he
        have := congrArg List.length he
        simp only [List.length_append] at this
        exact hF (List.length_eq_zero.mp (by omega))
    · apply ih (read o v now c) r1 hp2 (by rw [r2]; exact hf.2)
      intro l hl2
      rw [r2] at hl2
      exact hl l (List.mem_append_right _ hl2)

end LineState
namespace PollFileDescriptor

theorem scanLines_heldPtr : ∀ (fuel : Nat) (s : PollFileDescriptor) (w : Sys) (sp : Nat),
    s.option.debounce = 0 → (scanLines fuel s w sp true).1.heldPtr = s.heldPtr := by
  intro fuel
  induction fuel with
  | zero => intro s w sp _; rfl
  | succ n ih =>
    intro s w sp hdeb
    unfold scanLines
    cases strpbrk s.buffer s.option.delimiters (bufferCount * bufferSize - sp) sp with
    | none => rfl
    | some eol =>
      dsimp only
      simp only [if_true]
      have hb : (s.option.debounce == 0) = true := by simp [hdeb]
      rw [hb]
      rcases printpfd_fst { s with buffer := store s.buffer eol 0 } w sp with e | e
      · rw [e, ih _ _ _ (by exact hdeb)]
      · rw [e, ih _ _ _ (by exact hdeb)]

theorem checkpfd_no_hold (s : PollFileDescriptor) (w : Sys) (now revents : Nat)
    (rd : ReadResult) (r : PollFileDescriptor × Sys × Nat) (hdeb : s.option.debounce = 0)
    (hh : s.heldPtr = none) (h : checkpfd s w now revents rd = .ok r) :
    r.1.heldPtr = none := by
  have hsettle : settleHeld s w now = (s, w) := by
    unfold settleHeld; rw [hh]
  have hnb : nobounce s now = true := by simp [nobounce, hdeb]
  have hhang : (hangUp s revents).heldPtr = none ∧ (hangUp s revents).option = s.option := by
    unfold hangUp
    split <;> exact ⟨hh, rfl⟩
  have hrot : ∀ (x : Sys) (m t : PollFileDescriptor) (sp : Nat), rotate x m sp = .ok t →
      t.heldPtr = m.heldPtr := fun x m t sp ht => (rotate_fields x m sp t ht).1
  have hread : ∀ (m t : PollFileDescriptor) (c : Nat), readpfd m rd = .ok (t, c) →
      t.heldPtr = m.heldPtr ∧ t.option = m.option := by
    intro m t c ht
    unfold readpfd at ht
    dsimp only at ht
    split at ht
    · simp only [Except.ok.injEq, Prod.mk.injEq] at ht
      rw [← ht.1]; exact ⟨rfl, rfl⟩
    · simp at ht
    · split at ht <;>
      · simp only [Except.ok.injEq, Prod.mk.injEq] at ht
        rw [← ht.1]; exact ⟨rfl, rfl⟩
  unfold checkpfd readLines at h
  rw [hsettle, hnb] at h
  dsimp only at h
  split at h
  · simp at h
  · rename_i s5 w5 sp heq
    split at heq
    · split at heq
      · simp at heq
      · rename_i s3 c hrd
        split at heq
        · simp only [Except.ok.injEq, Prod.mk.injEq, Option.some.injEq] at heq
          obtain ⟨e1, e2, e3⟩ := heq
          split at h
          · simp at h
          · rename_i s6 hs6
            simp only [Except.ok.injEq] at h
            subst h
            dsimp only
            obtain ⟨a1, a2⟩ := hread _ _ _ hrd
            rw [hrot _ _ _ _ hs6, ← e1, scanLines_heldPtr _ _ _ _
              (by dsimp only; rw [a2, hhang.2]; exact hdeb)]
            dsimp only
            rw [a1, hhang.1]
        · simp at heq
    · simp at heq
  · rename_i s5 w5 heq
    simp only [Except.ok.injEq] at h
    subst h
    dsimp only
    split at heq
    · split at heq
      · simp at heq
      · rename_i s3 c hrd
        split at heq
        · simp at heq
        · simp only [Except.ok.injEq, Prod.mk.injEq] at heq
          rw [← heq.1, (hread _ _ _ hrd).1, hhang.1]
    · simp only [Except.ok.injEq, Prod.mk.injEq] at heq
      rw [← heq.1, hhang.1]

theorem reachable_no_hold (s : PollFileDescriptor) (h : Reachable s)
    (hdeb : s.option.debounce = 0) : s.heldPtr = none := by
  induction h with
  | opened fname argOption kind opened s h =>
    unfold openpfd at h
    split at h
    · simp at h
    · split at h
      · simp at h
      · simp only [Except.ok.injEq] at h
        subst h
        rfl
  | wake s w now revents rd r hs hr ih =>
    have ho := (checkpfd_inv s w now revents rd (reachable_inv s hs) r hr).2.1
    rw [ho] at hdeb
    exact checkpfd_no_hold s w now revents rd r hdeb (ih hdeb) hr

end PollFileDescriptor
namespace PollFileDescriptor

theorem view_start (s : PollFileDescriptor) (w : Sys)
    (h : s.readPtr = s.bufferIndex * bufferSize) : (view s w).pend = [] := by
  simp [view, h, loadBytes]

theorem start_of_view (s : PollFileDescriptor) (w : Sys) (hinv : Inv s)
    (h : (view s w).pend = []) : s.readPtr = s.bufferIndex * bufferSize := by
  have := congrArg List.length h
  simp only [view, loadBytes_length, List.length_nil] at this
  have := hinv.lo
  omega

/-- C4 (amended): for a descriptor with debounce 0 and duplicates allowed that
is at the start of a line, and every sequence of complete lines (not empty,
free of NUL and of delimiters, each ended by a delimiter) fed through reads
that cut the stream anywhere but never fill the active segment to
`bufferSize-2`, the lines `checkpfd` prints are the input lines, in order,
none dropped or added; the descriptor is at the start of a line again. -/
theorem lines_emitted_in_order (s : PollFileDescriptor) (w : Sys) (hs : Reachable s)
    (hfd : 0 ≤ s.fd) (hstart : s.readPtr = s.bufferIndex * bufferSize)
    (hdeb : s.option.debounce = 0) (hdup : s.option.duplicates = true)
    (lines : List (List Nat × Nat))
    (hlines : ∀ x ∈ lines, x.1 ≠ [] ∧ (∀ b ∈ x.1, b ≠ 0 ∧ b ∉ s.option.delimiters) ∧
      x.2 ≠ 0 ∧ x.2 ∈ s.option.delimiters)
    (reads : List (Nat × List Nat))
    (hcat : (reads.map (·.2)).flatten = (lines.map (fun x => x.1 ++ [x.2])).flatten)
    (hfit : NoFill s.option.delimiters [] (reads.map (·.2))) :
    ∃ s' w', feed s w (reads.map (fun x => (x.1, some x.2))) = .ok (s', w') ∧
      w'.lines = w.lines ++ lines.map (·.1) ∧
      s'.readPtr = s'.bufferIndex * bufferSize := by
  have hinv := reachable_inv s hs
  have hev := reachable_events s hs
  have hz : ∀ b ∈ (reads.map (·.2)).flatten, b ≠ 0 := by
    rw [hcat]
    intro b hb
    simp only [List.mem_flatten, List.mem_map] at hb
    obtain ⟨l, ⟨x, hx, rfl⟩, hbl⟩ := hb
    obtain ⟨_, h2, h3, _⟩ := hlines x hx
    rcases List.mem_append.mp hbl with e | e
    · exact (h2 b e).1
    · rw [List.mem_singleton.mp e]; exact h3
  obtain ⟨s', w', f1, f2, f3, f4, _⟩ := feed_view (reads.map (fun x => (x.1, some x.2))) s w
    hinv hfd (by rcases hev with e | e <;> rw [e] <;> decide)
    (by rcases hev with e | e <;> rw [e] <;> decide)
    (by
      intro x hx bytes hxb b hb
      simp only [List.mem_map] at hx
      obtain ⟨y, hy, rfl⟩ := hx
      simp only [Option.some.injEq] at hxb
      subst hxb
      apply hz
      simp only [List.mem_flatten, List.mem_map]
      exact ⟨y.2, ⟨y, hy, rfl⟩, hb⟩)
    (by
      apply LineState.tidyFeed_stream s.option hdeb hdup reads (view s w)
        (by simp [view, reachable_no_hold s hs hdeb])
        (by rw [view_start s w hstart]; intro b hb; cases hb)
        (by rw [view_start s w hstart]; exact hfit)
      rw [view_start s w hstart, List.nil_append, hcat, splitLines_lines _ lines
        (fun x hx => ⟨fun b hb => ((hlines x hx).2.1 b hb).2, (hlines x hx).2.2.2⟩)]
      intro l hl
      simp only [List.mem_map] at hl
      obtain ⟨x, hx, rfl⟩ := hl
      exact (hlines x hx).1)
  have hpend := view_start s w hstart
  obtain ⟨g1, g2, g3⟩ := LineState.feed_stream s.option hdeb hdup reads (view s w)
    (by simp [view, reachable_no_hold s hs hdeb])
    (by rw [hpend]; intro b hb; cases hb)
    (by rw [hpend]; exact hfit)
  rw [hpend, List.nil_append, hcat, splitLines_lines _ lines
    (fun x hx => ⟨fun b hb => ((hlines x hx).2.1 b hb).2, (hlines x hx).2.2.2⟩)] at g2 g3
  refine ⟨s', w', f1, ?_, ?_⟩
  · have : w'.lines = (view s' w').lines := rfl
    rw [this, f2, g3]
    show w.lines ++ _ = _
    congr 1
    apply List.filter_eq_self.mpr
    intro l hl
    simp only [List.mem_map] at hl
    obtain ⟨x, hx, rfl⟩ := hl
    simp [(hlines x hx).1]
  · apply start_of_view s' w' f3
    rw [f2, g2]

theorem lines_emitted_in_order_witness :
    Reachable fifo0 ∧
      ∃ s' w', feed fifo0 sys0 [(1000, some [111, 112, 101, 110, 10]),
          (1001, some [99, 108, 111, 115, 101, 100, 10])] = .ok (s', w') ∧
        w'.lines = sys0.lines ++ [[111, 112, 101, 110], [99, 108, 111, 115, 101, 100]] ∧
        s'.readPtr = s'.bufferIndex * bufferSize :=
  ⟨fifo0_reachable,
    lines_emitted_in_order fifo0 sys0 fifo0_reachable (by decide) rfl rfl rfl
      [([111, 112, 101, 110], 10), ([99, 108, 111, 115, 101, 100], 10)] (by decide)
      [(1000, [111, 112, 101, 110, 10]), (1001, [99, 108, 111, 115, 101, 100, 10])] rfl
      ⟨by decide, by decide, trivial⟩⟩

/-- C4 as stated fails: two complete lines of 600 bytes, each shorter than a
segment, arrive together; the first read takes 1022 bytes and fills the
segment, a delimiter is put after them, and the second line comes out as two
lines, of 421 and of 179 bytes. -/
theorem full_read_cuts_line :
    ∃ s' w', feed fifo0 sys0 [(1000, some twoLines), (1001, some (twoLines.drop 1022))]
        = .ok (s', w') ∧
      w'.lines = [List.replicate 600 97, List.replicate 421 97, List.replicate 179 97] ∧
      w'.lines ≠ [List.replicate 600 97, List.replicate 600 97] := by
  obtain ⟨s', w', f1, f2, _⟩ := feed_view
    [(1000, some twoLines), (1001, some (twoLines.drop 1022))] fifo0 sys0
    (reachable_inv fifo0 fifo0_reachable) (by decide) (by decide) (by decide) (by decide!)
    (by decide!)
  have h : w'.lines = [List.replicate 600 97, List.replicate 421 97, List.replicate 179 97] := by
    have : w'.lines = (view s' w').lines := rfl
    rw [this, f2]
    decide!
  refine ⟨s', w', f1, h, ?_⟩
  rw [h]
  decide!

end PollFileDescriptor
namespace LineState

theorem read_line (o : PFDOption) (v : LineState) (t : Nat) (L : List Nat) (d : Nat)
    (hv : v.pend = []) (hL : ∀ b ∈ L, b ∉ o.delimiters) (hd : d ∈ o.delimiters)
    (hlen : L.length + 1 < bufferSize - 2) :
    read o v t (L ++ [d]) =
      { takeLines o (decide (usub64 t v.readTime ≥ o.debounce)) [L]
          { settle o v t with readTime := t } with pend := [] } := by
  have htake : (L ++ [d]).take (bufferSize - 2 - v.pend.length) = L ++ [d] := by
    apply List.take_of_length_le
    rw [hv]
    simp only [List.length_append, List.length_singleton, List.length_nil]
    omega
  have hsl : splitLines o.delimiters (L ++ [d]) = ([L], []) := by
    have := splitLines_line o.delimiters d [] hd L hL
    simpa [splitLines] using this
  unfold read
  dsimp only
  rw [htake, hv]
  have hlen2 : (L ++ [d]).length = L.length + 1 := by simp
  rw [if_neg (by rw [hlen2]; omega), if_neg (by rw [hlen2]; simp only [List.length_nil]; omega)]
  simp only [List.nil_append, List.append_nil, hsl]

theorem read_bounce (o : PFDOption) (v : LineState) (t : Nat) (L : List Nat) (d : Nat)
    (hv : v.pend = []) (hL : ∀ b ∈ L, b ∉ o.delimiters) (hd : d ∈ o.delimiters)
    (hlen : L.length + 1 < bufferSize - 2) (hb : usub64 t v.readTime < o.debounce) :
    read o v t (L ++ [d]) = { v with held := some L, readTime := t } := by
  rw [read_line o v t L d hv hL hd hlen]
  have hs : settle o v t = v := by
    unfold settle
    cases v.held with
    | none => rfl
    | some h => simp only [ge_iff_le]; rw [if_neg (by omega)]
  have hn : decide (usub64 t v.readTime ≥ o.debounce) = false := by
    simp only [ge_iff_le, decide_eq_false_iff_not]; omega
  rw [hs, hn]
  simp only [takeLines, Bool.false_eq_true, if_false]
  apply eq_of <;> first | rfl | exact hv.symm

theorem read_settled (o : PFDOption) (v : LineState) (t : Nat) (L : List Nat) (d : Nat)
    (hv : v.pend = []) (hh : v.held = none) (hL : ∀ b ∈ L, b ∉ o.delimiters)
    (hd : d ∈ o.delimiters) (hlen : L.length + 1 < bufferSize - 2)
    (hb : usub64 t v.readTime ≥ o.debounce) :
    read o v t (L ++ [d]) = { emit o v L with readTime := t } := by
  rw [read_line o v t L d hv hL hd hlen]
  have hs : settle o v t = v := by
    unfold settle; rw [hh]
  have hn : decide (usub64 t v.readTime ≥ o.debounce) = true := by
    simp only [decide_eq_true_eq]; exact hb
  rw [hs, hn]
  simp only [takeLines, if_true]
  unfold emit
  dsimp only
  split
  · apply eq_of <;> first | rfl | exact hv.symm
  · apply eq_of <;> first | rfl | exact hv.symm

theorem usub64_of_le (a b : Nat) (h1 : b ≤ a) (h2 : a < 2 ^ 64) : usub64 a b = a - b := by
  unfold usub64
  omega

theorem feed_bouncing (o : PFDOption) :
    ∀ (reads : List (Nat × List Nat × Nat)) (v : LineState), v.pend = [] →
      (∀ y ∈ reads, (∀ b ∈ y.2.1, b ∉ o.delimiters) ∧ y.2.2 ∈ o.delimiters ∧
        y.2.1.length + 1 < bufferSize - 2) →
      Bouncing o.debounce v.readTime reads →
      feed o v (reads.map (fun y => (y.1, some (y.2.1 ++ [y.2.2])))) =
        { v with
          held := match reads with
            | [] => v.held
            | x :: xs => some (lastLine x.2.1 xs),
          readTime := lastTime v.readTime reads } := by
  intro reads
  induction reads with
  | nil => intro v _ _ _; rfl
  | cons x rest ih =>
    intro v hv hl hb
    obtain ⟨b1, b2, b3, b4⟩ := hb
    obtain ⟨l1, l2, l3⟩ := hl x (List.mem_cons_self _ _)
    have hstep := read_bounce o v x.1 x.2.1 x.2.2 hv l1 l2 l3
      (by rw [usub64_of_le _ _ b1 b3]; omega)
    simp only [List.map_cons, feed]
    rw [hstep, ih { v with held := some x.2.1, readTime := x.1 } hv
      (fun y hy => hl y (List.mem_cons_of_mem _ hy)) b4]
    cases rest with
    | nil => rfl
    | cons y ys => rfl

end LineState
namespace LineState

theorem lastTime_bounds (D : Nat) :
    ∀ (rest : List (Nat × List Nat × Nat)) (t : Nat), Bouncing D t rest → t < 2 ^ 64 →
      t ≤ lastTime t rest ∧ lastTime t rest < 2 ^ 64 := by
  intro rest
  induction rest with
  | nil => intro t _ h; exact ⟨le_refl _, h⟩
  | cons x xs ih =>
    intro t hb _
    obtain ⟨b1, _, b3, b4⟩ := hb
    obtain ⟨c1, c2⟩ := ih x.1 b4 b3
    exact ⟨le_trans b1 c1, c2⟩

end LineState
namespace PollFileDescriptor

theorem fifo100_reachable : Reachable fifo100 :=
  Reachable.opened [47, 116, 109, 112, 47, 102, 105, 102, 111]
    { PFDOption.init with debounce := 100 } (some FileKind.fifo) 3 fifo100 rfl

theorem lastLine_mem : ∀ (rest : List (Nat × List Nat × Nat)) (l : List Nat),
    lastLine l rest = l ∨ ∃ y ∈ rest, lastLine l rest = y.2.1 := by
  intro rest
  induction rest with
  | nil => intro l; left; rfl
  | cons x xs ih =>
    intro l
    right
    rcases ih x.2.1 with e | ⟨y, hy, e⟩
    · exact ⟨x, List.mem_cons_self _ _, e⟩
    · exact ⟨y, List.mem_cons_of_mem _ hy, e⟩

theorem emit_dup (o : PFDOption) (v : LineState) (l : List Nat) (hd : o.duplicates = true)
    (hl : l ≠ []) : LineState.emit o v l = { v with last := l, lines := v.lines ++ [l] } := by
  unfold LineState.emit
  rw [if_pos ⟨hl, Or.inl hd⟩]

theorem feed_ok_append : ∀ (a b : List (Nat × Option (List Nat))) (s : PollFileDescriptor)
    (w : Sys) (s1 : PollFileDescriptor) (w1 : Sys), feed s w a = .ok (s1, w1) →
    feed s w (a ++ b) = feed s1 w1 b := by
  intro a
  induction a with
  | nil =>
    intro b s w s1 w1 h
    simp only [feed, Except.ok.injEq, Prod.mk.injEq] at h
    obtain ⟨rfl, rfl⟩ := h
    rfl
  | cons x xs ih =>
    intro b s w s1 w1 h
    obtain ⟨now, inp⟩ := x
    cases inp with
    | none =>
      simp only [List.cons_append, feed] at h ⊢
      cases hc : checkpfd s w now 0 ReadResult.wouldBlock with
      | error e => rw [hc] at h; cases h
      | ok r =>
        rw [hc] at h
        exact ih b _ _ _ _ h
    | some bytes =>
      simp only [List.cons_append, feed] at h ⊢
      cases hc : checkpfd s w now s.events (ReadResult.data bytes) with
      | error e => rw [hc] at h; cases h
      | ok r =>
        rw [hc] at h
        exact ih b _ _ _ _ h

theorem tidyFeed_lines (o : PFDOption) :
    ∀ (reads : List (Nat × List Nat × Nat)) (v : LineState), v.pend = [] →
      (∀ y ∈ reads, (∀ b ∈ y.2.1, b ∉ o.delimiters) ∧ y.2.2 ∈ o.delimiters ∧
        y.2.1.length + 1 < bufferSize - 2) →
      LineState.tidyFeed o v (reads.map (fun y => (y.1, some (y.2.1 ++ [y.2.2])))) = true := by
  intro reads
  induction reads with
  | nil => intro v _ _; rfl
  | cons x rest ih =>
    intro v hv hl
    obtain ⟨l1, l2, l3⟩ := hl x (List.mem_cons_self _ _)
    have hr := LineState.read_line o v x.1 x.2.1 x.2.2 hv l1 l2 l3
    have hp : (LineState.read o v x.1 (x.2.1 ++ [x.2.2])).pend = [] := by rw [hr]
    simp only [List.map_cons, LineState.tidyFeed, Bool.and_eq_true]
    exact ⟨LineState.tidy_nil o v x.1 _ hp,
      ih _ hp (fun y hy => hl y (List.mem_cons_of_mem _ hy))⟩

theorem emit_held (o : PFDOption) (v : LineState) (l : List Nat) :
    (LineState.emit o v l).held = v.held ∧ (LineState.emit o v l).pend = v.pend := by
  unfold LineState.emit
  split <;> exact ⟨rfl, rfl⟩

/-- A burst at the level of lines: the first read, the later reads and the
wake after the debounce. -/
theorem burst_steps (o : PFDOption) (v : LineState) (hv : v.pend = []) (hh : v.held = none)
    (x : Nat × List Nat × Nat) (rest : List (Nat × List Nat × Nat)) (T : Nat)
    (hx : x.1 < 2 ^ 64)
    (hl : ∀ y ∈ x :: rest, (∀ b ∈ y.2.1, b ∉ o.delimiters) ∧ y.2.2 ∈ o.delimiters ∧
      y.2.1.length + 1 < bufferSize - 2)
    (hb : Bouncing o.debounce x.1 rest) (hT : lastTime x.1 rest + o.debounce ≤ T)
    (hT2 : T < 2 ^ 64) (v1 v2 v3 : LineState)
    (h1 : v1 = LineState.read o v x.1 (x.2.1 ++ [x.2.2]))
    (h2 : v2 = LineState.feed o v1 (rest.map (fun y => (y.1, some (y.2.1 ++ [y.2.2])))))
    (h3 : v3 = LineState.settle o v2 T) :
    v1.pend = [] ∧
      v1.lines = (if decide (usub64 x.1 v.readTime ≥ o.debounce) = true then
        (LineState.emit o v x.2.1).lines else v.lines) ∧
      v1.held = (if decide (usub64 x.1 v.readTime ≥ o.debounce) = true then none
        else some x.2.1) ∧
      v2.lines = v1.lines ∧
      v2.held = (if decide (usub64 x.1 v.readTime ≥ o.debounce) = true ∧ rest = [] then none
        else some (lastLine x.2.1 rest)) ∧
      v3.lines = (if decide (usub64 x.1 v.readTime ≥ o.debounce) = true ∧ rest = [] then
        v2.lines else (LineState.emit o v2 (lastLine x.2.1 rest)).lines) ∧
      v3.held = none := by
  obtain ⟨l1, l2, l3⟩ := hl x (List.mem_cons_self _ _)
  have hlr : ∀ y ∈ rest, (∀ b ∈ y.2.1, b ∉ o.delimiters) ∧ y.2.2 ∈ o.delimiters ∧
      y.2.1.length + 1 < bufferSize - 2 := fun y hy => hl y (List.mem_cons_of_mem _ hy)
  obtain ⟨t1, t2⟩ := LineState.lastTime_bounds o.debounce rest x.1 hb hx
  have hfinal : usub64 T (lastTime x.1 rest) ≥ o.debounce := by
    rw [LineState.usub64_of_le _ _ (by omega) hT2]; omega
  by_cases hs : usub64 x.1 v.readTime ≥ o.debounce
  · have hd : decide (usub64 x.1 v.readTime ≥ o.debounce) = true := by
      simp only [decide_eq_true_eq]; exact hs
    rw [LineState.read_settled o v x.1 x.2.1 x.2.2 hv hh l1 l2 l3 hs] at h1
    have hp1 : v1.pend = [] := by rw [h1]; exact (emit_held o v x.2.1).2.trans hv
    have hh1 : v1.held = none := by rw [h1]; exact (emit_held o v x.2.1).1.trans hh
    have ht1 : v1.readTime = x.1 := by rw [h1]
    rw [LineState.feed_bouncing o rest v1 hp1 hlr (by rw [ht1]; exact hb)] at h2
    rw [hd]
    simp only [if_true, true_and]
    refine ⟨hp1, by rw [h1], hh1, by rw [h2], ?_, ?_, ?_⟩
    · rw [h2]
      cases rest with
      | nil => simp only [if_true]; exact hh1
      | cons y ys => simp [lastLine]
    · rw [h3]
      cases rest with
      | nil =>
        simp only [if_true]
        unfold LineState.settle
        rw [h2]
        dsimp only
        rw [hh1]
      | cons y ys =>
        rw [if_neg (by simp)]
        unfold LineState.settle
        have hh2 : v2.held = some (lastLine x.2.1 (y :: ys)) := by rw [h2]; rfl
        have ht2 : v2.readTime = lastTime x.1 (y :: ys) := by rw [h2, ht1]
        rw [hh2]
        dsimp only
        rw [ht2, if_pos hfinal]
    · rw [h3]
      unfold LineState.settle
      cases hc : v2.held with
      | none => dsimp only; exact hc
      | some h =>
        dsimp only
        have ht2 : v2.readTime = lastTime x.1 rest := by rw [h2, ht1]
        rw [ht2, if_pos hfinal]
  · have hd : decide (usub64 x.1 v.readTime ≥ o.debounce) = false := by
      simp only [decide_eq_false_iff_not]; exact hs
    rw [LineState.read_bounce o v x.1 x.2.1 x.2.2 hv l1 l2 l3 (by omega)] at h1
    have hp1 : v1.pend = [] := by rw [h1]; exact hv
    have hh1 : v1.held = some x.2.1 := by rw [h1]
    have ht1 : v1.readTime = x.1 := by rw [h1]
    rw [LineState.feed_bouncing o rest v1 hp1 hlr (by rw [ht1]; exact hb)] at h2
    rw [hd]
    simp only [Bool.false_eq_true, if_false, false_and]
    have hh2 : v2.held = some (lastLine x.2.1 rest) := by
      rw [h2]
      cases rest with
      | nil => exact hh1
      | cons y ys => rfl
    have ht2 : v2.readTime = lastTime x.1 rest := by rw [h2, ht1]
    refine ⟨hp1, by rw [h1], hh1, by rw [h2], hh2, ?_, ?_⟩
    · rw [h3]
      unfold LineState.settle
      rw [hh2]
      dsimp only
      rw [ht2, if_pos hfinal]
    · rw [h3]
      unfold LineState.settle
      rw [hh2]
      dsimp only
      rw [ht2, if_pos hfinal]

/-- C5 (amended): a descriptor at the start of a line and holding nothing is
fed the lines L1..Ln, one per read, each read less than the debounce after
the one before, and is woken once the debounce has passed since the last
read.  At the first read L1 goes through `printpfd` at once and is not held
when the descriptor was settled then (`now - readTime >= debounce`, as for a
fresh descriptor at any time not below the debounce); else L1 is held and
nothing is printed.  The later reads print nothing and leave the line read
last held.  At the last wake the held line, Ln, goes through `printpfd`; when
nothing is held, for n = 1 on a settled descriptor, that wake prints nothing.
L2..L(n-1) are never printed.  With duplicates allowed the printed lines are
L1 if the descriptor was settled, then Ln unless it was settled and n = 1. -/
theorem burst_prints_first_and_last (s : PollFileDescriptor) (w : Sys) (hs : Reachable s)
    (hfd : 0 ≤ s.fd) (hstart : s.readPtr = s.bufferIndex * bufferSize)
    (hidle : s.heldPtr = none) (x : Nat × List Nat × Nat)
    (rest : List (Nat × List Nat × Nat)) (T : Nat) (hx : x.1 < 2 ^ 64)
    (hlines : ∀ y ∈ x :: rest, y.2.1 ≠ [] ∧ (∀ b ∈ y.2.1, b ≠ 0 ∧ b ∉ s.option.delimiters) ∧
      y.2.2 ≠ 0 ∧ y.2.2 ∈ s.option.delimiters ∧ y.2.1.length + 1 < bufferSize - 2)
    (hburst : Bouncing s.option.debounce x.1 rest)
    (hT : lastTime x.1 rest + s.option.debounce ≤ T) (hT2 : T < 2 ^ 64) :
    ∃ s1 w1 s2 w2 s3 w3,
      feed s w [(x.1, some (x.2.1 ++ [x.2.2]))] = .ok (s1, w1) ∧
      feed s1 w1 (rest.map (fun y => (y.1, some (y.2.1 ++ [y.2.2])))) = .ok (s2, w2) ∧
      feed s2 w2 [(T, none)] = .ok (s3, w3) ∧
      feed s w ((x :: rest).map (fun y => (y.1, some (y.2.1 ++ [y.2.2]))) ++ [(T, none)]) =
        .ok (s3, w3) ∧
      w1.lines = (if nobounce s x.1 = true then
        (LineState.emit s.option (view s w) x.2.1).lines else w.lines) ∧
      s1.heldPtr.map (bstr s1.buffer) = (if nobounce s x.1 = true then none else some x.2.1) ∧
      w2.lines = w1.lines ∧
      s2.heldPtr.map (bstr s2.buffer) =
        (if nobounce s x.1 = true ∧ rest = [] then none else some (lastLine x.2.1 rest)) ∧
      w3.lines = (if nobounce s x.1 = true ∧ rest = [] then w2.lines
        else (LineState.emit s.option (view s2 w2) (lastLine x.2.1 rest)).lines) ∧
      s3.heldPtr = none ∧
      (s.option.duplicates = true →
        w3.lines = w.lines ++ (if nobounce s x.1 = true then [x.2.1] else []) ++
          (if nobounce s x.1 = true ∧ rest = [] then [] else [lastLine x.2.1 rest])) := by
  have hinv := reachable_inv s hs
  have hev := reachable_events s hs
  have hev0 : s.events ≠ 0 := by rcases hev with e | e <;> rw [e] <;> decide
  have hup : s.events &&& POLLHUP = 0 := by rcases hev with e | e <;> rw [e] <;> decide
  obtain ⟨l1, l2, l3, l4, l5⟩ := hlines x (List.mem_cons_self _ _)
  have hl : ∀ y ∈ x :: rest, (∀ b ∈ y.2.1, b ∉ s.option.delimiters) ∧
      y.2.2 ∈ s.option.delimiters ∧ y.2.1.length + 1 < bufferSize - 2 :=
    fun y hy => ⟨fun b hb => ((hlines y hy).2.1 b hb).2, (hlines y hy).2.2.2.1,
      (hlines y hy).2.2.2.2⟩
  have hv := view_start s w hstart
  have hh : (view s w).held = none := by simp [view, hidle]
  have hrl := LineState.read_line s.option (view s w) x.1 x.2.1 x.2.2 hv
    (fun b hb => (l2 b hb).2) l4 l5
  obtain ⟨r1, a1, a2, a3, a4, a5, a6, _⟩ := checkpfd_data s w x.1 s.events (x.2.1 ++ [x.2.2])
    hinv hfd hup (by rw [Nat.and_self]; exact hev0)
    (by
      intro b hb
      rcases List.mem_append.mp (List.mem_of_mem_take hb) with e | e
      · exact (l2 b e).1
      · rw [List.mem_singleton.mp e]; exact l3)
    (LineState.tidy_nil _ _ _ _ (by rw [hrl]))
  have hp1 : (view r1.1 r1.2.1).pend = [] := by rw [a2, hrl]
  obtain ⟨s2, w2, b1, b2, b3, b4, b5, b6, _⟩ := feed_view
    (rest.map (fun y => (y.1, some (y.2.1 ++ [y.2.2])))) r1.1 r1.2.1 a3
    (by rw [a5]; exact hfd) (by rw [a6]; exact hev0) (by rw [a6]; exact hup)
    (by
      intro z hz bytes hzb b hb
      simp only [List.mem_map] at hz
      obtain ⟨y, hy, rfl⟩ := hz
      simp only [Option.some.injEq] at hzb
      subst hzb
      obtain ⟨_, h2, h3, _⟩ := hlines y (List.mem_cons_of_mem _ hy)
      rcases List.mem_append.mp hb with e | e
      · exact (h2 b e).1
      · rw [List.mem_singleton.mp e]; exact h3)
    (by
      rw [a4]
      exact tidyFeed_lines s.option rest _ hp1 (fun y hy => hl y (List.mem_cons_of_mem _ hy)))
  obtain ⟨r3, c1, c2, c3, _⟩ := checkpfd_idle s2 w2 T 0 ReadResult.wouldBlock b3 (by simp)
  have hf1 : feed s w [(x.1, some (x.2.1 ++ [x.2.2]))] = .ok (r1.1, r1.2.1) := by
    unfold feed
    rw [a1]
    rfl
  have hf3 : feed s2 w2 [(T, none)] = .ok (r3.1, r3.2.1) := by
    unfold feed
    rw [c1]
    rfl
  rw [a4] at b2
  rw [b4, a4] at c2
  obtain ⟨g1, g2, g3, g4, g5, g6, g7⟩ := burst_steps s.option (view s w) hv hh x rest T hx hl
    hburst hT hT2 (view r1.1 r1.2.1) (view s2 w2) (view r3.1 r3.2.1) a2 b2 c2
  have hnb : nobounce s x.1 =
      decide (usub64 x.1 (view s w).readTime ≥ s.option.debounce) := rfl
  rw [← hnb] at g2 g3 g5 g6
  have hlast : lastLine x.2.1 rest ≠ [] := by
    rcases lastLine_mem rest x.2.1 with e | ⟨y, hy, e⟩
    · rw [e]; exact l1
    · rw [e]; exact (hlines y (List.mem_cons_of_mem _ hy)).1
  refine ⟨r1.1, r1.2.1, s2, w2, r3.1, r3.2.1, hf1, b1, hf3, ?_, g2, g3, g4, g5, g6, ?_, ?_⟩
  · have : (x :: rest).map (fun y => (y.1, some (y.2.1 ++ [y.2.2]))) ++ [(T, none)] =
        [(x.1, some (x.2.1 ++ [x.2.2]))] ++
          (rest.map (fun y => (y.1, some (y.2.1 ++ [y.2.2]))) ++ [(T, none)]) := rfl
    rw [this, feed_ok_append _ _ _ _ _ _ hf1, feed_ok_append _ _ _ _ _ _ b1]
    exact hf3
  · have : (view r3.1 r3.2.1).held = none := g7
    simp only [view, Option.map_eq_none'] at this
    exact this
  · intro hdup
    have e3 : r3.2.1.lines = (view r3.1 r3.2.1).lines := rfl
    have e2 : (view s2 w2).lines = (view r1.1 r1.2.1).lines := g4
    have e1 : (view s w).lines = w.lines := rfl
    rw [e3, g6]
    by_cases hn : nobounce s x.1 = true
    · rw [if_pos hn] at g2
      rw [emit_dup _ _ _ hdup l1] at g2
      by_cases hr : rest = []
      · rw [if_pos ⟨hn, hr⟩, if_pos hn, if_pos ⟨hn, hr⟩, e2, g2, List.append_nil]
        rfl
      · rw [if_neg (fun h => hr h.2), if_pos hn, if_neg (fun h => hr h.2),
          emit_dup _ _ _ hdup hlast, e2, g2]
        rfl
    · rw [if_neg hn] at g2
      rw [if_neg (fun h => hn h.1), if_neg hn, if_neg (fun h => hn h.1),
        emit_dup _ _ _ hdup hlast, e2, g2, List.append_nil]
      rfl

theorem burst_prints_first_and_last_witness :
    Reachable fifo100 ∧
      ∃ s1 w1 s2 w2 s3 w3,
        feed fifo100 sys0 [(1000, some [49, 10])] = .ok (s1, w1) ∧
        feed s1 w1 [(1005, some [50, 10]), (1010, some [51, 10])] = .ok (s2, w2) ∧
        feed s2 w2 [(1110, none)] = .ok (s3, w3) ∧
        feed fifo100 sys0 burst123 = .ok (s3, w3) ∧
        w1.lines = [[49]] ∧ w2.lines = [[49]] ∧ w3.lines = [[49], [51]] ∧
        s3.heldPtr = none := by
  obtain ⟨s1, w1, s2, w2, s3, w3, h1, h2, h3, h4, h5, _, h7, _, _, h10, h11⟩ :=
    burst_prints_first_and_last fifo100 sys0
      fifo100_reachable (by decide) rfl rfl (1000, [49], 10)
      [(1005, [50], 10), (1010, [51], 10)]
      1110 (by decide) (by decide) ⟨by decide, by decide, by decide, by decide, by decide,
        by decide, trivial⟩ (by decide) (by decide)
  have e3 := h11 rfl
  have e1 : w1.lines = [[49]] := by rw [h5]; decide
  exact ⟨fifo100_reachable, s1, w1, s2, w2, s3, w3, h1, h2, h3, h4, e1, by rw [h7, e1],
    e3, h10⟩

/-- C5 as stated fails: a fresh descriptor with debounce 100 reads `"1\n"`,
`"2\n"`, `"3\n"` at times 1000, 1005 and 1010 and is woken at time 1110; it
was settled at the first read (1000 - 0 >= 100), so it writes `"1\n"` at once
and `"3\n"` at the last wake, not `"3\n"` alone. -/
theorem settled_burst_prints_first :
    feed fifo100 sys0 burst123 = .ok (returned (fifo100, sys0) (feed fifo100 sys0 burst123)) ∧
      (returned (fifo100, sys0) (feed fifo100 sys0 burst123)).2.stdout = [[49, 10], [51, 10]] ∧
      (returned (fifo100, sys0) (feed fifo100 sys0 burst123)).2.stdout ≠ [[51, 10]] :=
  ⟨rfl, by decide, by decide⟩

end PollFileDescriptor
namespace PollFileDescriptor

theorem ext_refl (w : Sys) : Ext w w := ⟨[], [], by simp, by simp, rfl⟩

theorem ext_trans {a b c : Sys} (h1 : Ext a b) (h2 : Ext b c) : Ext a c := by
  obtain ⟨o1, l1, a1, a2, a3⟩ := h1
  obtain ⟨o2, l2, b1, b2, b3⟩ := h2
  exact ⟨o1 ++ o2, l1 ++ l2, by rw [b1, a1, List.append_assoc],
    by rw [b2, a2, List.append_assoc], by simp [a3, b3]⟩

theorem ext_same_lines {a b : Sys} (h : Ext a b) (hl : b.lines = a.lines) :
    b.stdout = a.stdout := by
  obtain ⟨o1, l1, a1, a2, a3⟩ := h
  rw [hl] at a2
  have : l1 = [] := by
    have := congrArg List.length a2
    simp only [List.length_append] at this
    exact List.length_eq_zero.mp (by omega)
  rw [this] at a3
  have : o1 = [] := List.length_eq_zero.mp a3
  rw [a1, this, List.append_nil]

theorem printpfd_ext (s : PollFileDescriptor) (w : Sys) (p : Nat) : Ext w (printpfd s w p).2 := by
  unfold printpfd
  dsimp only
  split
  · exact ⟨[_], [_], rfl, rfl, rfl⟩
  · exact ext_refl w

theorem scanLines_ext : ∀ (fuel : Nat) (s : PollFileDescriptor) (w : Sys) (sp : Nat)
    (nb : Bool), Ext w (scanLines fuel s w sp nb).2.1 := by
  intro fuel
  induction fuel with
  | zero => intro s w sp nb; exact ext_refl w
  | succ n ih =>
    intro s w sp nb
    unfold scanLines
    cases strpbrk s.buffer s.option.delimiters (bufferCount * bufferSize - sp) sp with
    | none => exact ext_refl w
    | some eol =>
      dsimp only
      refine ext_trans ?_ (ih _ _ _ _)
      cases nb with
      | true => exact printpfd_ext _ _ _
      | false => exact ext_refl w

theorem checkpfd_ext (s : PollFileDescriptor) (w : Sys) (now revents : Nat)
    (rd : ReadResult) (r : PollFileDescriptor × Sys × Nat)
    (h : checkpfd s w now revents rd = .ok r) : Ext w r.2.1 := by
  have hsettle : Ext w (settleHeld s w now).2 := by
    unfold settleHeld
    cases s.heldPtr with
    | none => exact ext_refl w
    | some p =>
      dsimp only
      split
      · exact printpfd_ext _ _ _
      · exact ext_refl w
  unfold checkpfd readLines at h
  dsimp only at h
  split at h
  · simp at h
  · rename_i s5 w5 sp heq
    split at heq
    · split at heq
      · simp at heq
      · rename_i s3 c hrd
        split at heq
        · simp only [Except.ok.injEq, Prod.mk.injEq, Option.some.injEq] at heq
          obtain ⟨e1, e2, e3⟩ := heq
          split at h
          · simp at h
          · simp only [Except.ok.injEq] at h
            subst h
            dsimp only
            rw [← e2]
            exact ext_trans hsettle (scanLines_ext _ _ _ _ _)
        · simp at heq
    · simp at heq
  · rename_i s5 w5 heq
    simp only [Except.ok.injEq] at h
    subst h
    dsimp only
    split at heq
    · split at heq
      · simp at heq
      · split at heq
        · simp at heq
        · simp only [Except.ok.injEq, Prod.mk.injEq] at heq
          rw [← heq.2.1]; exact hsettle
    · simp only [Except.ok.injEq, Prod.mk.injEq] at heq
      rw [← heq.2.1]; exact hsettle

end PollFileDescriptor

namespace LineState

theorem read_whole_line (o : PFDOption) (hdeb : o.debounce = 0) (v : LineState) (t : Nat)
    (L : List Nat) (d : Nat) (hv : v.pend = []) (hh : v.held = none)
    (hL : ∀ b ∈ L, b ∉ o.delimiters) (hd : d ∈ o.delimiters)
    (hlen : L.length + 1 ≤ bufferSize - 2) :
    (read o v t (L ++ [d])).lines = (emit o v L).lines ∧
      (read o v t (L ++ [d])).last = (emit o v L).last ∧
      (read o v t (L ++ [d])).pend = [] ∧ (read o v t (L ++ [d])).held = none := by
  have hge : usub64 t v.readTime ≥ o.debounce := by rw [hdeb]; exact Nat.zero_le _
  have heh : (emit o v L).held = none := by
    unfold emit; split <;> exact hh
  have hep : (emit o v L).pend = [] := by
    unfold emit; split <;> exact hv
  by_cases hlt : L.length + 1 < bufferSize - 2
  · rw [read_settled o v t L d hv hh hL hd hlt hge]
    exact ⟨rfl, rfl, hep, heh⟩
  · have hfull : L.length + 1 = bufferSize - 2 := by omega
    have htake : (L ++ [d]).take (bufferSize - 2 - v.pend.length) = L ++ [d] := by
      apply List.take_of_length_le
      rw [hv]
      simp only [List.length_append, List.length_singleton, List.length_nil]
      omega
    have hsettle : settle o v t = v := by
      unfold settle; rw [hh]
    have hlen2 : (L ++ [d]).length = L.length + 1 := by simp
    have hb : (o.debounce == 0) = true := by simp [hdeb]
    have hn : decide (usub64 t v.readTime ≥ o.debounce) = true := by
      simp only [decide_eq_true_eq]; exact hge
    unfold read
    dsimp only
    rw [htake, hv, hsettle, hn]
    rw [if_neg (by rw [hlen2]; omega)]
    simp only [List.nil_append, List.length_nil, Nat.zero_add]
    by_cases hd0 : o.delimiters.headD 0 ≠ 0
    · have hd0m : o.delimiters.headD 0 ∈ o.delimiters := by
        cases hdl : o.delimiters with
        | nil => rw [hdl] at hd0; simp at hd0
        | cons a as => simp
      rw [if_pos ⟨by rw [hlen2]; exact hfull, hd0⟩]
      have hsl : splitLines o.delimiters (L ++ [d] ++ [o.delimiters.headD 0]) = ([L, []], []) := by
        have h1 := splitLines_line o.delimiters (o.delimiters.headD 0) [] hd0m []
          (fun b hb => by cases hb)
        have h2 := splitLines_line o.delimiters d ([] ++ o.delimiters.headD 0 :: []) hd L hL
        rw [h1] at h2
        simpa [splitLines] using h2
      rw [hsl]
      simp only [takeLines, if_true, hb]
      have he2 : emit o (emit o { v with readTime := t } L) [] = emit o { v with readTime := t } L := by
        generalize emit o { v with readTime := t } L = u
        unfold emit
        simp
      rw [he2]
      unfold emit
      dsimp only
      split <;> (refine ⟨?_, ?_, ?_, ?_⟩ <;> trivial)
    · rw [if_neg (fun h => hd0 h.2), List.append_nil]
      have hsl : splitLines o.delimiters (L ++ [d]) = ([L], []) := by
        have := splitLines_line o.delimiters d [] hd L hL
        simpa [splitLines] using this
      rw [hsl]
      simp only [takeLines, if_true]
      unfold emit
      dsimp only
      split <;> (refine ⟨?_, ?_, ?_, ?_⟩ <;> trivial)

end LineState
namespace PollFileDescriptor

theorem fifoUnique_reachable : Reachable fifoUnique :=
  Reachable.opened [47, 116, 109, 112, 47, 102, 105, 102, 111]
    { PFDOption.init with duplicates := false } (some FileKind.fifo) 3 fifoUnique rfl

/-- C6 (amended): with debounce 0, a descriptor at the start of a line reads the
same complete line (not empty, free of NUL and of delimiters) in two
successive wakes.  With duplicates discarded the second wake writes nothing;
with duplicates allowed each of the two wakes prints the line. -/
theorem repeated_line (s : PollFileDescriptor) (w : Sys) (hs : Reachable s) (hfd : 0 ≤ s.fd)
    (hstart : s.readPtr = s.bufferIndex * bufferSize) (hdeb : s.option.debounce = 0)
    (L : List Nat) (d : Nat) (hne : L ≠ [])
    (hL : ∀ b ∈ L, b ≠ 0 ∧ b ∉ s.option.delimiters) (hd0 : d ≠ 0)
    (hd : d ∈ s.option.delimiters) (hlen : L.length + 1 ≤ bufferSize - 2)
    (t1 t2 rev1 rev2 : Nat) (hup1 : rev1 &&& POLLHUP = 0) (hev1 : rev1 &&& s.events ≠ 0)
    (hup2 : rev2 &&& POLLHUP = 0) (hev2 : rev2 &&& s.events ≠ 0) :
    ∃ r1 r2, checkpfd s w t1 rev1 (.data (L ++ [d])) = .ok r1 ∧
      checkpfd r1.1 r1.2.1 t2 rev2 (.data (L ++ [d])) = .ok r2 ∧
      (s.option.duplicates = false →
        r2.2.1.lines = r1.2.1.lines ∧ r2.2.1.stdout = r1.2.1.stdout) ∧
      (s.option.duplicates = true →
        r1.2.1.lines = w.lines ++ [L] ∧ r2.2.1.lines = w.lines ++ [L, L]) := by
  have hinv := reachable_inv s hs
  have hz : ∀ b ∈ L ++ [d], b ≠ 0 := by
    intro b hb
    rcases List.mem_append.mp hb with e | e
    · exact (hL b e).1
    · rw [List.mem_singleton.mp e]; exact hd0
  have hLp : ∀ b ∈ L, b ∉ s.option.delimiters := fun b hb => (hL b hb).2
  obtain ⟨b1, b2, b3, b4⟩ := LineState.read_whole_line s.option hdeb (view s w) t1 L d
    (view_start s w hstart) (by simp [view, reachable_no_hold s hs hdeb]) hLp hd hlen
  obtain ⟨r1, a1, a2, a3, a4, a5, a6, _⟩ := checkpfd_data s w t1 rev1 (L ++ [d]) hinv hfd hup1
    hev1 (fun b hb => hz b (List.mem_of_mem_take hb)) (LineState.tidy_nil _ _ _ _ b3)
  rw [← a2] at b1 b2 b3 b4
  obtain ⟨d1, d2, d3, d4⟩ := LineState.read_whole_line r1.1.option (by rw [a4]; exact hdeb)
    (view r1.1 r1.2.1) t2 L d b3 b4 (by rw [a4]; exact hLp) (by rw [a4]; exact hd) hlen
  obtain ⟨r2, c1, c2, c3, c4, c5, c6, _⟩ := checkpfd_data r1.1 r1.2.1 t2 rev2 (L ++ [d]) a3
    (by rw [a5]; exact hfd) hup2 (by rw [a6]; exact hev2)
    (fun b hb => hz b (List.mem_of_mem_take hb)) (LineState.tidy_nil _ _ _ _ d3)
  rw [← c2, a4] at d1
  have hl1 : r1.2.1.lines = (LineState.emit s.option (view s w) L).lines := b1
  have hlast1 : (view r1.1 r1.2.1).last = (LineState.emit s.option (view s w) L).last := b2
  have hl2 : r2.2.1.lines = (LineState.emit s.option (view r1.1 r1.2.1) L).lines := d1
  refine ⟨r1, r2, a1, c1, ?_, ?_⟩
  · intro hdup
    have hsame : r2.2.1.lines = r1.2.1.lines := by
      rw [hl2]
      have hlastL : (view r1.1 r1.2.1).last = L := by
        rw [hlast1]
        unfold LineState.emit
        split
        · rfl
        · rename_i hc
          by_contra hcon
          exact hc ⟨hne, Or.inr hcon⟩
      unfold LineState.emit
      rw [if_neg (by rw [hdup, hlastL]; simp)]
      rfl
    exact ⟨hsame, ext_same_lines (checkpfd_ext _ _ _ _ _ _ c1) hsame⟩
  · intro hdup
    have e1 : r1.2.1.lines = w.lines ++ [L] := by
      rw [hl1, emit_dup _ _ _ hdup hne]; rfl
    refine ⟨e1, ?_⟩
    rw [hl2, emit_dup _ _ _ hdup hne]
    show r1.2.1.lines ++ [L] = _
    rw [e1, List.append_assoc]
    rfl

theorem repeated_line_witness :
    Reachable fifoUnique ∧
      ∃ r1 r2, checkpfd fifoUnique sys0 1000 POLLIN (.data ([65] ++ [10])) = .ok r1 ∧
        checkpfd r1.1 r1.2.1 1001 POLLIN (.data ([65] ++ [10])) = .ok r2 ∧
        r2.2.1.lines = r1.2.1.lines ∧ r2.2.1.stdout = r1.2.1.stdout := by
  obtain ⟨r1, r2, h1, h2, h3, _⟩ := repeated_line fifoUnique sys0 fifoUnique_reachable
    (by decide) rfl rfl [65] 10 (by decide) (by decide) (by decide) (by decide) (by decide)
    1000 1001 POLLIN POLLIN (by decide) (by decide) (by decide) (by decide)
  exact ⟨fifoUnique_reachable, r1, r2, h1, h2, h3 rfl⟩

/-- C6 as stated fails when a debounce is set: with debounce 100 and duplicates
allowed the descriptor reads `"B\n"`, then `"A\n"` and `"A\n"` again, 10 apart,
and is woken once all is quiet; the two deliveries of `A` give one line `A`,
not two, the first held `A` being replaced by the second. -/
theorem bounced_repeat_prints_once :
    feed fifo100 sys0 burstBAA = .ok (returned (fifo100, sys0) (feed fifo100 sys0 burstBAA)) ∧
      (returned (fifo100, sys0) (feed fifo100 sys0 burstBAA)).2.lines = [[66], [65]] ∧
      (returned (fifo100, sys0) (feed fifo100 sys0 burstBAA)).2.lines ≠ [[66], [65], [65]] :=
  ⟨rfl, by decide, by decide⟩

end PollFileDescriptor
namespace LineState

theorem read_fill (o : PFDOption) (hdeb : o.debounce = 0) (v : LineState) (t : Nat)
    (bytes : List Nat) (hh : v.held = none)
    (hfull : bufferSize - 2 ≤ v.pend.length + bytes.length)
    (hpend : v.pend.length ≤ bufferSize - 2)
    (hrun : ∀ b ∈ v.pend ++ bytes.take (bufferSize - 2 - v.pend.length), b ∉ o.delimiters)
    (hd0 : o.delimiters.headD 0 ≠ 0) :
    (v.pend ++ bytes.take (bufferSize - 2 - v.pend.length)).length = bufferSize - 2 ∧
      (read o v t bytes).lines =
        (emit o v (v.pend ++ bytes.take (bufferSize - 2 - v.pend.length))).lines ∧
      (read o v t bytes).pend = [] ∧ (read o v t bytes).held = none := by
  have hgl : (bytes.take (bufferSize - 2 - v.pend.length)).length =
      bufferSize - 2 - v.pend.length := by
    rw [List.length_take]; omega
  have hlen : (v.pend ++ bytes.take (bufferSize - 2 - v.pend.length)).length = bufferSize - 2 := by
    rw [List.length_append, hgl]; omega
  have hd0m : o.delimiters.headD 0 ∈ o.delimiters := by
    cases hdl : o.delimiters with
    | nil => rw [hdl] at hd0; simp at hd0
    | cons a as => simp
  have hsettle : settle o v t = v := by
    unfold settle; rw [hh]
  have hn : decide (usub64 t v.readTime ≥ o.debounce) = true := by
    simp only [decide_eq_true_eq]; rw [hdeb]; exact Nat.zero_le _
  have hsl : splitLines o.delimiters (v.pend ++ bytes.take (bufferSize - 2 - v.pend.length) ++
      [o.delimiters.headD 0]) =
      ([v.pend ++ bytes.take (bufferSize - 2 - v.pend.length)], []) := by
    have := splitLines_line o.delimiters (o.delimiters.headD 0) [] hd0m _ hrun
    simpa [splitLines] using this
  refine ⟨hlen, ?_⟩
  unfold read
  dsimp only
  rw [if_neg (by rw [hgl]; omega), if_pos ⟨by rw [hgl]; omega, hd0⟩, hsettle, hn, hsl]
  simp only [takeLines, if_true]
  unfold emit
  dsimp only
  split <;> (refine ⟨?_, ?_, ?_⟩ <;> trivial)

end LineState

namespace PollFileDescriptor

/-- C8 (amended): with debounce 0 and a delimiter string that is not empty, a
descriptor reads while the unfinished line and the bytes on offer make a run
of at least `bufferSize-2` bytes free of delimiters and of NUL.  The read
takes the bytes that bring the line to `bufferSize-2`, puts the first
delimiter after them and counts it as one more byte read; the line handed to
`printpfd` is exactly those first `bufferSize-2` bytes of the run (printed
when duplicates are allowed); and the descriptor is at the start of a line
again, so the bytes not yet read start a new line. -/
theorem long_line_cut (s : PollFileDescriptor) (w : Sys) (hs : Reachable s) (hfd : 0 ≤ s.fd)
    (hdeb : s.option.debounce = 0) (hd0 : s.option.delimiters.headD 0 ≠ 0)
    (now revents : Nat) (hup : revents &&& POLLHUP = 0) (hev : revents &&& s.events ≠ 0)
    (bytes : List Nat)
    (hfull : bufferSize - 2 ≤ (view s w).pend.length + bytes.length)
    (hrun : ∀ b ∈ (view s w).pend ++ bytes.take (bufferSize - 2 - (view s w).pend.length),
      b ≠ 0 ∧ b ∉ s.option.delimiters) :
    ∃ r s3, checkpfd s w now revents (.data bytes) = .ok r ∧
      readpfd s (.data bytes) =
        .ok (s3, (bytes.take (bufferSize - 2 - (view s w).pend.length)).length + 1) ∧
      s3.buffer (s.bufferIndex * bufferSize + (bufferSize - 2)) = s.option.delimiters.headD 0 ∧
      ((view s w).pend ++ bytes.take (bufferSize - 2 - (view s w).pend.length)).length
        = bufferSize - 2 ∧
      r.2.1.lines = (LineState.emit s.option (view s w)
        ((view s w).pend ++ bytes.take (bufferSize - 2 - (view s w).pend.length))).lines ∧
      (s.option.duplicates = true → r.2.1.lines = w.lines ++
        [(view s w).pend ++ bytes.take (bufferSize - 2 - (view s w).pend.length)]) ∧
      r.1.readPtr = r.1.bufferIndex * bufferSize := by
  have hinv := reachable_inv s hs
  have hidx := hinv.idx
  have hlo := hinv.lo
  have hhi := hinv.hi
  have hpl : (view s w).pend.length = s.readPtr - s.bufferIndex * bufferSize :=
    loadBytes_length _ _ _
  obtain ⟨b1, b2, b3, b4⟩ := LineState.read_fill s.option hdeb (view s w) now bytes
    (by simp [view, reachable_no_hold s hs hdeb]) hfull (by rw [hpl]; omega)
    (fun b hb => (hrun b hb).2) hd0
  obtain ⟨r, a1, a2, a3, a4, a5, a6, _⟩ := checkpfd_data s w now revents bytes hinv hfd hup hev
    (by
      intro b hb
      rw [← hpl] at hb
      exact (hrun b (List.mem_append_right _ hb)).1)
    (LineState.tidy_nil _ _ _ _ b3)
  rw [← a2] at b2 b3 b4
  have hgl : (bytes.take (bufferSize - 2 - (view s w).pend.length)).length =
      bufferSize - 2 - (view s w).pend.length := by
    rw [List.length_take]; omega
  have hrd := readpfd_data s bytes hinv hfd
  rw [← hpl] at hrd
  rw [if_pos (by rw [hgl, hpl]; omega)] at hrd
  have hlne : (view s w).pend ++ bytes.take (bufferSize - 2 - (view s w).pend.length) ≠ [] := by
    intro h
    rw [h] at b1
    simp [bufferSize] at b1
  refine ⟨r, _, a1, hrd, ?_, b1, b2, ?_, start_of_view r.1 r.2.1 a3 b3⟩
  · dsimp only
    rw [store_apply, store_apply, if_neg (by omega), if_pos (by rw [hgl, hpl]; omega)]
  · intro hdup
    have : r.2.1.lines = (view r.1 r.2.1).lines := rfl
    rw [this, b2, emit_dup _ _ _ hdup hlne]
    rfl

theorem long_line_cut_witness :
    Reachable fifo0 ∧
      ∃ r s3, checkpfd fifo0 sys0 1000 POLLIN (.data (List.replicate 1100 97)) = .ok r ∧
        readpfd fifo0 (.data (List.replicate 1100 97)) = .ok (s3, 1023) ∧
        r.2.1.lines = [List.replicate 1022 97] ∧
        r.1.readPtr = r.1.bufferIndex * bufferSize := by
  have hp : (view fifo0 sys0).pend = [] := view_start fifo0 sys0 rfl
  obtain ⟨r, s3, h1, h2, _, _, _, h6, h7⟩ := long_line_cut fifo0 sys0 fifo0_reachable
    (by decide) rfl (by decide) 1000 POLLIN (by decide) (by decide) (List.replicate 1100 97)
    (by rw [hp]; simp only [List.length_nil, List.length_replicate, bufferSize]; decide)
    (by
      rw [hp]
      intro b hb
      have := List.mem_of_mem_take (List.mem_append.mp hb |>.resolve_left (by simp))
      rw [List.eq_of_mem_replicate this]
      decide)
  rw [hp] at h2 h6
  simp only [List.length_nil, List.nil_append, bufferSize, List.take_replicate,
    List.length_replicate] at h2 h6
  exact ⟨fifo0_reachable, r, s3, h1, h2, h6 rfl, h7⟩

set_option maxRecDepth 100000 in
/-- C8 as stated fails.  On a run that holds a NUL: the descriptor reads 1022
bytes of a run of 1102 bytes free of delimiters whose second byte is NUL,
prints nothing and keeps the one byte before the NUL; the next read brings the
last 80 bytes and the newline, and the first line printed has 81 bytes: the
1020 bytes read after the NUL are lost.  On a run that does not start the
segment: after the line `ab` the read takes 1019 bytes of a run of 1100 bytes,
and the line cut from the run is those 1019 bytes, not 1022. -/
theorem nul_in_run_loses_bytes :
    feed fifo0 sys0 [(1000, some nulRun), (1001, some (nulRun.drop 1022))] =
        .ok (returned (fifo0, sys0)
          (feed fifo0 sys0 [(1000, some nulRun), (1001, some (nulRun.drop 1022))])) ∧
      (returned (fifo0, sys0)
        (feed fifo0 sys0 [(1000, some nulRun), (1001, some (nulRun.drop 1022))])).2.lines =
        [[97] ++ List.replicate 80 98] ∧
      (returned (fifo0, sys0) (feed fifo0 sys0 [(1000, some nulRun)])).2.lines = [] ∧
      ∃ s' w', feed fifo0 sys0 [(1000, some offsetRun)] = .ok (s', w') ∧
        w'.lines = [[97, 98], List.replicate 1019 99] := by
  refine ⟨rfl, ?_, ?_, ?_⟩
  · decide!
  · decide!
  · obtain ⟨s', w', f1, f2, _⟩ := feed_view [(1000, some offsetRun)] fifo0 sys0
      (reachable_inv fifo0 fifo0_reachable) (by decide) (by decide) (by decide) (by decide!)
      (by decide!)
    refine ⟨s', w', f1, ?_⟩
    have : w'.lines = (view s' w').lines := rfl
    rw [this, f2]
    decide!

end PollFileDescriptor
theorem compileBytes_cons (c : Nat) (R : List Nat) (hc : c ≠ 37) :
    compileBytes (c :: R) = c :: compileBytes R := by
  cases R with
  | nil => simp [compileBytes, hc]
  | cons d rest => simp [compileBytes, hc]

theorem expand_cons (line path : List Nat) (time c : Nat) (R : List Nat) (hc : c ≠ 37) :
    expand line path time (c :: R) = c :: expand line path time R := by
  cases R with
  | nil => simp [expand]
  | cons d rest => simp [expand, hc]

theorem wellFormed_cons (c : Nat) (R : List Nat) (hc : c ≠ 37) (h : WellFormed (c :: R)) :
    WellFormed R := by
  cases R with
  | nil => trivial
  | cons d rest => simpa [WellFormed, hc] using h

theorem compileBytes_length : ∀ (n : Nat) (R : List Nat), R.length ≤ n →
    (compileBytes R).length ≤ R.length := by
  intro n
  induction n with
  | zero =>
    intro R h
    cases R with
    | nil => simp [compileBytes]
    | cons _ _ => simp at h
  | succ k ih =>
    intro R h
    match R, h with
    | [], _ => simp [compileBytes]
    | [c], _ => simp [compileBytes]
    | c :: d :: rest, h =>
      simp only [List.length_cons] at h
      have h1 := ih rest (by omega)
      have h2 := ih (d :: rest) (by simp only [List.length_cons]; omega)
      simp only [compileBytes]
      split
      · split
        · simp only [List.length_cons]; omega
        · simp only [List.length_cons] at *; omega
      · simp only [List.length_cons] at *; omega

/-- A well-formed string is a literal text, free of NUL when compiled, that
ends the string or is followed by a directive and a well-formed string. -/
theorem split_lit (line path : List Nat) (time : Nat) : ∀ (n : Nat) (R : List Nat),
    R.length ≤ n → WellFormed R → (∀ b ∈ R, b ≠ 0) →
    ∃ lit, (∀ b ∈ lit, b ≠ 0) ∧
      ((compileBytes R = lit ∧ expand line path time R = lit) ∨
        ∃ x rest, rest.length < R.length ∧ WellFormed rest ∧ (∀ b ∈ rest, b ≠ 0) ∧
          compileBytes R = lit ++ 0 :: x :: compileBytes rest ∧
          expand line path time R = lit ++ dirOut line path time x ++
            expand line path time rest) := by
  intro n
  induction n with
  | zero =>
    intro R h _ _
    cases R with
    | nil => exact ⟨[], by simp, Or.inl ⟨rfl, rfl⟩⟩
    | cons _ _ => simp at h
  | succ k ih =>
    intro R h hwf hz
    match R, h, hwf, hz with
    | [], _, _, _ => exact ⟨[], by simp, Or.inl ⟨rfl, rfl⟩⟩
    | [c], _, hwf, hz =>
      have hc : c ≠ 37 := hwf
      exact ⟨[c], by simpa using hz, Or.inl ⟨by simp [compileBytes, hc], rfl⟩⟩
    | c :: d :: rest, h, hwf, hz =>
      simp only [List.length_cons] at h
      have hzr : ∀ b ∈ rest, b ≠ 0 := fun b hb =>
        hz b (List.mem_cons_of_mem _ (List.mem_cons_of_mem _ hb))
      have hzd : ∀ b ∈ d :: rest, b ≠ 0 := fun b hb => hz b (List.mem_cons_of_mem _ hb)
      by_cases hc : c = 37
      · subst hc
        simp only [WellFormed, if_true] at hwf
        obtain ⟨hd, hwr⟩ := hwf
        by_cases hd37 : d = 37
        · subst hd37
          obtain ⟨lit, l1, l2⟩ := ih rest (by omega) hwr hzr
          refine ⟨37 :: lit, ?_, ?_⟩
          · intro b hb
            rcases List.mem_cons.mp hb with rfl | hb
            · decide
            · exact l1 b hb
          · rcases l2 with ⟨a1, a2⟩ | ⟨x, r2, b1, b2, b3, b4, b5⟩
            · left
              simp [compileBytes, expand, a1, a2]
            · right
              refine ⟨x, r2, by simp only [List.length_cons]; omega, b2, b3, ?_, ?_⟩
              · simp [compileBytes, b4]
              · simp [expand, b5]
        · have hdir : Argument.strchrFormatChr d = true := by
            rcases hd with rfl | rfl | rfl | rfl
            · decide
            · decide
            · decide
            · exact absurd rfl hd37
          refine ⟨[], by simp, Or.inr ⟨d, rest, by simp only [List.length_cons]; omega, hwr, hzr, ?_, ?_⟩⟩
          · simp only [compileBytes, if_true, if_neg hd37, hdir, List.nil_append]
            rw [compileBytes_cons d rest hd37]
          · simp only [expand, if_true, List.nil_append, dirOut]
            rcases hd with rfl | rfl | rfl | rfl
            · simp
            · simp
            · simp
            · exact absurd rfl hd37
      · have hwd : WellFormed (d :: rest) := wellFormed_cons c _ hc hwf
        obtain ⟨lit, l1, l2⟩ := ih (d :: rest) (by simp only [List.length_cons]; omega) hwd hzd
        have hc0 : c ≠ 0 := hz c (List.mem_cons_self _ _)
        refine ⟨c :: lit, ?_, ?_⟩
        · intro b hb
          rcases List.mem_cons.mp hb with rfl | hb
          · exact hc0
          · exact l1 b hb
        · rw [compileBytes_cons c _ hc, expand_cons line path time c _ hc]
          rcases l2 with ⟨a1, a2⟩ | ⟨x, r2, b1, b2, b3, b4, b5⟩
          · left
            simp [a1, a2]
          · right
            refine ⟨x, r2, by simp only [List.length_cons] at *; omega, b2, b3, ?_, ?_⟩
            · simp [b4]
            · simp [b5]

theorem compileBytes_percent (R : List Nat) (hd : R.headD 0 ≠ 37) :
    compileBytes (37 :: R) =
      (if Argument.strchrFormatChr (R.headD 0) = true then 0 else 37) :: compileBytes R := by
  cases R with
  | nil => simp [compileBytes, Argument.strchrFormatChr]
  | cons d rest =>
    simp only [List.headD_cons] at hd ⊢
    simp only [compileBytes, if_true, if_neg hd]

theorem holds_head (m : Mem) (p : Nat) (R : List Nat) (h : Holds m p (R ++ [0])) :
    m p = R.headD 0 := by
  cases R with
  | nil => exact h.1
  | cons b bs => exact h.1

namespace Argument

/-- The loop of `parseFormat` from `ptr`, where the string `R` stands: it ends
at the end of the compiled form of `R`, which it has put at `ptr`; below `ptr`
the array is as before. -/
theorem parseLoop_spec (size : Nat) : ∀ (n : Nat) (R : List Nat), R.length = n →
    (∀ b ∈ R, b ≠ 0) → ∀ (m : Mem) (ptr fuel : Nat), Holds m ptr (R ++ [0]) →
      ptr + R.length < size → R.length ≤ fuel →
      (parseLoop forward size fuel m ptr).2 = ptr + (compileBytes R).length ∧
        Holds (parseLoop forward size fuel m ptr).1 ptr (compileBytes R ++ [0]) ∧
        ∀ i, i < ptr → (parseLoop forward size fuel m ptr).1 i = m i := by
  intro n
  induction n using Nat.strong_induction_on with
  | _ n ih =>
    intro R hn hz m ptr fuel hh hsize hfuel
    cases R with
    | nil =>
      have h0 : m ptr = 0 := hh.1
      have e : parseLoop forward size fuel m ptr = (m, ptr) := by
        cases fuel with
        | zero => rfl
        | succ k => unfold parseLoop; rw [if_pos h0]
      rw [e]
      exact ⟨rfl, hh, fun _ _ => rfl⟩
    | cons c R1 =>
      simp only [List.length_cons] at hn hsize hfuel
      obtain ⟨fuel, rfl⟩ : ∃ k, fuel = k + 1 := ⟨fuel - 1, by omega⟩
      have hc : m ptr = c := hh.1
      have hc0 : c ≠ 0 := hz c (List.mem_cons_self _ _)
      have hz1 : ∀ b ∈ R1, b ≠ 0 := fun b hb => hz b (List.mem_cons_of_mem _ hb)
      have hh1 : Holds m (ptr + 1) (R1 ++ [0]) := hh.2
      have hd : m (ptr + 1) = R1.headD 0 := holds_head m (ptr + 1) R1 hh1
      have step : ∀ (m1 : Mem) (b : Nat) (R2 : List Nat), R2.length ≤ R1.length →
          (∀ b ∈ R2, b ≠ 0) → m1 ptr = b → (∀ i, i < ptr → m1 i = m i) →
          Holds m1 (ptr + 1) (R2 ++ [0]) → compileBytes (c :: R1) = b :: compileBytes R2 →
          (parseLoop forward size fuel m1 (ptr + 1)).2 = ptr + (compileBytes (c :: R1)).length ∧
            Holds (parseLoop forward size fuel m1 (ptr + 1)).1 ptr (compileBytes (c :: R1) ++ [0]) ∧
            ∀ i, i < ptr → (parseLoop forward size fuel m1 (ptr + 1)).1 i = m i := by
        intro m1 b R2 hlen hz2 hb hfr hh2 hcb
        obtain ⟨i1, i2, i3⟩ := ih R2.length (by omega) R2 rfl hz2 m1 (ptr + 1) fuel hh2
          (by omega) (by omega)
        rw [hcb]
        refine ⟨?_, ⟨?_, i2⟩, ?_⟩
        · rw [i1, List.length_cons]; omega
        · rw [i3 ptr (by omega)]; exact hb
        · intro i hi
          rw [i3 i (by omega)]
          exact hfr i hi
      unfold parseLoop
      rw [if_neg (by rw [hc]; exact hc0)]
      by_cases h37 : c = 37
      · rw [if_pos (by rw [hc]; exact h37)]
        subst h37
        by_cases hd37 : m (ptr + 1) = 37
        · rw [if_pos hd37]
          rw [hd] at hd37
          obtain ⟨rest, rfl⟩ : ∃ rest, R1 = 37 :: rest := by
            cases R1 with
            | nil => simp at hd37
            | cons d rest => exact ⟨rest, by simp only [List.headD_cons] at hd37; rw [hd37]⟩
          have hzr : ∀ b ∈ rest, b ≠ 0 := fun b hb => hz1 b (List.mem_cons_of_mem _ hb)
          have hh2 : Holds m (ptr + 2) (rest ++ [0]) := hh1.2
          rw [holds_append] at hh2
          simp only [List.length_cons] at hsize
          have hcs : cstr m (size - (ptr + 2)) (ptr + 2) = rest :=
            cstr_text m rest _ (ptr + 2) hh2.1 hzr hh2.2.1 (by omega)
          rw [copied_forward, hcs]
          refine step _ 37 rest (by simp) hzr ?_ ?_ (holds_storeBytes _ _ _) ?_
          · rw [storeBytes_apply, if_neg (by omega)]; exact hc
          · intro i hi
            rw [storeBytes_apply, if_neg (by omega)]
          · simp [compileBytes]
        · rw [if_neg hd37]
          rw [hd] at hd37
          have hcb := compileBytes_percent R1 hd37
          by_cases hs : strchrFormatChr (m (ptr + 1)) = true
          · rw [if_pos hs]
            rw [hd] at hs
            rw [if_pos hs] at hcb
            refine step _ 0 R1 le_rfl hz1 ?_ ?_ ?_ hcb
            · rw [store_apply, if_pos rfl]
            · intro i hi
              rw [store_apply, if_neg (by omega)]
            · refine holds_congr m _ _ _ ?_ hh1
              intro i hi _
              rw [store_apply, if_neg (by omega)]
          · rw [if_neg hs]
            rw [hd] at hs
            rw [if_neg hs] at hcb
            exact step m 37 R1 le_rfl hz1 hc (fun _ _ => rfl) hh1 hcb
      · rw [if_neg (by rw [hc]; exact h37)]
        exact step m c R1 le_rfl hz1 hc (fun _ _ => rfl) hh1 (compileBytes_cons c R1 h37)

theorem holds_of_getD (m : Mem) : ∀ (l : List Nat) (p : Nat),
    (∀ k, k < l.length → m (p + k) = l.getD k 0) → Holds m p l := by
  intro l
  induction l with
  | nil => intro p _; trivial
  | cons b bs ih =>
    intro p h
    refine ⟨by simpa using h 0 (by simp), ih (p + 1) ?_⟩
    intro k hk
    have := h (k + 1) (by simp only [List.length_cons]; omega)
    rw [show p + 1 + k = p + (k + 1) by omega, this]
    simp

theorem holds_ofList (l : List Nat) : Holds (ofList l) 0 l := by
  apply holds_of_getD
  intro k _
  rw [Nat.zero_add]
  rfl

theorem holds_ofList_loadBytes (m : Mem) (n : Nat) (l : List Nat) (h : Holds m 0 l)
    (hl : l.length ≤ n) : Holds (ofList (loadBytes m 0 n)) 0 l := by
  refine holds_congr m _ l 0 ?_ h
  intro i _ hi
  show (loadBytes m 0 n).getD i 0 = m i
  rw [loadBytes_getD m 0 n i (by omega), Nat.zero_add]

/-- What `parseFormat` leaves of `+T` for a well-formed `T` when the library
copies as `forward` does: a format character
`c`, then the compiled form of a well-formed string `R`, where `c` and `R`
expand to what `T` expands to; the returned pointer is at the last NUL. -/
theorem parseFormat_spec (T : List Nat) (hwf : WellFormed T) (hz : ∀ b ∈ T, b ≠ 0) :
    ∃ c R, WellFormed R ∧ (∀ b ∈ R, b ≠ 0) ∧
      Holds (ofList (parseFormat forward (43 :: T ++ [0])).1) 0 (c :: compileBytes R ++ [0]) ∧
      (parseFormat forward (43 :: T ++ [0])).2 = 0 + (compileBytes R).length + 1 ∧
      0 + (compileBytes R).length + 1 < (parseFormat forward (43 :: T ++ [0])).1.length ∧
      ∀ (line path : List Nat) (time : Nat),
        dirOut line path time c ++ expand line path time R = expand line path time T := by
  have hm : Holds (ofList (43 :: T ++ [0])) 0 (43 :: T ++ [0]) := holds_ofList _
  have hsz : (43 :: T ++ [0]).length = T.length + 2 := by simp
  have hz43 : ∀ b ∈ 43 :: T, b ≠ 0 := by
    intro b hb
    rcases List.mem_cons.mp hb with rfl | hb
    · decide
    · exact hz b hb
  unfold parseFormat
  dsimp only
  rw [loadBytes_length]
  by_cases hcond : ofList (43 :: T ++ [0]) 1 = 37 ∧
      (cstr (ofList (43 :: T ++ [0])) (43 :: T ++ [0]).length 0).length ≥ 3 ∧
      strchrFormatChr (ofList (43 :: T ++ [0]) 2) = true
  · rw [if_pos hcond]
    obtain ⟨c1, _, c3⟩ := hcond
    match T, hwf, hz, hm, hsz, hz43, c1, c3 with
    | [], _, _, _, _, _, c1, _ => exact absurd c1 (by decide)
    | [c], hwf, _, _, _, _, c1, _ => exact absurd c1 hwf
    | c :: x :: rest, hwf, hz, hm, hsz, hz43, c1, c3 =>
      have hc : c = 37 := c1
      subst hc
      have hx : strchrFormatChr x = true := c3
      have hx0 : x ≠ 0 := hz x (by simp)
      have hx37 : x ≠ 37 := by
        intro h
        rw [h] at hx
        exact absurd hx (by decide)
      have hzr : ∀ b ∈ x :: rest, b ≠ 0 := fun b hb => hz b (List.mem_cons_of_mem _ hb)
      have hzr2 : ∀ b ∈ rest, b ≠ 0 := fun b hb => hzr b (List.mem_cons_of_mem _ hb)
      simp only [WellFormed, if_true] at hwf
      have h2 : Holds (ofList (43 :: 37 :: x :: rest ++ [0])) 2 ((x :: rest) ++ [0]) := hm.2.2
      rw [holds_append] at h2
      simp only [List.length_cons] at hsz
      have hcs : cstr (ofList (43 :: 37 :: x :: rest ++ [0]))
          ((43 :: 37 :: x :: rest ++ [0]).length - 2) 2 = x :: rest :=
        cstr_text _ (x :: rest) _ 2 h2.1 hzr h2.2.1 (by
          rw [hsz]; simp only [List.length_cons]; omega)
      rw [copied_forward, hcs]
      obtain ⟨p1, p2, _⟩ := parseLoop_spec (43 :: 37 :: x :: rest ++ [0]).length (x :: rest).length
        (x :: rest) rfl hzr _ 0 (43 :: 37 :: x :: rest ++ [0]).length
        (holds_storeBytes _ 0 ((x :: rest) ++ [0]))
        (by rw [hsz]; simp only [List.length_cons]; omega)
        (by rw [hsz]; simp only [List.length_cons]; omega)
      rw [compileBytes_cons x rest hx37] at p1 p2
      have hlen := compileBytes_length rest.length rest le_rfl
      refine ⟨x, rest, hwf.2, hzr2, ?_, ?_, ?_, ?_⟩
      · apply holds_ofList_loadBytes _ _ _ p2
        rw [hsz]
        simp only [List.length_cons, List.length_append, List.length_nil]
        omega
      · rw [p1, List.length_cons]; omega
      · rw [hsz]; omega
      · intro line path time
        simp only [expand, if_true, dirOut]
        have hx3 : x = 108 ∨ x = 112 ∨ x = 116 := by
          rcases hwf.1 with h | h | h | h
          · exact Or.inl h
          · exact Or.inr (Or.inl h)
          · exact Or.inr (Or.inr h)
          · exact absurd h hx37
        rcases hx3 with rfl | rfl | rfl <;> simp
  · rw [if_neg hcond]
    obtain ⟨p1, p2, _⟩ := parseLoop_spec (43 :: T ++ [0]).length (43 :: T).length
      (43 :: T) rfl hz43 _ 0 (43 :: T ++ [0]).length hm
      (by rw [hsz]; simp only [List.length_cons]; omega)
      (by rw [hsz]; simp only [List.length_cons]; omega)
    rw [compileBytes_cons 43 T (by decide)] at p1 p2
    have hlen := compileBytes_length T.length T le_rfl
    refine ⟨43, T, hwf, hz, ?_, ?_, ?_, ?_⟩
    · apply holds_ofList_loadBytes _ _ _ p2
      rw [hsz]
      simp only [List.length_cons, List.length_append, List.length_nil]
      omega
    · rw [p1, List.length_cons]; omega
    · rw [hsz]; omega
    · intro line path time
      simp [dirOut]

end Argument

namespace Output

theorem out_string (o : Output) (acc str : List Nat) (h : o.Out acc)
    (hfit : (acc ++ str).length < outputSize) :
    (o.string str).1.Out (acc ++ str) ∧ (o.string str).2 = str.length := by
  obtain ⟨h1, h2, h3⟩ := h
  rw [List.length_append] at hfit
  have hlt : str.length < usub32 outputSize o.outputPos := by
    rw [h1]
    simp only [usub32, outputSize, bufferSize] at *
    omega
  unfold string
  dsimp only
  rw [if_pos hlt]
  refine ⟨⟨?_, ?_, ?_⟩, rfl⟩
  · dsimp only
    rw [h1, List.length_append]
    simp only [outputSize, bufferSize] at *
    omega
  · dsimp only
    rw [holds_append]
    refine ⟨holds_congr _ _ acc 0 ?_ h2, ?_⟩
    · intro i _ hi
      rw [storeBytes_apply, if_neg (by omega)]
    · have hh := holds_storeBytes o.outputBuf o.outputPos (str ++ [0])
      rw [holds_append] at hh
      rw [Nat.zero_add, ← h1]
      exact hh.1
  · rw [List.length_append]; exact hfit

theorem out_real (o : Output) (acc : List Nat) (val : Nat) (h : o.Out acc)
    (hfit : (acc ++ decimal val).length < outputSize) :
    (o.real val).1.Out (acc ++ decimal val) := by
  obtain ⟨h1, h2, h3⟩ := h
  rw [List.length_append] at hfit
  have hsz : usub32 outputSize o.outputPos = outputSize - acc.length := by
    rw [h1]
    simp only [usub32, outputSize, bufferSize] at *
    omega
  unfold real
  dsimp only
  have hne : ¬ (outputSize - acc.length = 0) := by
    simp only [outputSize, bufferSize] at *; omega
  have hge : ((decimal val).length : Int) ≥ 0 := Int.natCast_nonneg _
  have hle : (decimal val).length ≤ outputSize - acc.length - 1 := by
    simp only [outputSize, bufferSize] at *; omega
  rw [hsz, if_neg hne, if_pos hge, List.take_of_length_le hle]
  refine ⟨?_, ?_, ?_⟩
  · dsimp only
    rw [h1, List.length_append]
    simp only [outputSize, bufferSize] at *
    omega
  · dsimp only
    rw [holds_append]
    refine ⟨holds_congr _ _ acc 0 ?_ h2, ?_⟩
    · intro i _ hi
      rw [storeBytes_apply, if_neg (by omega)]
    · have hh := holds_storeBytes o.outputBuf o.outputPos (decimal val ++ [0])
      rw [holds_append] at hh
      rw [Nat.zero_add, ← h1]
      exact hh.1
  · rw [List.length_append]; exact hfit

theorem out_flush (o : Output) (acc : List Nat) (h : o.Out acc) : o.flush = acc := by
  obtain ⟨h1, h2, _⟩ := h
  unfold flush
  rw [h1]
  exact loadBytes_of_holds _ acc 0 h2

theorem out_dir (o : Output) (acc line path : List Nat) (time c : Nat) (h : o.Out acc)
    (hfit : (acc ++ dirOut line path time c).length < outputSize) :
    (if c = 43 then o else if c = 108 then (o.string line).1
      else if c = 112 then (o.string path).1
      else if c = 116 then (o.real time).1 else (o.string [37]).1).Out
      (acc ++ dirOut line path time c) := by
  unfold dirOut at *
  by_cases h1 : c = 43
  · simp only [if_pos h1, List.append_nil] at hfit ⊢
    exact h
  · by_cases h2 : c = 108
    · simp only [if_neg h1, if_pos h2] at hfit ⊢
      exact (out_string o acc line h hfit).1
    · by_cases h3 : c = 112
      · simp only [if_neg h1, if_neg h2, if_pos h3] at hfit ⊢
        exact (out_string o acc path h hfit).1
      · by_cases h4 : c = 116
        · simp only [if_neg h1, if_neg h2, if_neg h3, if_pos h4] at hfit ⊢
          exact out_real o acc time h hfit
        · simp only [if_neg h1, if_neg h2, if_neg h3, if_neg h4] at hfit ⊢
          exact (out_string o acc [37] h hfit).1

end Output

namespace PollFileDescriptor

theorem formatLoop_done (s : PollFileDescriptor) (line : List Nat) (fuel p : Nat) (o : Output)
    (h : ¬ p < s.option.formatEnd) : formatLoop s line fuel p o = o := by
  cases fuel with
  | zero => rfl
  | succ k => unfold formatLoop; rw [if_neg h]

/-- The loop of `printpfd` over a compiled format: from the format character
`c` at `q`, followed by the compiled form of the well-formed string `R`, it
adds what `c` stands for and the expansion of `R` to the output. -/
theorem formatLoop_render (s : PollFileDescriptor) (line : List Nat) : ∀ (n : Nat)
    (R : List Nat), R.length = n → WellFormed R → (∀ b ∈ R, b ≠ 0) →
    ∀ (q c : Nat) (o : Output) (acc : List Nat) (fuel : Nat),
      Holds (ofList s.option.format) q (c :: compileBytes R ++ [0]) →
      s.option.formatEnd = q + (compileBytes R).length + 1 →
      q + (compileBytes R).length + 1 < s.option.format.length →
      o.Out acc →
      (acc ++ dirOut line s.pathname s.readTime c ++
        expand line s.pathname s.readTime R).length < outputSize →
      (compileBytes R).length < fuel →
      (formatLoop s line fuel q o).Out
        (acc ++ dirOut line s.pathname s.readTime c ++ expand line s.pathname s.readTime R) := by
  intro n
  induction n using Nat.strong_induction_on with
  | _ n ih =>
    intro R hn hwf hz q c o acc fuel hh hend hin ho hfit hfuel
    obtain ⟨lit, hl, hcase⟩ := split_lit line s.pathname s.readTime R.length R le_rfl hwf hz
    obtain ⟨fuel, rfl⟩ : ∃ k, fuel = k + 1 := ⟨fuel - 1, by omega⟩
    have hq : q < s.option.formatEnd := by omega
    have hc : s.option.format.getD q 0 = c := hh.1
    have hrest : Holds (ofList s.option.format) (q + 1) (compileBytes R ++ [0]) := hh.2
    have hfit1 : (acc ++ dirOut line s.pathname s.readTime c).length < outputSize := by
      simp only [List.length_append] at *
      omega
    have ho1 := Output.out_dir o acc line s.pathname s.readTime c ho hfit1
    unfold formatLoop
    rw [if_pos hq]
    dsimp only
    rw [hc]
    rcases hcase with ⟨a1, a2⟩ | ⟨x, rest, b1, b2, b3, b4, b5⟩
    · rw [a1] at hrest hend hin
      rw [holds_append] at hrest
      have hlstr : lstr s.option.format (q + 1) = lit := by
        unfold lstr
        exact cstr_text _ lit _ (q + 1) hrest.1 hl hrest.2.1 (by omega)
      rw [hlstr, a2]
      have hfit2 : (acc ++ dirOut line s.pathname s.readTime c ++ lit).length < outputSize := by
        rw [a2] at hfit; exact hfit
      obtain ⟨r1, r2⟩ := Output.out_string _ _ lit ho1 hfit2
      rw [r2, formatLoop_done _ _ _ _ _ (by omega)]
      exact r1
    · rw [b4] at hrest hend hin hfuel
      rw [holds_append, holds_append] at hrest
      simp only [List.length_append, List.length_cons] at hend hin hfuel
      have hlstr : lstr s.option.format (q + 1) = lit := by
        unfold lstr
        exact cstr_text _ lit _ (q + 1) hrest.1.1 hl hrest.1.2.1 (by omega)
      rw [hlstr, b5]
      have hfit2 : (acc ++ dirOut line s.pathname s.readTime c ++ lit).length < outputSize := by
        rw [b5] at hfit
        simp only [List.length_append] at *
        omega
      obtain ⟨r1, r2⟩ := Output.out_string _ _ lit ho1 hfit2
      rw [r2]
      have hnext : Holds (ofList s.option.format) (q + (lit.length + 2))
          (x :: compileBytes rest ++ [0]) := by
        have e : q + 1 + lit.length + 1 = q + (lit.length + 2) := by omega
        have h2 := hrest.1.2.2
        rw [e] at h2
        refine ⟨h2.1, ?_⟩
        show Holds _ _ (compileBytes rest ++ [0])
        rw [holds_append]
        refine ⟨h2.2, ?_⟩
        have h3 := hrest.2
        have e2 : q + 1 + (lit ++ 0 :: x :: compileBytes rest).length =
            q + (lit.length + 2) + 1 + (compileBytes rest).length := by
          simp only [List.length_append, List.length_cons]
          omega
        rw [e2] at h3
        exact h3
      have := ih rest.length (by omega) rest rfl b2 b3 (q + (lit.length + 2)) x _
        (acc ++ dirOut line s.pathname s.readTime c ++ lit) fuel hnext (by omega) (by omega) r1
        (by
          rw [b5] at hfit
          simp only [List.length_append, List.append_assoc] at *
          omega)
        (by omega)
      simpa only [List.append_assoc] using this

/-- With a library that copies as `forward` does, the format argument `+T`,
where `T` has no NUL and every `%` of `T` is followed by `l`, `p`, `t` or `%`,
is compiled by `parseFormat` so that `printpfd`, for a line it prints, writes
`T` with each `%l` replaced by the line, each `%p` by the pathname, each `%t`
by `readTime` in decimal and each `%%` by `%`, provided that text is shorter
than `outputSize`. -/
theorem format_renders_forward (T : List Nat) (hwf : WellFormed T) (hT : ∀ b ∈ T, b ≠ 0)
    (s : PollFileDescriptor) (w : Sys) (startPtr : Nat)
    (hformat : s.option.format = (Argument.parseFormat forward (43 :: T ++ [0])).1)
    (hformatEnd : s.option.formatEnd = (Argument.parseFormat forward (43 :: T ++ [0])).2)
    (hprint : s.buffer startPtr ≠ 0 ∧
      (s.option.duplicates = true ∨ bstr s.buffer s.printPtr ≠ bstr s.buffer startPtr))
    (hfit : (expand (bstr s.buffer startPtr) s.pathname s.readTime T).length < outputSize) :
    (printpfd s w startPtr).2.stdout =
        w.stdout ++ [expand (bstr s.buffer startPtr) s.pathname s.readTime T] ∧
      (printpfd s w startPtr).2.lines = w.lines ++ [bstr s.buffer startPtr] ∧
      (printpfd s w startPtr).1.printPtr = startPtr := by
  obtain ⟨c, R, q1, q2, q3, q4, q5, q6⟩ := Argument.parseFormat_spec T hwf hT
  rw [← hformat] at q3 q5
  rw [← hformatEnd] at q4
  have hstart : w.output.start.Out [] := ⟨rfl, trivial, by decide⟩
  have h := formatLoop_render s (bstr s.buffer startPtr) R.length R rfl q1 q2 0 c
    w.output.start [] s.option.formatEnd q3 q4 q5 hstart
    (by rw [List.nil_append, q6]; exact hfit) (by omega)
  rw [List.nil_append, q6] at h
  unfold printpfd
  dsimp only
  rw [if_pos hprint]
  dsimp only
  rw [Output.out_flush _ _ h]
  exact ⟨rfl, rfl, rfl⟩

/-- The argument `+%p: %l\n` with the library `forward`: for the line `x` of
`/tmp/fifo` the program writes `/tmp/fifo: x\n`. -/
theorem format_renders_forward_example :
    WellFormed [37, 112, 58, 32, 37, 108, 10] ∧
      fifoX.pathname = [47, 116, 109, 112, 47, 102, 105, 102, 111] ∧
      bstr fifoX.buffer 1024 = [120] ∧
      (printpfd fifoX sys0 1024).2.stdout =
        [[47, 116, 109, 112, 47, 102, 105, 102, 111, 58, 32, 120, 10]] ∧
      (returned (fifoFormat, sys0, 0)
        (checkpfd fifoFormat sys0 1000 POLLIN (.data [120, 10]))).2.1.stdout =
        [[47, 116, 109, 112, 47, 102, 105, 102, 111, 58, 32, 120, 10]] := by
  have hwf : WellFormed [37, 112, 58, 32, 37, 108, 10] := by simp [WellFormed]
  have hx : bstr fifoX.buffer 1024 = [120] := by decide
  have h := (format_renders_forward [37, 112, 58, 32, 37, 108, 10] hwf (by decide) fifoX sys0 1024
    rfl rfl (by decide) (by rw [hx]; decide)).1
  rw [hx] at h
  exact ⟨hwf, rfl, hx, h, by decide⟩

/-- C9 fails on the code.  The argument `+%l%p\n` is well formed and should
make `printpfd` write the line, the pathname and a newline.  `parseFormat`
first moves the string down by two bytes with `strcpy( format, format+2 )`,
source and destination overlapping.  With the library `twoMoves` the format
is left as `l\np\n`: the `%` before `p` is gone before the loop looks for it,
and for the line `x` of `/tmp/fifo` the program writes `x\np\n`, where the
claim has `x/tmp/fifo\n`. -/
theorem shifted_format_garbled :
    WellFormed [37, 108, 37, 112, 10] ∧
      (Argument.parseFormat twoMoves [43, 37, 108, 37, 112, 10, 0]).1 =
        [108, 10, 112, 10, 0, 10, 0] ∧
      (Argument.parseFormat forward [43, 37, 108, 37, 112, 10, 0]).1 =
        [108, 0, 112, 10, 0, 10, 0] ∧
      bstr fifoShift.buffer 1024 = [120] ∧
      (printpfd fifoShift sys0 1024).2.stdout = [[120, 10, 112, 10]] ∧
      expand [120] fifoShift.pathname fifoShift.readTime [37, 108, 37, 112, 10] =
        [120, 47, 116, 109, 112, 47, 102, 105, 102, 111, 10] :=
  ⟨by simp [WellFormed], by decide, by decide, by decide, by decide, by decide⟩

end PollFileDescriptor

namespace LineState

end LineState

namespace PollFileDescriptor

theorem checkpfd_wakeTime (s : PollFileDescriptor) (w : Sys) (now revents : Nat)
    (rd : ReadResult) (r : PollFileDescriptor × Sys × Nat)
    (h : checkpfd s w now revents rd = .ok r) : r.2.2 = wakeTime r.1 now := by
  unfold checkpfd at h
  split at h
  · cases h
  · split at h
    · cases h
    · cases h; rfl
  · cases h; rfl

end PollFileDescriptor

namespace PollFileDescriptor

/-- The two ways a returning `checkpfd` goes: without the read branch (no event
for the descriptor, or a read that returns 0), or through the loop over the
lines and the buffer search. -/
theorem checkpfd_cases (s : PollFileDescriptor) (w : Sys) (now revents : Nat)
    (rd : ReadResult) (r : PollFileDescriptor × Sys × Nat)
    (h : checkpfd s w now revents rd = .ok r) :
    ((r.1 = hangUp (settleHeld s w now).1 revents ∨
        readpfd (hangUp (settleHeld s w now).1 revents) rd = .ok (r.1, 0)) ∧
      r.2.1 = (settleHeld s w now).2) ∨
    ∃ s3 c, c ≠ 0 ∧ readpfd (hangUp (settleHeld s w now).1 revents) rd = .ok (s3, c) ∧
      rotate (scanLines bufferSize { s3 with readTime := now } (settleHeld s w now).2
          (s3.bufferIndex * bufferSize) (nobounce s now)).2.1
        (scanLines bufferSize { s3 with readTime := now } (settleHeld s w now).2
          (s3.bufferIndex * bufferSize) (nobounce s now)).1
        (scanLines bufferSize { s3 with readTime := now } (settleHeld s w now).2
          (s3.bufferIndex * bufferSize) (nobounce s now)).2.2 = .ok r.1 ∧
      r.2.1 = (scanLines bufferSize { s3 with readTime := now } (settleHeld s w now).2
          (s3.bufferIndex * bufferSize) (nobounce s now)).2.1 := by
  unfold checkpfd readLines at h
  dsimp only at h
  by_cases hev : revents &&& (hangUp (settleHeld s w now).1 revents).events ≠ 0
  · rw [if_pos hev] at h
    cases hr : readpfd (hangUp (settleHeld s w now).1 revents) rd with
    | error e => rw [hr] at h; cases h
    | ok p =>
      obtain ⟨s3, c⟩ := p
      rw [hr] at h
      dsimp only at h
      by_cases hc : c ≠ 0
      · rw [if_pos hc] at h
        dsimp only at h
        right
        refine ⟨s3, c, hc, rfl, ?_⟩
        cases hrot : rotate (scanLines bufferSize { s3 with readTime := now }
            (settleHeld s w now).2 (s3.bufferIndex * bufferSize) (nobounce s now)).2.1
          (scanLines bufferSize { s3 with readTime := now }
            (settleHeld s w now).2 (s3.bufferIndex * bufferSize) (nobounce s now)).1
          (scanLines bufferSize { s3 with readTime := now } (settleHeld s w now).2
            (s3.bufferIndex * bufferSize) (nobounce s now)).2.2 with
        | error e => rw [hrot] at h; cases h
        | ok s6 =>
          rw [hrot] at h
          cases h
          exact ⟨rfl, rfl⟩
      · rw [if_neg hc] at h
        cases h
        left
        have : c = 0 := by omega
        subst this
        exact ⟨Or.inr rfl, rfl⟩
  · rw [if_neg hev] at h
    cases h
    left
    exact ⟨Or.inl rfl, rfl⟩

theorem readpfd_fields (m : PollFileDescriptor) (rd : ReadResult) (t : PollFileDescriptor)
    (c : Nat) (h : readpfd m rd = .ok (t, c)) :
    t.heldPtr = m.heldPtr ∧ t.option = m.option ∧ t.readTime = m.readTime ∧
      t.printPtr = m.printPtr ∧ t.fd = m.fd ∧ t.bufferIndex = m.bufferIndex := by
  unfold readpfd at h
  dsimp only at h
  split at h
  · simp only [Except.ok.injEq, Prod.mk.injEq] at h
    rw [← h.1]
    exact ⟨rfl, rfl, rfl, rfl, rfl, rfl⟩
  · simp at h
  · split at h <;>
    · simp only [Except.ok.injEq, Prod.mk.injEq] at h
      rw [← h.1]
      exact ⟨rfl, rfl, rfl, rfl, rfl, rfl⟩

theorem hangUp_keeps (s : PollFileDescriptor) (revents : Nat) :
    (hangUp s revents).heldPtr = s.heldPtr ∧ (hangUp s revents).readTime = s.readTime ∧
      (hangUp s revents).printPtr = s.printPtr ∧ (hangUp s revents).readPtr = s.readPtr := by
  unfold hangUp
  split <;> exact ⟨rfl, rfl, rfl, rfl⟩

theorem printpfd_keeps (s : PollFileDescriptor) (w : Sys) (p : Nat) :
    (printpfd s w p).1.heldPtr = s.heldPtr ∧ (printpfd s w p).1.option = s.option ∧
      (printpfd s w p).1.readTime = s.readTime := by
  rcases printpfd_fst s w p with e | e <;> rw [e] <;> exact ⟨rfl, rfl, rfl⟩

/-- The head of `checkpfd`: while bouncing nothing happens; once settled no
line is held any more. -/
theorem settleHeld_cases (s : PollFileDescriptor) (w : Sys) (now : Nat) :
    (settleHeld s w now).1.option = s.option ∧
      (settleHeld s w now).1.readTime = s.readTime ∧
      (nobounce s now = false → settleHeld s w now = (s, w)) ∧
      (nobounce s now = true → (settleHeld s w now).1.heldPtr = none) := by
  unfold settleHeld
  cases hh : s.heldPtr with
  | none => exact ⟨rfl, rfl, fun _ => rfl, fun _ => hh⟩
  | some p =>
    dsimp only
    by_cases hb : nobounce s now = true
    · rw [if_pos hb]
      refine ⟨(printpfd_keeps s w p).2.1, (printpfd_keeps s w p).2.2, ?_, fun _ => rfl⟩
      intro h
      rw [hb] at h
      cases h
    · rw [if_neg hb]
      exact ⟨rfl, rfl, fun _ => rfl, fun h => absurd h hb⟩

/-- The loop over the lines keeps `option` and `readTime`, and it changes
`heldPtr` only when it starts bouncing or a debounce is set. -/
theorem scanLines_hold : ∀ (fuel : Nat) (s : PollFileDescriptor) (w : Sys) (sp : Nat)
    (nb : Bool), (scanLines fuel s w sp nb).1.option = s.option ∧
      (scanLines fuel s w sp nb).1.readTime = s.readTime ∧
      ((scanLines fuel s w sp nb).1.heldPtr = s.heldPtr ∨ nb = false ∨
        s.option.debounce ≠ 0) := by
  intro fuel
  induction fuel with
  | zero => intro s w sp nb; exact ⟨rfl, rfl, Or.inl rfl⟩
  | succ n ih =>
    intro s w sp nb
    unfold scanLines
    cases strpbrk s.buffer s.option.delimiters (bufferCount * bufferSize - sp) sp with
    | none => exact ⟨rfl, rfl, Or.inl rfl⟩
    | some eol =>
      dsimp only
      cases nb with
      | false =>
        simp only [Bool.false_eq_true, if_false]
        obtain ⟨i1, i2, _⟩ := ih { s with buffer := store s.buffer eol 0, heldPtr := some sp } w
          (eol + 1) (s.option.debounce == 0)
        exact ⟨i1, i2, Or.inr (Or.inl trivial)⟩
      | true =>
        simp only [if_true]
        obtain ⟨k1, k2, k3⟩ := printpfd_keeps { s with buffer := store s.buffer eol 0 } w sp
        obtain ⟨i1, i2, i3⟩ := ih (printpfd { s with buffer := store s.buffer eol 0 } w sp).1
          (printpfd { s with buffer := store s.buffer eol 0 } w sp).2
          (eol + 1) (s.option.debounce == 0)
        rw [k2] at i1 i3
        rw [k3] at i2
        rw [k1] at i3
        refine ⟨i1, i2, ?_⟩
        rcases i3 with i3 | i3 | i3
        · exact Or.inl i3
        · right; right
          intro h0
          rw [h0] at i3
          cases i3
        · exact Or.inr (Or.inr i3)

/-- On return of `checkpfd` a line is held only if the descriptor was bouncing
and did not read (the time of the last read is as before), or a debounce is
set and the descriptor has just read. -/
theorem checkpfd_held (s : PollFileDescriptor) (w : Sys) (now revents : Nat)
    (rd : ReadResult) (r : PollFileDescriptor × Sys × Nat)
    (h : checkpfd s w now revents rd = .ok r) :
    r.1.option = s.option ∧ (r.1.readTime = s.readTime ∨ r.1.readTime = now) ∧
      (r.1.heldPtr ≠ none →
        (r.1.readTime = s.readTime ∧ nobounce s now = false) ∨
        (r.1.readTime = now ∧ s.option.debounce ≠ 0)) := by
  obtain ⟨c1, c2, c3, c4⟩ := settleHeld_cases s w now
  obtain ⟨g1, g2, _, _⟩ := hangUp_keeps (settleHeld s w now).1 revents
  have g3 := (hangUp_fields (settleHeld s w now).1 revents).2.2.1
  have hdeb : nobounce s now = false → s.option.debounce ≠ 0 := by
    intro hb h0
    simp [nobounce, h0] at hb
  have hbool : nobounce s now = false ∨ nobounce s now = true := by
    cases nobounce s now <;> simp
  rcases checkpfd_cases s w now revents rd r h with ⟨h1, _⟩ | ⟨s3, c, _, h1, h2, _⟩
  · have key : r.1.option = s.option ∧ r.1.readTime = s.readTime ∧
        r.1.heldPtr = (settleHeld s w now).1.heldPtr := by
      rcases h1 with h1 | h1
      · rw [h1]; exact ⟨g3.trans c1, g2.trans c2, g1⟩
      · obtain ⟨f1, f2, f3, _⟩ := readpfd_fields _ rd _ _ h1
        exact ⟨f2.trans (g3.trans c1), f3.trans (g2.trans c2), f1.trans g1⟩
    refine ⟨key.1, Or.inl key.2.1, ?_⟩
    intro hne
    left
    refine ⟨key.2.1, ?_⟩
    rcases hbool with hb | hb
    · exact hb
    · rw [key.2.2, c4 hb] at hne
      exact absurd rfl hne
  · obtain ⟨f1, f2, f3, _⟩ := readpfd_fields _ rd _ _ h1
    obtain ⟨q1, q2, q3, _⟩ := rotate_fields _ _ _ _ h2
    obtain ⟨p1, p2, p3⟩ := scanLines_hold bufferSize { s3 with readTime := now }
      (settleHeld s w now).2 (s3.bufferIndex * bufferSize) (nobounce s now)
    have hopt : r.1.option = s.option := q2.trans (p1.trans (f2.trans (g3.trans c1)))
    have htime : r.1.readTime = now := q3.trans p2
    refine ⟨hopt, Or.inr htime, ?_⟩
    intro hne
    right
    refine ⟨htime, ?_⟩
    rcases p3 with p3 | p3 | p3
    · rcases hbool with hb | hb
      · exact hdeb hb
      · have : r.1.heldPtr = none := by
          rw [q1, p3]
          show s3.heldPtr = none
          rw [f1, g1, c4 hb]
        exact absurd this hne
    · exact hdeb p3
    · have : s3.option = s.option := f2.trans (g3.trans c1)
      intro h0
      apply p3
      show s3.option.debounce = 0
      rw [this]; exact h0

/-- C12: `checkpfd( now )` returns `FOREVER` when no line is held on return and
else `debounce - (now - readTime)` in 64 bit unsigned arithmetic; when a line
is held on return, `now - readTime` is below the debounce, so that the
subtraction does not wrap and the returned time is from 1 to the debounce.
With `readTime` not after `now` the differences are the plain ones. -/
theorem wake_time_range (s : PollFileDescriptor) (w : Sys) (now revents : Nat)
    (rd : ReadResult) (r : PollFileDescriptor × Sys × Nat)
    (hD : s.option.debounce < 2 ^ 64)
    (h : checkpfd s w now revents rd = .ok r) :
    (r.1.heldPtr = none → r.2.2 = FOREVER) ∧
      (r.1.heldPtr ≠ none →
        r.2.2 = usub64 r.1.option.debounce (usub64 now r.1.readTime) ∧
        usub64 now r.1.readTime < r.1.option.debounce ∧
        r.2.2 = r.1.option.debounce - usub64 now r.1.readTime ∧
        1 ≤ r.2.2 ∧ r.2.2 ≤ r.1.option.debounce ∧
        (s.readTime ≤ now → now < 2 ^ 64 →
          r.1.readTime ≤ now ∧ now - r.1.readTime < r.1.option.debounce ∧
          r.2.2 = r.1.option.debounce - (now - r.1.readTime))) := by
  have hw := checkpfd_wakeTime s w now revents rd r h
  obtain ⟨k1, k2, k3⟩ := checkpfd_held s w now revents rd r h
  constructor
  · intro hn
    rw [hw]
    unfold wakeTime
    rw [hn]
    rfl
  · intro hne
    have hsome : r.1.heldPtr.isSome = true := by
      cases hp : r.1.heldPtr with
      | none => exact absurd hp hne
      | some _ => rfl
    have e1 : r.2.2 = usub64 r.1.option.debounce (usub64 now r.1.readTime) := by
      rw [hw]
      unfold wakeTime
      rw [if_pos hsome]
    have hlt : usub64 now r.1.readTime < r.1.option.debounce := by
      rw [k1]
      rcases k3 hne with ⟨a1, a2⟩ | ⟨a1, a2⟩
      · rw [a1]
        simpa [nobounce] using a2
      · rw [a1]
        have : usub64 now now = 0 := by unfold usub64; omega
        omega
    have hx : usub64 now r.1.readTime < 2 ^ 64 := by unfold usub64; omega
    have e2 : usub64 r.1.option.debounce (usub64 now r.1.readTime) =
        r.1.option.debounce - usub64 now r.1.readTime := by
      rw [k1] at hlt ⊢
      generalize usub64 now r.1.readTime = x at hlt hx ⊢
      unfold usub64
      omega
    refine ⟨e1, hlt, e1.trans e2, ?_, ?_, ?_⟩
    · rw [e1, e2]; omega
    · rw [e1, e2]; omega
    · intro hmono hnow
      have hle : r.1.readTime ≤ now := by
        rcases k2 with k2 | k2
        · rw [k2]; exact hmono
        · rw [k2]
      have e3 := LineState.usub64_of_le now r.1.readTime hle hnow
      rw [e3] at hlt e2
      exact ⟨hle, hlt, e1.trans (by rw [e3]; exact e2)⟩

theorem wake_time_range_witness :
    fifo100.option.debounce < 2 ^ 64 ∧
      checkpfd fifo100 sys0 50 POLLIN (.data [97, 10]) =
        .ok (returned (fifo100, sys0, 0) (checkpfd fifo100 sys0 50 POLLIN (.data [97, 10]))) ∧
      (returned (fifo100, sys0, 0)
        (checkpfd fifo100 sys0 50 POLLIN (.data [97, 10]))).1.heldPtr ≠ none ∧
      (returned (fifo100, sys0, 0)
        (checkpfd fifo100 sys0 50 POLLIN (.data [97, 10]))).2.2 = 100 ∧
      1 ≤ (returned (fifo100, sys0, 0)
        (checkpfd fifo100 sys0 50 POLLIN (.data [97, 10]))).2.2 := by
  have hne : (returned (fifo100, sys0, 0)
      (checkpfd fifo100 sys0 50 POLLIN (.data [97, 10]))).1.heldPtr ≠ none := by decide
  have h := (wake_time_range fifo100 sys0 50 POLLIN (.data [97, 10]) _ (by decide) rfl).2 hne
  exact ⟨by decide, rfl, hne, by decide, h.2.2.2.1⟩

end PollFileDescriptor

namespace PollFileDescriptor

/-- C14 (the code where it fails): when `revents` holds `POLLHUP`, `checkpfd` sets
the descriptor to -1 before it looks for data.  If `revents` also holds an
event the descriptor polls for, the `read` that follows is made on descriptor
-1 and fails, and `checkpfd` takes the exit of `readpfd`, whatever the file
had to offer.  Only with no such event does it return, with descriptor -1. -/
theorem hangup_with_event_exits (s : PollFileDescriptor) (w : Sys) (now revents : Nat)
    (rd : ReadResult) (hup : revents &&& POLLHUP ≠ 0) :
    (revents &&& s.events ≠ 0 → checkpfd s w now revents rd = .error Fatal.read) ∧
      (revents &&& s.events = 0 →
        ∃ r, checkpfd s w now revents rd = .ok r ∧ r.1.fd = -1 ∧
          r.2.1 = (settleHeld s w now).2) := by
  have hfd : (hangUp (settleHeld s w now).1 revents).fd = -1 := by
    unfold hangUp
    rw [if_pos hup]
  have hsettle : (settleHeld s w now).1.events = s.events := by
    unfold settleHeld
    cases s.heldPtr with
    | none => rfl
    | some p =>
      dsimp only
      split
      · rcases printpfd_fst s w p with e | e <;> rw [e]
      · rfl
  have hevs : (hangUp (settleHeld s w now).1 revents).events = s.events := by
    rw [(hangUp_fields _ revents).2.2.2, hsettle]
  constructor
  · intro hev
    have hread : readpfd (hangUp (settleHeld s w now).1 revents) rd = .error Fatal.read := by
      unfold readpfd
      dsimp only
      rw [hfd]
      rfl
    unfold checkpfd readLines
    dsimp only
    rw [hevs, if_pos hev, hread]
  · intro hev
    refine ⟨(hangUp (settleHeld s w now).1 revents, (settleHeld s w now).2,
      wakeTime (hangUp (settleHeld s w now).1 revents) now), ?_, hfd, rfl⟩
    unfold checkpfd readLines
    dsimp only
    rw [hevs, if_neg (by rw [hev]; exact fun h => h rfl)]

theorem hangup_with_event_exits_witness :
    (POLLHUP ||| POLLIN) &&& POLLHUP ≠ 0 ∧ (POLLHUP ||| POLLIN) &&& fifo0.events ≠ 0 ∧
      0 ≤ fifo0.fd ∧
      checkpfd fifo0 sys0 1000 (POLLHUP ||| POLLIN) (.data [97, 10]) = .error Fatal.read :=
  ⟨by decide, by decide, by decide,
    (hangup_with_event_exits fifo0 sys0 1000 (POLLHUP ||| POLLIN) (.data [97, 10])
      (by decide)).1 (by decide)⟩

/-- C15: `statpfd` gives a regular file read-only access, the event `POLLPRI`
and a reseek; a character device read-only access without blocking, `POLLIN`
and no reseek; a named pipe read and write access without blocking, `POLLIN`
and no reseek; every other kind and a failed `stat` make it exit.  So reseek
is set exactly for a regular file, and `openpfd` takes modes, events and
reseek from it. -/
theorem statpfd_classifies :
    statpfd (some FileKind.regular) = .ok (O_RDONLY, POLLPRI, true) ∧
      statpfd (some FileKind.character) = .ok (O_RDONLY ||| O_NONBLOCK, POLLIN, false) ∧
      statpfd (some FileKind.fifo) = .ok (O_RDWR ||| O_NONBLOCK, POLLIN, false) ∧
      statpfd (some FileKind.other) = .error Fatal.invalidDevice ∧
      statpfd none = .error Fatal.stat ∧
      (∀ (kind : Option FileKind) (r : Nat × Nat × Bool), statpfd kind = .ok r →
        (r.2.2 = true ↔ kind = some FileKind.regular)) ∧
      (∀ kind : Option FileKind, (∃ e, statpfd kind = .error e) ↔
        (kind ≠ some FileKind.regular ∧ kind ≠ some FileKind.character ∧
          kind ≠ some FileKind.fifo)) ∧
      (∀ (fname : List Nat) (o : PFDOption) (kind : Option FileKind) (opened : Int)
        (s : PollFileDescriptor), openpfd fname o kind opened = .ok s →
        statpfd kind = .ok (s.openMode, s.pollEvents, s.reseek) ∧ s.events = s.pollEvents ∧
          (s.reseek = true ↔ kind = some FileKind.regular)) := by
  have h6 : ∀ (kind : Option FileKind) (r : Nat × Nat × Bool), statpfd kind = .ok r →
      (r.2.2 = true ↔ kind = some FileKind.regular) := by
    intro kind r h
    rcases kind with _ | k
    · cases h
    · cases k <;> simp only [statpfd] at h <;> cases h <;> simp
  refine ⟨rfl, rfl, rfl, rfl, rfl, h6, ?_, ?_⟩
  · intro kind
    rcases kind with _ | k
    · simp [statpfd]
    · cases k <;> simp [statpfd]
  · intro fname o kind opened s h
    unfold openpfd at h
    cases hk : statpfd kind with
    | error e => rw [hk] at h; cases h
    | ok r =>
      obtain ⟨mode, ev, rs⟩ := r
      rw [hk] at h
      dsimp only at h
      split at h
      · cases h
      · cases h
        exact ⟨rfl, rfl, h6 kind _ hk⟩

end PollFileDescriptor

namespace PollFileDescriptor

/-- With a debounce set, the loop over the lines prints nothing once it holds
lines instead of printing them. -/
theorem scanLines_quiet : ∀ (fuel : Nat) (s : PollFileDescriptor) (w : Sys) (sp : Nat),
    s.option.debounce ≠ 0 →
    (scanLines fuel s w sp false).2.1 = w ∧
      (scanLines fuel s w sp false).1.printPtr = s.printPtr := by
  intro fuel
  induction fuel with
  | zero => intro s w sp _; exact ⟨rfl, rfl⟩
  | succ n ih =>
    intro s w sp hdeb
    unfold scanLines
    cases strpbrk s.buffer s.option.delimiters (bufferCount * bufferSize - sp) sp with
    | none => exact ⟨rfl, rfl⟩
    | some eol =>
      dsimp only
      have hb : (s.option.debounce == 0) = false := by simpa using hdeb
      rw [hb]
      simp only [Bool.false_eq_true, if_false]
      exact ih { s with buffer := store s.buffer eol 0, heldPtr := some sp } w (eol + 1) hdeb

/-- A wake of a bouncing descriptor prints nothing. -/
theorem checkpfd_quiet (s : PollFileDescriptor) (w : Sys) (now revents : Nat)
    (rd : ReadResult) (r : PollFileDescriptor × Sys × Nat)
    (h : checkpfd s w now revents rd = .ok r) (hnb : nobounce s now = false) :
    r.2.1 = w ∧ r.1.printPtr = s.printPtr := by
  have hdeb : s.option.debounce ≠ 0 := by
    intro h0
    simp [nobounce, h0] at hnb
  have hset := (settleHeld_cases s w now).2.2.1 hnb
  have hhp := (hangUp_keeps s revents).2.2.1
  rcases checkpfd_cases s w now revents rd r h with ⟨h1, h2⟩ | ⟨s3, c, _, h1, h2, h3⟩
  · rw [hset] at h1 h2
    refine ⟨h2, ?_⟩
    rcases h1 with h1 | h1
    · rw [h1]; exact hhp
    · rw [(readpfd_fields _ rd _ _ h1).2.2.2.1]; exact hhp
  · rw [hset, hnb] at h2 h3
    rw [hset] at h1
    obtain ⟨f1, f2, f3, f4, _⟩ := readpfd_fields _ rd _ _ h1
    have hopt : ({ s3 with readTime := now } : PollFileDescriptor).option.debounce ≠ 0 := by
      show s3.option.debounce ≠ 0
      rw [f2, (hangUp_fields s revents).2.2.1]
      exact hdeb
    obtain ⟨q1, q2⟩ := scanLines_quiet bufferSize { s3 with readTime := now } w
      (s3.bufferIndex * bufferSize) hopt
    refine ⟨h3.trans q1, ?_⟩
    rw [(rotate_fields _ _ _ _ h2).2.2.2.1, q2]
    show s3.printPtr = s.printPtr
    rw [f4]; exact hhp

/-- C17: with a debounce set and a clock that does not run backwards, a wake of
`checkpfd( now )` less than the debounce after the last read prints nothing:
the output and the printed lines are as before, and so is `printPtr`.  So
every line printed is printed in a wake with `now - readTime` at least the
debounce.  At such a wake a held line goes to `printpfd` first and is no
longer held; a line held on return is one this wake has read. -/
theorem no_print_while_bouncing (s : PollFileDescriptor) (w : Sys) (now revents : Nat)
    (rd : ReadResult) (r : PollFileDescriptor × Sys × Nat)
    (hmono : s.readTime ≤ now) (hnow : now < 2 ^ 64)
    (h : checkpfd s w now revents rd = .ok r) :
    (now - s.readTime < s.option.debounce → r.2.1 = w ∧ r.1.printPtr = s.printPtr) ∧
      (r.2.1 ≠ w → s.option.debounce ≤ now - s.readTime) ∧
      (∀ hp, s.heldPtr = some hp → s.option.debounce ≤ now - s.readTime →
        settleHeld s w now = ({ (printpfd s w hp).1 with heldPtr := none }, (printpfd s w hp).2) ∧
        Ext (printpfd s w hp).2 r.2.1 ∧
        (r.1.heldPtr ≠ none → r.1.readTime = now ∧ s.option.debounce ≠ 0)) := by
  have hsub : usub64 now s.readTime = now - s.readTime :=
    LineState.usub64_of_le now s.readTime hmono hnow
  have hquiet : now - s.readTime < s.option.debounce →
      r.2.1 = w ∧ r.1.printPtr = s.printPtr := by
    intro hb
    apply checkpfd_quiet s w now revents rd r h
    simp only [nobounce, hsub, decide_eq_false_iff_not]
    omega
  refine ⟨hquiet, ?_, ?_⟩
  · intro hne
    by_contra hlt
    exact hne (hquiet (by omega)).1
  · intro hp hheld hset
    have hnb : nobounce s now = true := by
      simp only [nobounce, hsub, decide_eq_true_eq]
      omega
    have e : settleHeld s w now =
        ({ (printpfd s w hp).1 with heldPtr := none }, (printpfd s w hp).2) := by
      unfold settleHeld
      rw [hheld]
      dsimp only
      rw [if_pos hnb]
    refine ⟨e, ?_, ?_⟩
    · rcases checkpfd_cases s w now revents rd r h with ⟨_, h2⟩ | ⟨s3, c, _, _, _, h3⟩
      · rw [h2, e]; exact ext_refl _
      · rw [h3, e]; exact scanLines_ext _ _ _ _ _
    · intro hne
      rcases (checkpfd_held s w now revents rd r h).2.2 hne with ⟨_, a2⟩ | a
      · rw [hnb] at a2; cases a2
      · exact a

theorem no_print_while_bouncing_witness :
    fifo100.readTime ≤ 50 ∧ 50 - fifo100.readTime < fifo100.option.debounce ∧
      checkpfd fifo100 sys0 50 POLLIN (.data [97, 10]) =
        .ok (returned (fifo100, sys0, 0) (checkpfd fifo100 sys0 50 POLLIN (.data [97, 10]))) ∧
      (returned (fifo100, sys0, 0)
        (checkpfd fifo100 sys0 50 POLLIN (.data [97, 10]))).2.1 = sys0 ∧
      (returned (fifo100, sys0, 0)
        (checkpfd fifo100 sys0 50 POLLIN (.data [97, 10]))).1.printPtr = fifo100.printPtr :=
  ⟨by decide, by decide, rfl,
    (no_print_while_bouncing fifo100 sys0 50 POLLIN (.data [97, 10]) _ (by decide) (by decide)
      rfl).1 (by decide)⟩

end PollFileDescriptor

namespace LineState

end LineState

namespace PollFileDescriptor

end PollFileDescriptor

namespace PollFileDescriptor

theorem lines_of_view (s : PollFileDescriptor) (w : Sys) (v : LineState) (P : List Nat)
    (h : view s w = { v with pend := P }) : w.lines = v.lines ∧ (view s w).pend = P :=
  ⟨congrArg LineState.lines h, congrArg LineState.pend h⟩

set_option maxRecDepth 100000 in
/-- C18 fails on the code.  The descriptor `fifo0` (debounce 0, duplicates
allowed, at the start of a line) reads a newline and 100 letters: one empty
line is finished, nothing is printed, so the buffer search selects the active
segment again and `strncpy` moves the 100 letters down by one byte, from
`base+1` to `base`, source and destination overlapping.  What the segment holds
after the wake is the choice of the library (`garble`), not the unfinished
line, and the next read, of a newline, prints that text as the line. -/
theorem unfinished_line_garbled (w : Sys) :
    ∃ r, checkpfd fifo0 w 1000 POLLIN (.data (10 :: letters)) = .ok r ∧
      r.2.1.lines = w.lines ∧ r.1.bufferIndex = fifo0.bufferIndex ∧
      r.1.readPtr = r.1.bufferIndex * bufferSize + 100 ∧
      loadBytes r.1.buffer (r.1.bufferIndex * bufferSize) 100 =
        garble (w.overlap letters 1024 1025) letters ∧
      ∃ r2, checkpfd r.1 r.2.1 1001 POLLIN (.data [10]) = .ok r2 ∧
        r2.2.1.lines = w.lines ++ [garble (w.overlap letters 1024 1025) letters] := by
  have hinv := reachable_inv fifo0 fifo0_reachable
  have hv : (view fifo0 w).pend = [] := view_start fifo0 w rfl
  have hh : (view fifo0 w).held = none := rfl
  obtain ⟨r, P, c1, c2, c3, c4, c5, c6, c7, c8, c9, _, c11, c12, c13⟩ :=
    checkpfd_wake fifo0 w 1000 POLLIN (10 :: letters) hinv (by decide) (by decide) (by decide)
      (by decide)
  obtain ⟨r1, r2, r3⟩ := LineState.read_stream fifo0.option rfl rfl (view fifo0 w) 1000
    (10 :: letters) hh (by rw [hv]; intro b hb; cases hb) (by rw [hv]; decide)
  have hsplit : splitLines fifo0.option.delimiters (10 :: letters) = ([[]], letters) := by
    decide!
  rw [hv, List.nil_append, hsplit] at r2 r3
  have htext : LineState.text fifo0.option (view fifo0 w) (10 :: letters) = 10 :: letters := by
    rw [LineState.text_nofill _ _ _ (by rw [hv]; decide), hv]
    rfl
  have hsettle : LineState.settle fifo0.option (view fifo0 w) 1000 = view fifo0 w := by
    unfold LineState.settle
    rw [hh]
  have hlines : (LineState.read fifo0.option (view fifo0 w) 1000 (10 :: letters)).lines =
      (view fifo0 w).lines := by
    rw [r3]
    simp
  have hheld : r.1.heldPtr = none :=
    checkpfd_no_hold fifo0 w 1000 POLLIN _ r rfl rfl c1
  have hpp : r.1.printPtr = fifo0.printPtr := c12 (by rw [hlines, hsettle])
  have hidx : r.1.bufferIndex = fifo0.bufferIndex := by
    rcases c13 with e | e
    · exact e
    · rw [hpp, hheld] at e
      have e2 : findBuffer (bufferOf (some fifo0.printPtr) ||| bufferOf none) bufferCount 0 =
          .ok fifo0.bufferIndex := rfl
      rw [e2] at e
      simp only [Except.ok.injEq] at e
      exact e.symm
  have hP : P = garble (w.overlap letters 1024 1025) letters := by
    rw [c9, htext, r2, hidx]
    unfold copied
    rw [if_pos (by decide)]
    rfl
  have hpend : (view r.1 r.2.1).pend = garble (w.overlap letters 1024 1025) letters :=
    (lines_of_view _ _ _ _ c2).2.trans hP
  have hlen : r.1.readPtr - r.1.bufferIndex * bufferSize = 100 := by
    have := congrArg List.length hpend
    rw [garble_length] at this
    simp only [view, loadBytes_length] at this
    rw [this]
    decide
  have hload : loadBytes r.1.buffer (r.1.bufferIndex * bufferSize) 100 =
      garble (w.overlap letters 1024 1025) letters := by
    rw [← hlen]
    exact hpend
  have hl1 : r.2.1.lines = w.lines := (lines_of_view _ _ _ _ c2).1.trans hlines
  have hplain : ∀ b ∈ (view r.1 r.2.1).pend, b ∉ r.1.option.delimiters := by
    rw [hpend, c4]
    intro b hb
    have hm := garble_mem _ _ b hb
    have hall : ∀ b ∈ letters, b ∉ fifo0.option.delimiters := by decide
    exact hall b hm
  have hpz : ∀ b ∈ (view r.1 r.2.1).pend, b ≠ 0 := by
    rw [hpend]
    intro b hb
    have hm := garble_mem _ _ b hb
    have hall : ∀ b ∈ letters, b ≠ 0 := by decide
    exact hall b hm
  have hh2 : (view r.1 r.2.1).held = none := by
    simp only [view, hheld, Option.map_none']
  have hpl : (view r.1 r.2.1).pend.length = 100 := by
    rw [hpend, garble_length]
    decide
  obtain ⟨q, Q, d1, d2, _⟩ := checkpfd_wake r.1 r.2.1 1001 POLLIN [10] c3
    (by rw [c5]; decide) (by decide) (by rw [c6]; decide)
    (fun b hb => by
      have := List.mem_of_mem_take hb
      simp only [List.mem_singleton] at this
      omega)
  obtain ⟨_, _, s3⟩ := LineState.read_stream r.1.option (by rw [c4]; rfl) (by rw [c4]; rfl)
    (view r.1 r.2.1) 1001 [10] hh2 hplain (by rw [hpl]; decide)
  have hsp : splitLines r.1.option.delimiters ((view r.1 r.2.1).pend ++ [10]) =
      ([(view r.1 r.2.1).pend], []) := by
    have := splitLines_line r.1.option.delimiters 10 [] (by rw [c4]; decide)
      (view r.1 r.2.1).pend hplain
    simpa [splitLines] using this
  rw [hsp] at s3
  have hne : (view r.1 r.2.1).pend ≠ [] := by
    intro h
    rw [h] at hpl
    cases hpl
  refine ⟨r, c1, hl1, hidx, ?_, hload, q, d1, ?_⟩
  · have := c3.lo
    omega
  · rw [(lines_of_view _ _ _ _ d2).1, s3]
    simp only [List.filter_cons, List.filter_nil, hne, ne_eq, not_false_eq_true,
      decide_True, if_true]
    rw [hpend]
    show r.2.1.lines ++ _ = _
    rw [hl1]

set_option maxRecDepth 100000 in
/-- The same wakes with the library `backward`, which copies from the last
byte to the first: the segment holds 100 times the last letter, `v`, and that
is the line printed, where the stream holds the line of the 100 letters. -/
theorem unfinished_line_garbled_witness :
    ∃ r, checkpfd fifo0 sysBack 1000 POLLIN (.data (10 :: letters)) = .ok r ∧
      r.2.1.lines = [] ∧
      loadBytes r.1.buffer (r.1.bufferIndex * bufferSize) 100 = List.replicate 100 118 ∧
      List.replicate 100 118 ≠ letters ∧
      ∃ r2, checkpfd r.1 r.2.1 1001 POLLIN (.data [10]) = .ok r2 ∧
        r2.2.1.lines = [List.replicate 100 118] := by
  obtain ⟨r, h1, h2, _, _, h5, r2, h6, h7⟩ := unfinished_line_garbled sysBack
  have hg : garble (sysBack.overlap letters 1024 1025) letters = List.replicate 100 118 := by
    decide!
  rw [hg] at h5 h7
  exact ⟨r, h1, h2, h5, by decide!, r2, h6, h7⟩

end PollFileDescriptor

theorem cstr_prefix_ne (m : Mem) : ∀ (limit p k : Nat), k < (cstr m limit p).length →
    m (p + k) ≠ 0 := by
  intro limit
  induction limit with
  | zero => intro p k h; simp [cstr] at h
  | succ n ih =>
    intro p k h
    unfold cstr at h
    by_cases h0 : m p = 0
    · rw [if_pos h0] at h
      simp at h
    · rw [if_neg h0] at h
      cases k with
      | zero => exact h0
      | succ j =>
        simp only [List.length_cons] at h
        have := ih (p + 1) j (by omega)
        rw [show p + 1 + j = p + (j + 1) by omega] at this
        exact this

namespace PollFileDescriptor

/-- A read that returns data writes only from `readPtr` to the last byte of the
active segment, and ends with the NUL at `readPtr`. -/
theorem readpfd_bounds (m : PollFileDescriptor) (hinv : Inv m)
    (hd : m.option.delimiters.headD 0 ≠ 0) (bytes : List Nat) (s3 : PollFileDescriptor)
    (c : Nat) (h : readpfd m (.data bytes) = .ok (s3, c)) :
    m.readPtr ≤ s3.readPtr ∧
      s3.readPtr ≤ m.bufferIndex * bufferSize + (bufferSize - 1) ∧
      s3.buffer s3.readPtr = 0 ∧
      (∀ i, i < m.readPtr ∨ s3.readPtr < i → s3.buffer i = m.buffer i) ∧
      (s3.readPtr = m.bufferIndex * bufferSize + (bufferSize - 1) →
        s3.buffer (m.bufferIndex * bufferSize + (bufferSize - 2)) =
          m.option.delimiters.headD 0 ∧ c = s3.readPtr - m.readPtr) ∧
      (s3.readPtr ≠ m.bufferIndex * bufferSize + (bufferSize - 1) →
        s3.readPtr ≤ m.bufferIndex * bufferSize + (bufferSize - 3) ∧
          c = s3.readPtr - m.readPtr) := by
  have hlo := hinv.lo
  have hhi := hinv.hiD hd
  have hcount : (bufferSize - 2 + m.bufferIndex * bufferSize +
      (2 ^ 64 - m.readPtr % 2 ^ 64)) % 2 ^ 64 =
      bufferSize - 2 - (m.readPtr - m.bufferIndex * bufferSize) := by
    have := hinv.idx
    simp only [bufferSize, bufferCount] at *; omega
  unfold readpfd at h
  dsimp only at h
  rw [hcount] at h
  split at h
  · rename_i heq
    split at heq <;> cases heq
  · cases h
  · rename_i b heq
    have hb : b = bytes := by
      split at heq
      · cases heq
      · cases heq; rfl
    subst hb
    have hlen : (b.take (bufferSize - 2 - (m.readPtr - m.bufferIndex * bufferSize))).length ≤
        bufferSize - 2 - (m.readPtr - m.bufferIndex * bufferSize) := List.length_take_le _ _
    generalize b.take (bufferSize - 2 - (m.readPtr - m.bufferIndex * bufferSize)) = got
      at h hlen
    simp only [bufferSize] at hlo hhi hlen h ⊢
    split at h
    · rename_i hfull
      simp only [Except.ok.injEq, Prod.mk.injEq] at h
      obtain ⟨h1, h2⟩ := h
      subst h1
      dsimp only
      refine ⟨by omega, by omega, ?_, ?_, ?_, ?_⟩
      · rw [store_apply, if_pos rfl]
      · intro i hi
        rw [store_apply, if_neg (by omega), store_apply, if_neg (by omega),
          storeBytes_apply, if_neg (by omega)]
      · intro _
        refine ⟨?_, by omega⟩
        rw [store_apply, if_neg (by omega), store_apply, if_pos (by omega)]
      · intro hne
        exact absurd (by omega) hne
    · rename_i hfull
      simp only [Except.ok.injEq, Prod.mk.injEq] at h
      obtain ⟨h1, h2⟩ := h
      subst h1
      dsimp only
      refine ⟨by omega, by omega, ?_, ?_, ?_, ?_⟩
      · rw [store_apply, if_pos rfl]
      · intro i hi
        rw [store_apply, if_neg (by omega), storeBytes_apply, if_neg (by omega)]
      · intro he
        exact absurd (by omega) hfull
      · intro _
        exact ⟨by omega, by omega⟩

/-- C19: with a delimiter string that is not empty, in every reachable state
`readPtr` lies in the active segment at an offset of at most `bufferSize-3`,
so that the length `readpfd` asks `read` for, `bufferSize-2` less that offset
in 64 bit arithmetic, does not wrap and is at least 1.  A `read` that returns
data writes from `readPtr` on only, the delimiter it may add at offset
`bufferSize-2` and the closing NUL at an offset of at most `bufferSize-1`.
And the unfinished line the buffer search copies has fewer than
`bufferSize-2` bytes and goes to the start of a segment of the buffer. -/
theorem accesses_stay_in_segment (s : PollFileDescriptor) (hs : Reachable s)
    (hd : s.option.delimiters.headD 0 ≠ 0) :
    (s.bufferIndex < bufferCount ∧ s.bufferIndex * bufferSize ≤ s.readPtr ∧
      s.readPtr - s.bufferIndex * bufferSize ≤ bufferSize - 3) ∧
    ((bufferSize - 2 + s.bufferIndex * bufferSize + (2 ^ 64 - s.readPtr % 2 ^ 64)) % 2 ^ 64 =
        bufferSize - 2 - (s.readPtr - s.bufferIndex * bufferSize) ∧
      1 ≤ bufferSize - 2 - (s.readPtr - s.bufferIndex * bufferSize)) ∧
    (∀ (w : Sys) (now revents : Nat) (bytes : List Nat) (s3 : PollFileDescriptor) (c : Nat),
      readpfd (hangUp (settleHeld s w now).1 revents) (.data bytes) = .ok (s3, c) →
      s.readPtr ≤ s3.readPtr ∧
        s3.readPtr ≤ s.bufferIndex * bufferSize + (bufferSize - 1) ∧
        s3.buffer s3.readPtr = 0 ∧
        (∀ i, i < s.readPtr ∨ s3.readPtr < i → s3.buffer i = s.buffer i) ∧
        (s3.readPtr = s.bufferIndex * bufferSize + (bufferSize - 1) →
          s3.buffer (s.bufferIndex * bufferSize + (bufferSize - 2)) =
            s.option.delimiters.headD 0)) ∧
    (∀ (w : Sys) (now revents : Nat) (rd : ReadResult) (s5 : PollFileDescriptor) (w5 : Sys)
      (sp : Nat), readLines s w now revents rd = .ok (s5, w5, some sp) →
      (bstr s5.buffer sp).length < bufferSize - 2 ∧
        s.bufferIndex * bufferSize ≤ sp ∧
        sp + (bstr s5.buffer sp).length ≤ s.bufferIndex * bufferSize + (bufferSize - 1) ∧
        ∃ s6, rotate w5 s5 sp = .ok s6 ∧ s6.bufferIndex < bufferCount ∧
          s6.readPtr = s6.bufferIndex * bufferSize + (bstr s5.buffer sp).length ∧
          (∀ i, i / bufferSize ≠ s6.bufferIndex → s6.buffer i = s5.buffer i)) := by
  have hinv := reachable_inv s hs
  have hlo := hinv.lo
  have hhi := hinv.hiD hd
  have hidx := hinv.idx
  refine ⟨⟨hidx, hlo, by omega⟩, ⟨?_, ?_⟩, ?_, ?_⟩
  · simp only [bufferSize, bufferCount] at *; omega
  · simp only [bufferSize, bufferCount] at *; omega
  · intro w now revents bytes s3 c h
    obtain ⟨i1, i2, i3, i4⟩ := settleHeld_inv s w now hinv
    obtain ⟨_, v2, _⟩ := settleHeld_view s w now hinv
    obtain ⟨k1, k2, k3, _⟩ := hangUp_fields (settleHeld s w now).1 revents
    obtain ⟨_, _, _, k5⟩ := hangUp_keeps (settleHeld s w now).1 revents
    have hinv2 : Inv (hangUp (settleHeld s w now).1 revents) := inv_hangUp revents i1
    have hopt : (hangUp (settleHeld s w now).1 revents).option = s.option := k3.trans i4
    obtain ⟨b1, b2, b3, b4, b5, _⟩ := readpfd_bounds _ hinv2 (by rw [hopt]; exact hd)
      bytes s3 c h
    rw [k5, v2] at b1 b4
    rw [k2, i3] at b2 b5
    rw [hopt] at b5
    rw [k1, i2] at b4
    exact ⟨b1, b2, b3, b4, fun e => (b5 e).1⟩
  · intro w now revents rd s5 w5 sp h
    obtain ⟨m1, m2, _, _, m5⟩ := readLines_mid s w now revents rd hinv _ h
    obtain ⟨e, hmid, hnone⟩ := m5 sp rfl
    obtain ⟨s6, r1, r2, r3, r4, _, _, _, r8, _⟩ := rotate_inv w5 s5 sp e hmid hnone
    have hlen6 := r2.hiD (by rw [r3]; show s5.option.delimiters.headD 0 ≠ 0; rw [m1]; exact hd)
    have hlen : (bstr s5.buffer sp).length < bufferSize - 2 := by
      simp only [bufferSize] at *; omega
    have hsp : s.bufferIndex * bufferSize ≤ sp := by
      have := hmid.lo
      rw [show s5.bufferIndex = s.bufferIndex from m2] at this
      exact this
    refine ⟨hlen, hsp, ?_, s6, r1, r2.idx, r8, r4⟩
    have hle := hmid.le
    have hhi5 := hmid.hi
    rw [show s5.bufferIndex = s.bufferIndex from m2] at hhi5
    have hcl : (bstr s5.buffer sp).length ≤ e - sp := by
      by_contra hcon
      have hbig : e - sp < (bstr s5.buffer sp).length := by omega
      have hnul := hmid.nul
      have := cstr_prefix_ne s5.buffer (bufferCount * bufferSize - sp) sp (e - sp) hbig
      rw [show sp + (e - sp) = e by omega] at this
      exact this hnul
    omega

theorem accesses_stay_in_segment_witness :
    Reachable wake2.1 ∧ wake2.1.option.delimiters.headD 0 ≠ 0 ∧
      wake2.1.readPtr - wake2.1.bufferIndex * bufferSize = 2 ∧
      (bufferSize - 2 + wake2.1.bufferIndex * bufferSize +
        (2 ^ 64 - wake2.1.readPtr % 2 ^ 64)) % 2 ^ 64 = 1020 :=
  ⟨Reachable.wake fifo0 sys0 1000 POLLIN (.data [97, 98]) wake2 fifo0_reachable rfl,
    by decide, by decide,
    (accesses_stay_in_segment wake2.1
      (Reachable.wake fifo0 sys0 1000 POLLIN (.data [97, 98]) wake2 fifo0_reachable rfl)
      (by decide)).2.1.1.trans (by decide)⟩

end PollFileDescriptor

/-- The calls of the `for` loop of `main`: the descriptors `xs` are checked in
order from the process state `w`, each call starting from the state the call
before left, and give the results `rs` and the state `w2`. -/
theorem checkAll_calls (now : Nat) : ∀ (xs : List (PollFileDescriptor × Nat × ReadResult))
    (w : Sys) (t0 : Nat) (rs : List (PollFileDescriptor × Nat)) (w2 : Sys) (t : Nat),
    checkAll now xs w t0 = .ok (rs, w2, t) →
    rs.length = xs.length ∧ t = (rs.map (·.2)).foldl min t0 ∧
      (∀ x ∈ rs, x.2 ≤ FOREVER) ∧
      match xs, rs with
      | [], [] => w2 = w
      | x :: rest, r :: rs1 =>
        ∃ w1, PollFileDescriptor.checkpfd x.1 w now x.2.1 x.2.2 = .ok (r.1, w1, r.2) ∧
          checkAll now rest w1 (min t0 r.2) = .ok (rs1, w2, t)
      | _, _ => False := by
  intro xs
  induction xs with
  | nil =>
    intro w t0 rs w2 t h
    simp only [checkAll, Except.ok.injEq, Prod.mk.injEq] at h
    obtain ⟨rfl, rfl, rfl⟩ := h
    exact ⟨rfl, rfl, by simp, rfl⟩
  | cons x rest ih =>
    intro w t0 rs w2 t h
    unfold checkAll at h
    cases hc : PollFileDescriptor.checkpfd x.1 w now x.2.1 x.2.2 with
    | error e => rw [hc] at h; cases h
    | ok r =>
      rw [hc] at h
      dsimp only at h
      cases hr : checkAll now rest r.2.1 (min t0 r.2.2) with
      | error e => rw [hr] at h; cases h
      | ok q =>
        rw [hr] at h
        simp only [Except.ok.injEq, Prod.mk.injEq] at h
        obtain ⟨rfl, rfl, rfl⟩ := h
        obtain ⟨i1, i2, i3, _⟩ := ih r.2.1 (min t0 r.2.2) q.1 q.2.1 q.2.2 hr
        have hw := PollFileDescriptor.checkpfd_wakeTime x.1 w now x.2.1 x.2.2 r hc
        have hle : r.2.2 ≤ FOREVER := by
          rw [hw]
          unfold PollFileDescriptor.wakeTime
          split
          · unfold usub64 FOREVER; omega
          · exact le_refl _
        refine ⟨by simp [i1], ?_, ?_, r.2.1, hc, hr⟩
        · simp only [List.map_cons, List.foldl_cons]
          exact i2
        · intro y hy
          rcases List.mem_cons.mp hy with rfl | hy
          · exact hle
          · exact i3 y hy

theorem foldl_min_forever : ∀ (ts : List Nat) (t0 : Nat), (∀ t ∈ ts, t ≤ FOREVER) →
    t0 ≤ FOREVER → (ts.foldl min t0 = FOREVER ↔ t0 = FOREVER ∧ ∀ t ∈ ts, t = FOREVER) := by
  intro ts
  induction ts with
  | nil => intro t0 _ _; simp
  | cons a ts ih =>
    intro t0 h h0
    have ha := h a (List.mem_cons_self _ _)
    rw [List.foldl_cons, ih (min t0 a) (fun t ht => h t (List.mem_cons_of_mem _ ht))
      (by omega)]
    simp only [List.mem_cons, forall_eq_or_imp]
    constructor
    · rintro ⟨h1, h2⟩
      refine ⟨by omega, by omega, h2⟩
    · rintro ⟨h1, h2, h3⟩
      exact ⟨by omega, h3⟩

/-- The `for` loop of `main` leaves in `timeout` the minimum of the times the
descriptors returned, which is `FOREVER` exactly when each of them returned
`FOREVER`. -/
theorem checkAll_timeout (now : Nat) (xs : List (PollFileDescriptor × Nat × ReadResult))
    (w : Sys) (rs : List (PollFileDescriptor × Nat)) (w2 : Sys) (t : Nat)
    (h : checkAll now xs w FOREVER = .ok (rs, w2, t)) :
    t = (rs.map (·.2)).foldl min FOREVER ∧ (t = FOREVER ↔ ∀ r ∈ rs, r.2 = FOREVER) := by
  obtain ⟨_, h2, h3, _⟩ := checkAll_calls now xs w FOREVER rs w2 t h
  refine ⟨h2, ?_⟩
  rw [h2, foldl_min_forever _ FOREVER (by
    intro t ht
    simp only [List.mem_map] at ht
    obtain ⟨r, hr, rfl⟩ := ht
    exact h3 r hr) (le_refl _)]
  constructor
  · rintro ⟨_, h⟩ r hr
    exact h r.2 (List.mem_map.mpr ⟨r, hr, rfl⟩)
  · intro h
    refine ⟨rfl, ?_⟩
    intro t ht
    simp only [List.mem_map] at ht
    obtain ⟨r, hr, rfl⟩ := ht
    exact h r hr

/-- The value handed to `poll` is negative exactly for `FOREVER` and for a
`timeout / 1000` whose low 32 bits are `2^31` or more; below `2^31 * 1000` it
is `timeout / 1000`. -/
theorem pollTimeout_neg (timeout : Nat) (h : timeout ≤ FOREVER) :
    (pollTimeout timeout < 0 ↔
      timeout = FOREVER ∨ 2 ^ 31 ≤ (timeout / 1000) % 2 ^ 32) ∧
    (timeout < 2 ^ 31 * 1000 → pollTimeout timeout = ((timeout / 1000 : Nat) : Int)) ∧
    pollTimeout FOREVER = -1 := by
  refine ⟨?_, ?_, by decide⟩
  · by_cases h1 : timeout = FOREVER
    · subst h1
      simp only [true_or, iff_true]
      decide
    · have e : (if timeout = FOREVER then 2 ^ 64 - 1 else timeout / 1000) = timeout / 1000 :=
        if_neg h1
      simp only [h1, false_or]
      unfold pollTimeout toInt
      rw [e]
      generalize timeout / 1000 = q
      split <;> omega
  · intro hlt
    have h1 : timeout ≠ FOREVER := by unfold FOREVER; omega
    have e : (if timeout = FOREVER then 2 ^ 64 - 1 else timeout / 1000) = timeout / 1000 :=
      if_neg h1
    have hq : timeout / 1000 < 2 ^ 31 := by omega
    unfold pollTimeout toInt
    rw [e]
    generalize timeout / 1000 = q at hq
    have hm : q % 2 ^ 32 = q := Nat.mod_eq_of_lt (by omega)
    rw [hm, if_pos hq]

theorem turn_fst (timeout now : Nat) (pfds : List (PollFileDescriptor × Nat × ReadResult))
    (w : Sys) : (turn timeout now pfds w).1 = pollTimeout timeout := rfl

/-- C13 (the code where it fails): the descriptor opened with
`--debounce 4294967295` reads `"a\nb\n"` at time 1700000000000000; `checkpfd`
prints `a`, holds `b` and returns 4294967295000, which the `for` loop of `main`
leaves in `timeout` as the minimum.  It is not `FOREVER`, yet the value handed
to the next `poll`, `timeout / 1000 = 4294967295` converted to `int`, is -1:
the wait has no limit although a descriptor asked to be woken. -/
theorem long_debounce_waits_forever :
    checkAll 1700000000000000
        [(PollFileDescriptor.fifoLong, POLLIN, ReadResult.data [97, 10, 98, 10])]
        PollFileDescriptor.sys0 FOREVER =
      .ok (PollFileDescriptor.returned ([], PollFileDescriptor.sys0, 0)
        (checkAll 1700000000000000
          [(PollFileDescriptor.fifoLong, POLLIN, ReadResult.data [97, 10, 98, 10])]
          PollFileDescriptor.sys0 FOREVER)) ∧
      (PollFileDescriptor.returned ([], PollFileDescriptor.sys0, 0)
        (checkAll 1700000000000000
          [(PollFileDescriptor.fifoLong, POLLIN, ReadResult.data [97, 10, 98, 10])]
          PollFileDescriptor.sys0 FOREVER)).2.2 = 4294967295000 ∧
      (PollFileDescriptor.returned ([], PollFileDescriptor.sys0, 0)
        (checkAll 1700000000000000
          [(PollFileDescriptor.fifoLong, POLLIN, ReadResult.data [97, 10, 98, 10])]
          PollFileDescriptor.sys0 FOREVER)).1.map
        (fun r => (r.1.heldPtr.map (PollFileDescriptor.bstr r.1.buffer), r.2)) =
        [(some [98], 4294967295000)] ∧
      (PollFileDescriptor.returned ([], PollFileDescriptor.sys0, 0)
        (checkAll 1700000000000000
          [(PollFileDescriptor.fifoLong, POLLIN, ReadResult.data [97, 10, 98, 10])]
          PollFileDescriptor.sys0 FOREVER)).2.1.lines = [[97]] ∧
      4294967295000 ≠ FOREVER ∧
      pollTimeout 4294967295000 = -1 :=
  ⟨rfl, by decide, by decide, by decide, by decide, by decide⟩

end Poll
